import Mathlib

/-!
Verification of the LMDB-backed tuple store of synapse (src/synapse/cores/lmdb.py).

The store persists rows (iden, prop, value, timestamp) in one primary table
keyed by an integer primary key (pk), plus three duplicate-allowed index
tables (ip, pvt, pt) whose keys are byte strings ordered lexicographically
and whose values are the msgpack encoding of the pk.

Shallow embedding conventions:
* Byte strings are `List Nat` compared lexicographically (Python bytes order).
* `msgenpack` (synapse.common, not under src/) is modelled from the msgpack
  format specification: canonical smallest-width integer encodings and the
  raw/str family for strings.
* `xxhash.xxh64(...).intdigest()` is an external library call; it is modelled
  as an abstract parameter `hash64 : List Nat → Nat` of every operation.
* LMDB tables are modelled as association lists of (key, value) byte-string
  pairs kept sorted by (key, value); LMDB cursors (set_range, iternext,
  iterprev, delete-with-auto-advance) are modelled by splitting the sorted
  list at the sought position and recursing over the remaining suffix.
* The primary `rows` table (integerkey) is modelled as a list of (pk, Row)
  pairs kept sorted by pk; the msgpack payload round-trip of the primary
  table value (iden ++ prop ++ value ++ timestamp) is abstracted: the table
  stores the decoded row, which is what every claim observes.
* A Python `raise` aborts the enclosing write transaction, leaving the store
  unchanged; operations therefore return `Except DbErr DbState`, and an
  `error` result means the pre-call state persists.
-/

namespace LmdbCore

/-- Byte strings: lists of byte values. -/
abbrev Bytes := List Nat

/-- Python bytes `<`: strict lexicographic order, a proper initial segment
being smaller. -/
def bLt : Bytes → Bytes → Bool
  | [], [] => false
  | [], _ :: _ => true
  | _ :: _, [] => false
  | a :: as, b :: bs => if a < b then true else if a == b then bLt as bs else false

/-- Python bytes `<=`. -/
def bLe : Bytes → Bytes → Bool
  | [], _ => true
  | _ :: _, [] => false
  | a :: as, b :: bs => if a < b then true else if a == b then bLe as bs else false

/-- `isInit a b` holds when `a` is an initial segment of `b`. -/
def isInit : Bytes → Bytes → Bool
  | [], _ => true
  | _ :: _, [] => false
  | a :: as, b :: bs => a == b && isInit as bs

/-- Big-endian fixed-width byte encoding of a natural number
(`w` bytes, value taken mod 256^w). -/
def beBytes : Nat → Nat → Bytes
  | 0, _ => []
  | w + 1, n => (n / 256 ^ w) % 256 :: beBytes w (n % 256 ^ w)

/-- Value of a big-endian byte string (inverse of `beBytes`). -/
def beVal : Bytes → Nat
  | [] => 0
  | b :: bs => b * 256 ^ bs.length + beVal bs

/-- Modelled from the spec: `synapse.common.msgenpack` is not under src/;
msgpack encoding of a non-negative integer, smallest canonical width
(positive fixint, uint8 0xcc, uint16 0xcd, uint32 0xce, uint64 0xcf). -/
def msgenpackNat (n : Nat) : Bytes :=
  if n < 128 then [n]
  else if n < 256 then [0xcc, n]
  else if n < 65536 then 0xcd :: beBytes 2 n
  else if n < 4294967296 then 0xce :: beBytes 4 n
  else 0xcf :: beBytes 8 n

/-- Modelled from the spec: msgpack encoding of a signed integer
(negative fixint 0xe0..0xff, int8 0xd0, int16 0xd1, int32 0xd2, int64 0xd3). -/
def msgenpackInt (v : Int) : Bytes :=
  if 0 ≤ v then msgenpackNat v.toNat
  else if -32 ≤ v then [(256 + v).toNat]
  else if -128 ≤ v then [0xd0, (256 + v).toNat]
  else if -32768 ≤ v then 0xd1 :: beBytes 2 (65536 + v).toNat
  else if -2147483648 ≤ v then 0xd2 :: beBytes 4 (4294967296 + v).toNat
  else 0xd3 :: beBytes 8 (18446744073709551616 + v).toNat

/-- Modelled from the spec: msgpack encoding of a byte string of length < 65536
(fixstr 0xa0|len, str8 0xd9, str16 0xda). -/
def msgenpackStr (s : Bytes) : Bytes :=
  if s.length < 32 then (0xa0 + s.length) :: s
  else if s.length < 256 then 0xd9 :: s.length :: s
  else 0xda :: beBytes 2 s.length ++ s

/-- msgpack decoding of a canonically encoded non-negative integer
(inverse of `msgenpackNat`); models `msgunpack` on an index value. -/
def msgunpackNat : Bytes → Option Nat
  | [n] => if n < 128 then some n else none
  | [0xcc, n] => some n
  | 0xcd :: bs => if bs.length = 2 then some (beVal bs) else none
  | 0xce :: bs => if bs.length = 4 then some (beVal bs) else none
  | 0xcf :: bs => if bs.length = 8 then some (beVal bs) else none
  | _ => none

/-- Largest primary key value (sys.maxsize on a 64-bit host). -/
def MAX_PK : Nat := 2 ^ 63 - 1

/-- MAX_INT_VAL = 2**63 - 1 (matches sqlite3). -/
def MAX_INT_VAL : Int := 2 ^ 63 - 1

/-- MIN_INT_VAL = -(2**63). -/
def MIN_INT_VAL : Int := -(2 ^ 63)

/-- NEGATIVE_VAL_MARKER_ENC = msgenpack(-1). -/
def NEGATIVE_VAL_MARKER_ENC : Bytes := msgenpackInt (-1)

/-- STRING_VAL_MARKER_ENC = msgenpack(-2). -/
def STRING_VAL_MARKER_ENC : Bytes := msgenpackInt (-2)

/-- HASH_VAL_MARKER_ENC = msgenpack(-3). -/
def HASH_VAL_MARKER_ENC : Bytes := msgenpackInt (-3)

/-- LARGE_STRING_SIZE: string values of this size or larger are hashed in
the pvt index. -/
def LARGE_STRING_SIZE : Nat := 128

/-- MAX_PROP_LEN: largest length allowed for a prop. -/
def MAX_PROP_LEN : Nat := 350

/-- MAX_TIME_ENC = msgenpack(MAX_INT_VAL). -/
def MAX_TIME_ENC : Bytes := msgenpackInt MAX_INT_VAL

/-- MAX_INDEX_KEY = b'\xff' * 20, the terminal index sentinel key. -/
def MAX_INDEX_KEY : Bytes := List.replicate 20 0xff

/-- A row value: a signed integer or a byte string. -/
inductive Valu where
  | vint (i : Int)
  | vstr (s : Bytes)
  deriving DecidableEq, Repr

/-- `_enc_val_key(v)`: non-negative integers are msgpack encoded; negative
integers are the negative marker followed by the encoding of the negated
value; strings of length >= 128 are the hash marker followed by the encoded
xxh64 digest; shorter strings are the string marker followed by their
msgpack encoding. -/
def encValKey (hash64 : Bytes → Nat) : Valu → Bytes
  | .vint v =>
      if 0 ≤ v then msgenpackNat v.toNat
      else NEGATIVE_VAL_MARKER_ENC ++ msgenpackNat (-v).toNat
  | .vstr s =>
      if LARGE_STRING_SIZE ≤ s.length then
        HASH_VAL_MARKER_ENC ++ msgenpackNat (hash64 s)
      else STRING_VAL_MARKER_ENC ++ msgenpackStr s

/-- A row (iden, prop, value, timestamp).  The iden is kept in its decoded
16-byte form (`_enc_iden` = unhexlify is the identity in this
representation). -/
structure Row where
  iden : Bytes
  prop : Bytes
  valu : Valu
  tstamp : Int
  deriving DecidableEq, Repr

/-- Key of a row in the pvt index: p_enc + v_key_enc + t_enc. -/
def pvtKeyOf (hash64 : Bytes → Nat) (r : Row) : Bytes :=
  msgenpackStr r.prop ++ encValKey hash64 r.valu ++ msgenpackInt r.tstamp

/-- Key of a row in the ip index: i_enc + p_enc. -/
def ipKeyOf (r : Row) : Bytes :=
  r.iden ++ msgenpackStr r.prop

/-- Key of a row in the pt index: p_enc + t_enc. -/
def ptKeyOf (r : Row) : Bytes :=
  msgenpackStr r.prop ++ msgenpackInt r.tstamp

/-- An entry of a dupsort index table: (key, value) byte strings. -/
abbrev Ent := Bytes × Bytes

/-- LMDB dupsort order on entries: by key, ties broken by value bytes. -/
def entLe (e1 e2 : Ent) : Bool :=
  bLt e1.1 e2.1 || (e1.1 == e2.1 && bLe e1.2 e2.2)

/-- The order on entries as a relation, for sorting. -/
def entR (e1 e2 : Ent) : Prop := entLe e1 e2 = true

instance : DecidableRel entR := fun _ _ => instDecidableEqBool _ _

/-- Insert one entry into a table kept sorted by `entR` (one `put`). -/
def putEnt (e : Ent) (t : List Ent) : List Ent := List.orderedInsert entR e t

/-- Insert many entries (`putmulti` with dupdata=True). -/
def putEnts (es : List Ent) (t : List Ent) : List Ent :=
  es.foldl (fun acc e => putEnt e acc) t

/-- Canonical sorted table holding exactly the entries of `l`. -/
def sortEnts (l : List Ent) : List Ent := List.insertionSort entR l

/-- `txn.delete(k, value=v)`: remove the exact (k, v) pair; `none` when the
pair is absent (Python returns False). -/
def delEnt (k v : Bytes) : List Ent → Option (List Ent)
  | [] => none
  | e :: es => if e = (k, v) then some es else (delEnt k v es).map (e :: ·)

/-- `cursor.set_range(k)`: split a sorted table into the entries with key
lexicographically below `k` and the remaining suffix (the cursor lands on
the head of the suffix; an empty suffix is a failed set_range). -/
def setRange (t : List Ent) (k : Bytes) : List Ent × List Ent :=
  t.span (fun e => bLt e.1 k)

/-- The terminal sentinel entry (MAX_INDEX_KEY, b''). -/
def maxSent : Ent := (MAX_INDEX_KEY, [])

/-- The leading pvt sentinel entry (b'\x00', b''). -/
def zeroSent : Ent := ([0], [])

/-- Errors surfaced by the store; a raise aborts the write transaction. -/
inductive DbErr where
  | limitReached
  | inconsistent
  | deleteFailure
  | nonTermination
  deriving DecidableEq, Repr

/-- The store: the primary rows table (sorted by pk), the three sorted
index tables, and the in-memory next-pk counter. -/
structure DbState where
  rows : List (Nat × Row)
  ip : List Ent
  pvt : List Ent
  pt : List Ent
  next_pk : Nat
  deriving DecidableEq, Repr

deriving instance DecidableEq for Except

/-- The state right after `_initDbConn` on an empty environment: sentinels
written, next_pk = largest stored pk (0) + 1. -/
def emptyState : DbState :=
  { rows := [], ip := [maxSent], pvt := [zeroSent, maxSent], pt := [maxSent],
    next_pk := 1 }

/-- `_get_largest_pk`: the last key of the integer-keyed rows table
(0 when empty). -/
def getLargestPk (rows : List (Nat × Row)) : Nat :=
  match rows.getLast? with
  | none => 0
  | some pr => pr.1

/-- The next-pk computation of `_initDbConn`: raises when the largest
stored pk is MAX_PK, else largest + 1. -/
def initNextPk (rows : List (Nat × Row)) : Except DbErr Nat :=
  if getLargestPk rows = MAX_PK then .error .limitReached
  else .ok (getLargestPk rows + 1)

/-- Look up a pk in the rows table. -/
def lookupRow (rows : List (Nat × Row)) (pk : Nat) : Option Row :=
  (rows.find? (fun pr => pr.1 == pk)).map (·.2)

/-- Remove a pk from the rows table (txn.pop). -/
def removeRow (rows : List (Nat × Row)) (pk : Nat) : List (Nat × Row) :=
  rows.eraseP (fun pr => pr.1 == pk)

/-- `_getRowByPkValEnc`: decode the pk from the compact index value, fetch
(or pop, when do_delete) the row; a missing row is DatabaseInconsistent. -/
def getRowByPkValEnc (st : DbState) (pk_val_enc : Bytes) (do_delete : Bool) :
    Except DbErr (Row × DbState) :=
  match msgunpackNat pk_val_enc with
  | none => .error .inconsistent
  | some pk =>
    match lookupRow st.rows pk with
    | none => .error .inconsistent
    | some r =>
      .ok (r, if do_delete then { st with rows := removeRow st.rows pk } else st)

/-- `_delRowAndIndices`: pops the primary row (do_delete=True) and only then
checks only_if_val, returning False (with the row already popped and no
index touched) on a value mismatch; otherwise deletes the ip, pvt and pt
entries selected by the flags, any missing entry being
DatabaseInconsistent. -/
def delEntE (k v : Bytes) (t : List Ent) (doIt : Bool) : Except DbErr (List Ent) :=
  if doIt then
    match delEnt k v t with
    | none => .error .inconsistent
    | some t2 => .ok t2
  else .ok t

def delRowAndIndices (hash64 : Bytes → Nat) (st : DbState) (pk_val_enc : Bytes)
    (i_enc p_enc v_key_enc t_enc : Option Bytes)
    (delete_ip delete_pvt delete_pt : Bool) (only_if_val : Option Valu) :
    Except DbErr (Bool × DbState) :=
  (getRowByPkValEnc st pk_val_enc true).bind fun rs =>
    if (match only_if_val with | some w => w != rs.1.valu | none => false) then
      .ok (false, rs.2)
    else
      (delEntE (i_enc.getD rs.1.iden ++ p_enc.getD (msgenpackStr rs.1.prop))
          pk_val_enc rs.2.ip delete_ip).bind fun ip2 =>
      (delEntE (p_enc.getD (msgenpackStr rs.1.prop) ++
            v_key_enc.getD (encValKey hash64 rs.1.valu) ++
            t_enc.getD (msgenpackInt rs.1.tstamp))
          pk_val_enc rs.2.pvt delete_pvt).bind fun pvt2 =>
      (delEntE (p_enc.getD (msgenpackStr rs.1.prop) ++
            t_enc.getD (msgenpackInt rs.1.tstamp))
          pk_val_enc rs.2.pt delete_pt).bind fun pt2 =>
      .ok (true, { rs.2 with ip := ip2, pvt := pvt2, pt := pt2 })

/-- Loop of `_delRowsById` over the ip suffix at the cursor: stop at the
first key whose 16-byte head differs from i_enc; otherwise delete the
cursor entry (auto-advance) and delete the row and remaining indices.
Returns the suffix entries left in the ip table and the resulting state. -/
def delByIdGo (hash64 : Bytes → Nat) (i_enc : Bytes) :
    List Ent → DbState → Except DbErr (List Ent × DbState)
  | [], st => .ok ([], st)
  | e :: es, st =>
    if (e.1.take i_enc.length) ≠ i_enc then .ok (e :: es, st)
    else
      let p_enc := e.1.drop i_enc.length
      (delRowAndIndices hash64 st e.2 (some i_enc) (some p_enc) none none
          false true true none).bind fun bs =>
        delByIdGo hash64 i_enc es bs.2

/-- `_delRowsById`. -/
def delRowsById (hash64 : Bytes → Nat) (st : DbState) (iden : Bytes) :
    Except DbErr DbState :=
  let i_enc := iden
  let ps := setRange st.ip i_enc
  match ps.2 with
  | [] => .error .inconsistent
  | suf =>
    (delByIdGo hash64 i_enc suf st).bind fun ks =>
      .ok { ks.2 with ip := ps.1 ++ ks.1 }

/-- Loop of `_delRowsByIdProp`: stop at the first key not starting with
i_enc + p_enc; on a value mismatch (delRowAndIndices returned False, the
row already popped) keep the ip entry and advance, else delete the ip
entry (auto-advance). -/
def delByIdPropGo (hash64 : Bytes → Nat) (first_key : Bytes) (i_enc p_enc : Bytes)
    (valu : Option Valu) :
    List Ent → DbState → Except DbErr (List Ent × DbState)
  | [], st => .ok ([], st)
  | e :: es, st =>
    if (e.1.take first_key.length) ≠ first_key then .ok (e :: es, st)
    else
      (delRowAndIndices hash64 st e.2 (some i_enc) (some p_enc) none none
          false true true valu).bind fun bs =>
        if bs.1 then
          delByIdPropGo hash64 first_key i_enc p_enc valu es bs.2
        else
          match es with
          | [] => .error .inconsistent
          | _ =>
            (delByIdPropGo hash64 first_key i_enc p_enc valu es bs.2).map
              (fun ks => (e :: ks.1, ks.2))

/-- `_delRowsByIdProp`. -/
def delRowsByIdProp (hash64 : Bytes → Nat) (st : DbState) (iden prop : Bytes)
    (valu : Option Valu) : Except DbErr DbState :=
  let i_enc := iden
  let p_enc := msgenpackStr prop
  let first_key := i_enc ++ p_enc
  let ps := setRange st.ip first_key
  match ps.2 with
  | [] => .error .inconsistent
  | suf =>
    (delByIdPropGo hash64 first_key i_enc p_enc valu suf st).bind fun ks =>
      .ok { ks.2 with ip := ps.1 ++ ks.1 }

/-- Python 3 equality between an int and a bytes object: always False.
This models the comparison `v_key_enc[0] == HASH_VAL_MARKER_ENC`
(lmdb.py line 488), where indexing a bytes object yields an int. -/
def pyIntEqBytes (n : Nat) (b : Bytes) : Bool := false

/-- Loop of `_getRowsByProp` over the suffix at the cursor.  Carries fuel
because the hashed-value mismatch branch continues without advancing the
cursor (under Python 3, v_is_hashed is always false, so the branch is
dead; under Python 2 it loops forever, which surfaces as fuel
exhaustion).  Returns (suffix left in the scanned table, count, collected
rows, state). -/
def getByPropGo (hash64 : Bytes → Nat) (p_enc last_key : Bytes) (valu : Option Valu)
    (v_is_hashed do_count_only do_delete_only : Bool) (limit : Option Int) :
    Nat → List Ent → Nat → List Row → DbState →
    Except DbErr (List Ent × Nat × List Row × DbState)
  | 0, _, _, _, _ => .error .nonTermination
  | _ + 1, [], _, _, _ =>
    -- past the end the cursor yields an empty item: the empty key is below
    -- last_key, then in delete mode cursor.delete() fails ('Delete
    -- failure'); in get mode cursor.next() already failed one step earlier
    if do_delete_only then .error .deleteFailure else .error .inconsistent
  | fuel + 1, e :: es, count, ret, st =>
    if bLe last_key e.1 then .ok (e :: es, count, ret, st)
    else if do_delete_only then
      (delRowAndIndices hash64 st e.2 none (some p_enc) none none
          true (valu.isNone) (valu.isSome) valu).bind fun bs =>
        if (match limit with | some l => decide (l ≤ ((count + 1 : Nat) : Int)) | none => false) then
          .ok (es, count + 1, ret, bs.2)
        else getByPropGo hash64 p_enc last_key valu v_is_hashed do_count_only
          do_delete_only limit fuel es (count + 1) ret bs.2
    else
      ((if !do_count_only || v_is_hashed then
          (getRowByPkValEnc st e.2 false).bind fun rs =>
            if v_is_hashed && (valu != some rs.1.valu) then .ok (ret, true)
            else .ok ((if !do_count_only then ret ++ [rs.1] else ret), false)
        else .ok (ret, false)) : Except DbErr (List Row × Bool)).bind fun rc =>
        if rc.2 then
          -- continue: back to the top of the loop without advancing
          getByPropGo hash64 p_enc last_key valu v_is_hashed do_count_only
            do_delete_only limit fuel (e :: es) count ret st
        else
          if (match limit with | some l => decide (l ≤ ((count + 1 : Nat) : Int)) | none => false) then
            .ok (e :: es, count + 1, rc.1, st)
          else
            match es with
            | [] => .error .inconsistent
            | _ => getByPropGo hash64 p_enc last_key valu v_is_hashed do_count_only
                do_delete_only limit fuel es (count + 1) rc.1 st

/-- `_getRowsByProp`: equality-by-property scan over pt (value omitted) or
pvt, from p_enc + v_key_enc + mintime_enc up to (excluding) p_enc +
v_key_enc + maxtime_enc, with count-only and delete-only modes.  Returns
(count, rows, state). -/
def getRowsByProp (hash64 : Bytes → Nat) (st : DbState) (prop : Bytes)
    (valu : Option Valu) (limit : Option Int) (mintime maxtime : Option Int)
    (do_count_only do_delete_only : Bool) :
    Except DbErr (Nat × List Row × DbState) :=
  let p_enc := msgenpackStr prop
  let v_key_enc := match valu with | none => [] | some w => encValKey hash64 w
  let v_is_hashed := valu.isSome &&
    pyIntEqBytes (v_key_enc.headD 0) HASH_VAL_MARKER_ENC
  let mintime_enc := match mintime with | none => [] | some m => msgenpackInt m
  let maxtime_enc := match maxtime with | none => MAX_TIME_ENC | some m => msgenpackInt m
  let first_key := p_enc ++ v_key_enc ++ mintime_enc
  let last_key := p_enc ++ v_key_enc ++ maxtime_enc
  let tbl := if valu.isSome then st.pvt else st.pt
  let ps := setRange tbl first_key
  match ps.2 with
  | [] => .error .inconsistent
  | suf =>
    (getByPropGo hash64 p_enc last_key valu v_is_hashed do_count_only
        do_delete_only limit (suf.length + 1) suf 0 [] st).bind fun out =>
      let st2 := out.2.2.2
      if do_delete_only then
        let t2 := ps.1 ++ out.1
        .ok (out.2.1, out.2.2.1,
          if valu.isSome then { st2 with pvt := t2 } else { st2 with pt := t2 })
      else .ok (out.2.1, out.2.2.1, st2)

/-- `_getSizeByProp`. -/
def getSizeByProp (hash64 : Bytes → Nat) (st : DbState) (prop : Bytes)
    (valu : Option Valu) (limit : Option Int) (mintime maxtime : Option Int) :
    Except DbErr Nat :=
  (getRowsByProp hash64 st prop valu limit mintime maxtime true false).map (·.1)

/-- `_delRowsByProp`. -/
def delRowsByProp (hash64 : Bytes → Nat) (st : DbState) (prop : Bytes)
    (valu : Option Valu) (mintime maxtime : Option Int) :
    Except DbErr DbState :=
  (getRowsByProp hash64 st prop valu none mintime maxtime false true).map
    (fun out => out.2.2)

/-- Forward loop of `_subrangeRows` (iternext): terminate when the current
key truncated to last_key's length satisfies term_cmp against last_key;
an exhausted iterator ends the loop normally. -/
def subRowsF (st : DbState) (last_key : Bytes) (term : Bytes → Bytes → Bool)
    (limit : Option Int) : List Ent → Nat → List Row → Except DbErr (List Row)
  | [], _, ret => .ok ret
  | e :: es, count, ret =>
    if term (e.1.take last_key.length) last_key then .ok ret
    else
      (getRowByPkValEnc st e.2 false).bind fun rs =>
        if (match limit with | some l => decide (l ≤ ((count + 1 : Nat) : Int)) | none => false) then
          .ok (ret ++ [rs.1])
        else subRowsF st last_key term limit es (count + 1) (ret ++ [rs.1])

/-- `_subrangeRows` (do_count_only=False; the claims under verification all
take the rows path).  For a backward traversal, if set_range landed on a
key whose truncation is strictly above first_key the cursor first steps
back once, then iterprev walks the table downward from the cursor. -/
def subrangeRows (hash64 : Bytes → Nat) (st : DbState) (p_enc : Bytes)
    (first_val last_val : Int) (limit : Option Int) (right_closed : Bool) :
    Except DbErr (List Row) :=
  let first_key := p_enc ++ encValKey hash64 (.vint first_val)
  let am_going_backwards := first_val < 0
  let last_key := p_enc ++ encValKey hash64 (.vint last_val)
  let ps := setRange st.pvt first_key
  match ps.2 with
  | [] => .error .inconsistent
  | e0 :: _ =>
    if am_going_backwards then
      let term := if right_closed then bLt else bLe
      if bLt first_key (e0.1.take first_key.length) then
        match ps.1 with
        | [] => .error .inconsistent
        | pre => subRowsF st last_key term limit pre.reverse 0 []
      else subRowsF st last_key term limit (ps.1 ++ [e0]).reverse 0 []
    else
      let term := if right_closed then (fun a b => bLt b a) else (fun a b => bLe b a)
      subRowsF st last_key term limit ps.2 0 []

/-- `_rowsByMinmax` (do_count_only=False): split the query at zero, running
the negative subrange backward and the non-negative subrange forward.
The source returns the int 0 when minval > maxval; in the rows path this
is modelled as the empty list. -/
def rowsByMinmax (hash64 : Bytes → Nat) (st : DbState) (prop : Bytes)
    (minval maxval : Int) (limit : Option Int) (right_closed : Bool) :
    Except DbErr (List Row) :=
  if maxval < minval then .ok []
  else
    let do_neg_search := minval < 0
    let do_pos_search := 0 ≤ maxval
    let p_enc := msgenpackStr prop
    let negPart : Except DbErr (List Row) :=
      if do_neg_search then
        subrangeRows hash64 st p_enc minval (min (-1) maxval) limit
          (do_pos_search || right_closed)
      else .ok []
    negPart.bind fun ret =>
      let limit2 := match limit with
        | none => none
        | some l => some (l - (ret.length : Int))
      if do_neg_search && (match limit with | some _ => limit2 == some 0 | none => false) then
        .ok ret
      else if do_pos_search then
        (subrangeRows hash64 st p_enc (max 0 minval) maxval limit2
            right_closed).map (fun ret2 => ret ++ ret2)
      else .ok ret

/-- `_rowsByRange` (get_by_range): right_closed defaults to False. -/
def rowsByRange (hash64 : Bytes → Nat) (st : DbState) (prop : Bytes)
    (minval maxval : Int) (limit : Option Int) : Except DbErr (List Row) :=
  rowsByMinmax hash64 st prop minval maxval limit false

/-- The precompute loop of `_addRows`: assign pks in order, raising
DatabaseLimitReached before any write when a pk would exceed MAX_PK or a
prop is longer than MAX_PROP_LEN. -/
def addRowsPrecompute : Nat → List Row → Except DbErr (List (Nat × Row))
  | _, [] => .ok []
  | next_pk, r :: rs =>
    if MAX_PK < next_pk then .error .limitReached
    else if MAX_PROP_LEN < r.prop.length then .error .limitReached
    else (addRowsPrecompute (next_pk + 1) rs).map (fun l => (next_pk, r) :: l)

/-- `putmulti(overwrite=False, append=True)` into the integer-keyed rows
table: each key must exceed the current last key, otherwise the
consumed/added counts differ and the caller raises DatabaseInconsistent. -/
def putRowsAppend : List (Nat × Row) → List (Nat × Row) →
    Except DbErr (List (Nat × Row))
  | t, [] => .ok t
  | t, pr :: prs =>
    if (match t.getLast? with | none => true | some q => q.1 < pr.1) then
      putRowsAppend (t ++ [pr]) prs
    else .error .inconsistent

/-- `_addRows`: precompute and validate every row, then insert the primary
rows and the three index entries per row, and advance next_pk.  The
validation raises before the write transaction opens, so a rejected batch
leaves the store untouched (the error result carries no state). -/
def addRows (hash64 : Bytes → Nat) (st : DbState) (rows : List Row) :
    Except DbErr DbState :=
  (addRowsPrecompute st.next_pk rows).bind fun encs =>
    (putRowsAppend st.rows encs).bind fun rows2 =>
      .ok { rows := rows2,
            ip := putEnts (encs.map (fun pr => (ipKeyOf pr.2, msgenpackNat pr.1))) st.ip,
            pvt := putEnts (encs.map (fun pr => (pvtKeyOf hash64 pr.2, msgenpackNat pr.1))) st.pvt,
            pt := putEnts (encs.map (fun pr => (ptKeyOf pr.2, msgenpackNat pr.1))) st.pt,
            next_pk := st.next_pk + rows.length }

/-- The mutating operations of the store. -/
inductive Op where
  | add (rows : List Row)
  | delId (iden : Bytes)
  | delIdProp (iden prop : Bytes) (valu : Option Valu)
  | delProp (prop : Bytes) (valu : Option Valu) (mintime maxtime : Option Int)
  deriving Repr

/-- Run one operation. -/
def runOp (hash64 : Bytes → Nat) (st : DbState) : Op → Except DbErr DbState
  | .add rows => addRows hash64 st rows
  | .delId iden => delRowsById hash64 st iden
  | .delIdProp iden prop valu => delRowsByIdProp hash64 st iden prop valu
  | .delProp prop valu mintime maxtime => delRowsByProp hash64 st prop valu mintime maxtime

/-- A raise aborts the transaction: on error the pre-call state persists. -/
def applyExcept (st : DbState) : Except DbErr DbState → DbState
  | .ok s => s
  | .error _ => st

/-- Apply one operation, absorbing a raise into the unchanged state. -/
def applyOp (hash64 : Bytes → Nat) (st : DbState) (op : Op) : DbState :=
  applyExcept st (runOp hash64 st op)

/-- Apply a sequence of operations. -/
def applyOps (hash64 : Bytes → Nat) (st : DbState) (ops : List Op) : DbState :=
  ops.foldl (applyOp hash64) st

/-- The pks assigned by one operation: a successful append assigns the
consecutive block starting at the current counter, anything else
assigns nothing. -/
def opContribution (hash64 : Bytes → Nat) (st : DbState) (op : Op) : List Nat :=
  match op, runOp hash64 st op with
  | .add rows, .ok _ => List.range' st.next_pk rows.length
  | _, _ => []

/-- The pks assigned by the successful appends of a trace, in order. -/
def assignedPks (hash64 : Bytes → Nat) : DbState → List Op → List Nat
  | _, [] => []
  | st, op :: ops =>
    opContribution hash64 st op ++ assignedPks hash64 (applyOp hash64 st op) ops

/-- The pks present in the rows table. -/
def rowPks (st : DbState) : List Nat := st.rows.map Prod.fst

/-- The pks referenced by an index table (sentinels carry the empty value,
which decodes to nothing). -/
def indexPks (t : List Ent) : List Nat := t.filterMap (fun e => msgunpackNat e.2)

/-! ### Concrete instances used by the claims -/

/-- A trivial stand-in for the abstract xxh64 parameter, for concrete
stores whose values are integers (the hash is then never consulted). -/
def hashZero : Bytes → Nat := fun _ => 0

/-- The 16-byte iden aa...aa. -/
def idenA : Bytes := List.replicate 16 170

/-- The property name "foo". -/
def propFoo : Bytes := [102, 111, 111]

/-- The row (aa...aa, "foo", 1, 10). -/
def rowFoo1 : Row := ⟨idenA, propFoo, .vint 1, 10⟩

/-- A store holding exactly rowFoo1 (pk 1). -/
def stOne : DbState := applyExcept emptyState (addRows hashZero emptyState [rowFoo1])

/-- The row (aa...aa, "foo", 1, 2^63-1): timestamp exactly MAX_INT_VAL. -/
def rowMaxT : Row := ⟨idenA, propFoo, .vint 1, MAX_INT_VAL⟩

/-- A store holding exactly rowMaxT (pk 1). -/
def stMaxT : DbState := applyExcept emptyState (addRows hashZero emptyState [rowMaxT])

/-- A 128-byte string ("large", hashed in the value-key encoding). -/
def strA : Bytes := List.replicate 128 97

/-- Another 128-byte string, different from strA. -/
def strB : Bytes := 98 :: List.replicate 127 97

/-- The row (aa...aa, "foo", strA, 10). -/
def rowStrA : Row := ⟨idenA, propFoo, .vstr strA, 10⟩

/-- The row (aa...aa, "foo", strB, 11). -/
def rowStrB : Row := ⟨idenA, propFoo, .vstr strB, 11⟩

/-- A store holding rowStrA (pk 1) and rowStrB (pk 2); under hashZero
their value-key encodings collide. -/
def stTwo : DbState :=
  applyExcept emptyState (addRows hashZero emptyState [rowStrA, rowStrB])

/-- The row (aa...aa, "foo", 3, 10). -/
def rowFoo3 : Row := ⟨idenA, propFoo, .vint 3, 10⟩

/-- A store holding exactly rowFoo3 (pk 1). -/
def stThree : DbState := applyExcept emptyState (addRows hashZero emptyState [rowFoo3])

/-- A row with a negative integer value. -/
def rowNeg5 : Row := ⟨idenA, propFoo, .vint (-5), 20⟩

/-- A row with a non-negative integer value. -/
def rowPos2 : Row := ⟨idenA, propFoo, .vint 2, 21⟩

/-- A store holding one negative-valued and one non-negative-valued row
(pks 1 and 2), exercising the zero-split of the range scan. -/
def stNegPos : DbState :=
  applyExcept emptyState (addRows hashZero emptyState [rowNeg5, rowPos2])

/-- A second row valued -5 (same property, different timestamp). -/
def rowNeg5b : Row := ⟨idenA, propFoo, .vint (-5), 22⟩

/-- A store holding TWO rows valued -5 plus a non-negative row: the
backward scan positioned at the lower end steps over one of the
duplicates, but its output is still sorted. -/
def stNegDup : DbState :=
  applyExcept emptyState (addRows hashZero emptyState [rowNeg5, rowNeg5b, rowPos2])

/-- Pair a batch of rows with consecutive pks starting at `n` (the
assignment performed by the precompute loop of `_addRows`). -/
def assignPks : Nat → List Row → List (Nat × Row)
  | _, [] => []
  | n, r :: rs => (n, r) :: assignPks (n + 1) rs

/-- The largest pk stored in the rows table (0 when empty). -/
def listMaxPk (rows : List (Nat × Row)) : Nat :=
  rows.foldr (fun pr m => max pr.1 m) 0

/-- Structural invariant of the primary table: every stored pk is below
the in-memory counter and the table is sorted by pk (integerkey order,
maintained by append-only inserts). -/
def InvPk (st : DbState) : Prop :=
  (∀ pr ∈ st.rows, pr.1 < st.next_pk) ∧
    List.Pairwise (fun p q : Nat × Row => p.1 < q.1) st.rows

/-- The pvt index entry of a stored row. -/
def pvtEntry (hash64 : Bytes → Nat) (pr : Nat × Row) : Ent :=
  (pvtKeyOf hash64 pr.2, msgenpackNat pr.1)

/-- The pt index entry of a stored row. -/
def ptEntry (pr : Nat × Row) : Ent := (ptKeyOf pr.2, msgenpackNat pr.1)

/-- The ip index entry of a stored row. -/
def ipEntry (pr : Nat × Row) : Ent := (ipKeyOf pr.2, msgenpackNat pr.1)

/-- Domain constraints on a stored row: 16-byte iden, property below the
length limit, integer value and timestamp within the signed 64-bit range
(spec section 3). -/
def rowOk (r : Row) : Prop :=
  r.iden.length = 16 ∧ r.prop.length ≤ MAX_PROP_LEN ∧
  (match r.valu with
   | .vint i => MIN_INT_VAL ≤ i ∧ i ≤ MAX_INT_VAL
   | .vstr _ => True) ∧
  MIN_INT_VAL ≤ r.tstamp ∧ r.tstamp ≤ MAX_INT_VAL

/-- Well-formed store: each index table is the sorted table holding its
sentinels plus exactly one entry per stored row, pks are distinct,
positive, below 2^64, and every row satisfies the domain constraints. -/
def WF (hash64 : Bytes → Nat) (st : DbState) : Prop :=
  st.pvt = sortEnts ([zeroSent, maxSent] ++ st.rows.map (pvtEntry hash64)) ∧
  st.pt = sortEnts ([maxSent] ++ st.rows.map ptEntry) ∧
  st.ip = sortEnts ([maxSent] ++ st.rows.map ipEntry) ∧
  (st.rows.map Prod.fst).Nodup ∧
  (∀ pr ∈ st.rows, 1 ≤ pr.1 ∧ pr.1 < 18446744073709551616 ∧ rowOk pr.2)

instance (r : Row) : Decidable (rowOk r) := by
  unfold rowOk
  cases r.valu <;> exact inferInstance

instance (hash64 : Bytes → Nat) (st : DbState) : Decidable (WF hash64 st) := by
  unfold WF
  exact inferInstance

/-- Decode an index value and look the row up (the read path of
`_getRowByPkValEnc` without state change). -/
def fetchRow (st : DbState) (e : Ent) : Option Row :=
  (msgunpackNat e.2).bind (lookupRow st.rows)

/-- The rows an integer window on a property matches: same property, an
integer value v with first_val ≤ v, and v below (or, when right-closed,
at) last_val. -/
def matchesRangeQ (qp : Bytes) (fv lv : Int) (rc : Bool) (pr : Nat × Row) : Bool :=
  (pr.2.prop == qp) &&
  (match pr.2.valu with
   | .vint v => decide (fv ≤ v) && (if rc then decide (v ≤ lv) else decide (v < lv))
   | .vstr _ => false)

/-- The integer value of a row (0 for string-valued rows). -/
def vintOf (r : Row) : Int :=
  match r.valu with
  | .vint v => v
  | .vstr _ => 0

/-- The rows an equality-by-property query with no time bounds matches:
same property, same value-key encoding (hash collisions included), and a
timestamp whose encoding is below MAX_TIME_ENC. -/
def matchesPropQuery (hash64 : Bytes → Nat) (prop : Bytes) (valu : Option Valu)
    (pr : Nat × Row) : Bool :=
  (pr.2.prop == prop) &&
  (match valu with
   | none => true
   | some w => encValKey hash64 pr.2.valu == encValKey hash64 w) &&
  bLt (msgenpackInt pr.2.tstamp) MAX_TIME_ENC

/-! ### Order lemmas for byte strings -/

theorem not_lt_nil (a : Bytes) : ¬ a < [] := List.Lex.not_nil_right _ _

theorem nil_lt_cons_bytes (x : Nat) (b : Bytes) : ([] : Bytes) < x :: b := List.Lex.nil

theorem cons_lt_cons_same (x : Nat) (a b : Bytes) : (x :: a : Bytes) < x :: b ↔ a < b :=
  List.Lex.cons_iff

theorem lt_of_head_lt (x y : Nat) (a b : Bytes) (h : x < y) : (x :: a : Bytes) < y :: b :=
  List.Lex.rel h

/-- Head characterization of the lexicographic order on byte strings. -/
theorem cons_lt_cons_char (x y : Nat) (a b : Bytes) :
    (x :: a : Bytes) < y :: b ↔ x < y ∨ (x = y ∧ a < b) := by
  constructor
  · intro h
    cases h with
    | cons h2 => exact Or.inr ⟨rfl, h2⟩
    | rel hr => exact Or.inl hr
  · rintro (h | ⟨rfl, h⟩)
    · exact List.Lex.rel h
    · exact List.Lex.cons h

theorem bLt_iff : ∀ a b : Bytes, bLt a b = true ↔ a < b
  | [], [] => by
    constructor
    · intro h
      simp [bLt] at h
    · intro h
      exact absurd h (not_lt_nil _)
  | [], x :: b => by
    constructor
    · intro _
      exact nil_lt_cons_bytes x b
    · intro _
      rfl
  | _ :: _, [] => by
    constructor
    · intro h
      simp [bLt] at h
    · intro h
      exact absurd h (not_lt_nil _)
  | a :: as, b :: bs => by
    rw [show bLt (a :: as) (b :: bs) =
        (if a < b then true else if a == b then bLt as bs else false) from rfl]
    rw [cons_lt_cons_char]
    rcases lt_trichotomy a b with h | h | h
    · simp [h]
    · subst h
      simp [lt_irrefl, bLt_iff as bs]
    · simp [not_lt_of_gt h, (beq_eq_false_iff_ne.mpr (ne_of_gt h)), ne_of_gt h,
        not_lt_of_gt h]

theorem bLe_iff : ∀ a b : Bytes, bLe a b = true ↔ a ≤ b
  | [], b => by
    constructor
    · intro _
      exact List.nil_le
    · intro _
      rfl
  | x :: a, [] => by
    constructor
    · intro h
      simp [bLe] at h
    · intro h
      exact absurd (nil_lt_cons_bytes x a) (not_lt_of_le h)
  | a :: as, b :: bs => by
    rw [show bLe (a :: as) (b :: bs) =
        (if a < b then true else if a == b then bLe as bs else false) from rfl]
    have hle : (a :: as : Bytes) ≤ b :: bs ↔ a < b ∨ (a = b ∧ as ≤ bs) := by
      rw [le_iff_lt_or_eq, cons_lt_cons_char, le_iff_lt_or_eq]
      constructor
      · rintro ((h | ⟨rfl, h⟩) | h)
        · exact Or.inl h
        · exact Or.inr ⟨rfl, Or.inl h⟩
        · injection h with h1 h2
          exact Or.inr ⟨h1, Or.inr h2⟩
      · rintro (h | ⟨rfl, h | rfl⟩)
        · exact Or.inl (Or.inl h)
        · exact Or.inl (Or.inr ⟨rfl, h⟩)
        · exact Or.inr rfl
    rw [hle]
    rcases lt_trichotomy a b with h | h | h
    · simp [h]
    · subst h
      simp [lt_irrefl, bLe_iff as bs]
    · simp [not_lt_of_gt h, (beq_eq_false_iff_ne.mpr (ne_of_gt h)), ne_of_gt h]

theorem bLt_eq_decide (a b : Bytes) : bLt a b = decide (a < b) := by
  rcases h : bLt a b with _ | _
  · have := (not_iff_not.mpr (bLt_iff a b)).mp (by rw [h]; simp)
    simp [this]
  · have := (bLt_iff a b).mp h
    simp [this]

theorem bLe_eq_decide (a b : Bytes) : bLe a b = decide (a ≤ b) := by
  rcases h : bLe a b with _ | _
  · have := (not_iff_not.mpr (bLe_iff a b)).mp (by rw [h]; simp)
    simp [this]
  · have := (bLe_iff a b).mp h
    simp [this]

/-- Appending on the left preserves and reflects the strict order. -/
theorem append_lt_append_left : ∀ (p a b : Bytes), p ++ a < p ++ b ↔ a < b
  | [], _, _ => Iff.rfl
  | x :: p, a, b => by
    rw [List.cons_append, List.cons_append, cons_lt_cons_same]
    exact append_lt_append_left p a b

/-- Taking `p.length + m` bytes of `p ++ x` takes `m` bytes of `x`. -/
theorem take_add_append (p x : Bytes) (m : Nat) :
    (p ++ x).take (p.length + m) = p ++ x.take m := by
  rw [List.take_append_eq_append_take]
  have h1 : p.take (p.length + m) = p := List.take_of_length_le (by omega)
  have h2 : p.length + m - p.length = m := by omega
  rw [h1, h2]

/-- A byte string is never below one of its initial segments. -/
theorem not_append_lt_self : ∀ (a s : Bytes), ¬ (a ++ s) < a
  | [], _ => not_lt_nil _
  | x :: a, s => by
    rw [List.cons_append, cons_lt_cons_same]
    exact not_append_lt_self a s

/-- A byte string is below a proper extension of itself. -/
theorem append_lt_self_iff : ∀ (a s : Bytes), a < a ++ s ↔ s ≠ []
  | [], s => by
    cases s with
    | nil => simpa using not_lt_nil ([] : Bytes)
    | cons x t => simpa using nil_lt_cons_bytes x t
  | x :: a, s => by
    rw [List.cons_append, cons_lt_cons_same]
    exact append_lt_self_iff a s

/-- `isInit` means the longer string extends the shorter. -/
theorem isInit_iff_exists : ∀ a b : Bytes, isInit a b = true ↔ ∃ s, b = a ++ s
  | [], b => by
    simpa [isInit] using ⟨b, rfl⟩
  | x :: a, [] => by
    constructor
    · intro h
      simp [isInit] at h
    · rintro ⟨s, h⟩
      exact absurd h (by simp)
  | a :: as, b :: bs => by
    rw [show isInit (a :: as) (b :: bs) = ((a == b) && isInit as bs) from rfl]
    rw [Bool.and_eq_true, beq_iff_eq]
    rw [isInit_iff_exists as bs]
    constructor
    · rintro ⟨rfl, s, rfl⟩
      exact ⟨s, rfl⟩
    · rintro ⟨s, h⟩
      rw [List.cons_append] at h
      injection h with h1 h2
      exact ⟨h1.symm ▸ rfl, s, h2⟩

/-- When neither of two byte strings extends the other, any comparison is
decided before either ends: suffixes on both sides are irrelevant. -/
theorem lt_append_append_of_notInit :
    ∀ a b : Bytes, isInit a b = false → isInit b a = false →
      ∀ s t, (a ++ s < b ++ t ↔ a < b)
  | [], _, hab, _ => by simp [isInit] at hab
  | _ :: _, [], _, hba => by simp [isInit] at hba
  | a :: as, b :: bs, hab, hba => by
    intro s t
    rw [show isInit (a :: as) (b :: bs) = ((a == b) && isInit as bs) from rfl] at hab
    rw [show isInit (b :: bs) (a :: as) = ((b == a) && isInit bs as) from rfl] at hba
    rw [List.cons_append, List.cons_append, cons_lt_cons_char, cons_lt_cons_char]
    rcases eq_or_ne a b with rfl | hne
    · simp only [beq_self_eq_true, Bool.true_and] at hab hba
      rw [lt_append_append_of_notInit as bs hab hba s t]
    · simp [hne]

/-- Under the same side condition the two sides can never be equal. -/
theorem ne_append_append_of_notInit :
    ∀ a b : Bytes, isInit a b = false → isInit b a = false →
      ∀ s t, a ++ s ≠ b ++ t
  | [], _, hab, _ => by simp [isInit] at hab
  | _ :: _, [], _, hba => by simp [isInit] at hba
  | a :: as, b :: bs, hab, hba => by
    intro s t
    rw [show isInit (a :: as) (b :: bs) = ((a == b) && isInit as bs) from rfl] at hab
    rw [show isInit (b :: bs) (a :: as) = ((b == a) && isInit bs as) from rfl] at hba
    rw [List.cons_append, List.cons_append]
    intro heq
    injection heq with h1 h2
    subst h1
    simp only [beq_self_eq_true, Bool.true_and] at hab hba
    exact ne_append_append_of_notInit as bs hab hba s t h2

/-- Truncated comparison decided before either string ends: comparing
`(a ++ s).take b.length` against `b` is comparing `a` against `b`. -/
theorem take_lt_of_notInit :
    ∀ a b : Bytes, isInit a b = false → isInit b a = false →
      ∀ s, ((a ++ s).take b.length < b ↔ a < b) ∧
        (b < (a ++ s).take b.length ↔ b < a)
  | [], _, hab, _ => by simp [isInit] at hab
  | _ :: _, [], _, hba => by simp [isInit] at hba
  | a :: as, b :: bs, hab, hba => by
    intro s
    rw [show isInit (a :: as) (b :: bs) = ((a == b) && isInit as bs) from rfl] at hab
    rw [show isInit (b :: bs) (a :: as) = ((b == a) && isInit bs as) from rfl] at hba
    rw [List.cons_append, List.length_cons, List.take_succ_cons]
    rw [cons_lt_cons_char, cons_lt_cons_char, cons_lt_cons_char, cons_lt_cons_char]
    rcases eq_or_ne a b with rfl | hne
    · simp only [beq_self_eq_true, Bool.true_and] at hab hba
      have ih := take_lt_of_notInit as bs hab hba s
      constructor
      · rw [ih.1]
      · rw [ih.2]
    · constructor
      · constructor
        · rintro (h | ⟨rfl, _⟩)
          · exact Or.inl h
          · exact absurd rfl hne
        · rintro (h | ⟨rfl, _⟩)
          · exact Or.inl h
          · exact absurd rfl hne
      · constructor
        · rintro (h | ⟨rfl, _⟩)
          · exact Or.inl h
          · exact absurd rfl hne.symm
        · rintro (h | ⟨rfl, _⟩)
          · exact Or.inl h
          · exact absurd rfl hne.symm

/-- `isInit` of two strings of equal length is equality. -/
theorem isInit_eq_of_length_eq {a b : Bytes} (h : isInit a b = true)
    (hl : a.length = b.length) : a = b := by
  obtain ⟨s, rfl⟩ := (isInit_iff_exists a b).mp h
  rw [List.length_append] at hl
  have : s = [] := List.eq_nil_of_length_eq_zero (by omega)
  simp [this]

/-- Peeling equal-length heads off an `isInit` of concatenations. -/
theorem isInit_append_same_length {a b s t : Bytes} (hl : a.length = b.length)
    (h : isInit (a ++ s) (b ++ t) = true) : a = b ∧ isInit s t = true := by
  obtain ⟨u, hu⟩ := (isInit_iff_exists _ _).mp h
  have hab : a = b := by
    have h1 : (a ++ (s ++ u)).take a.length = a := List.take_left _ _
    rw [← List.append_assoc, ← hu] at h1
    rw [hl, List.take_left] at h1
    exact h1.symm
  subst hab
  refine ⟨rfl, (isInit_iff_exists s t).mpr ⟨u, ?_⟩⟩
  rw [List.append_assoc] at hu
  exact List.append_cancel_left hu

theorem isInit_cons {x : Nat} {u v : Bytes} (h : isInit (x :: u) (x :: v) = true) :
    isInit u v = true := by
  rw [show isInit (x :: u) (x :: v) = ((x == x) && isInit u v) from rfl] at h
  simpa using h

theorem isInit_head {x y : Nat} {u v : Bytes} (h : isInit (x :: u) (y :: v) = true) :
    x = y := by
  rw [show isInit (x :: u) (y :: v) = ((x == y) && isInit u v) from rfl] at h
  simp only [Bool.and_eq_true, beq_iff_eq] at h
  exact h.1

/-- Truncation is monotone with respect to the lexicographic order. -/
theorem take_le_take : ∀ (n : Nat) (a b : Bytes), a ≤ b → a.take n ≤ b.take n
  | 0, _, _, _ => by simp
  | _ + 1, [], _, _ => by simp
  | _ + 1, _ :: _, [], h => absurd (List.Lex.nil) (not_lt_of_le h)
  | n + 1, a :: as, b :: bs, h => by
    rw [List.take_succ_cons, List.take_succ_cons]
    rcases lt_trichotomy a b with hc | hc | hc
    · exact le_of_lt (List.Lex.rel hc)
    · subst hc
      have h2 : as ≤ bs := by
        rcases lt_or_eq_of_le h with hlt | heq
        · exact le_of_lt ((cons_lt_cons_same a as bs).mp hlt)
        · injection heq with h3 h4
          exact le_of_eq h4
      rcases lt_or_eq_of_le (take_le_take n as bs h2) with hlt | heq
      · exact le_of_lt (List.Lex.cons hlt)
      · exact le_of_eq (by rw [heq])
    · exact absurd (List.Lex.rel hc) (not_lt_of_le h)

/-! ### Lemmas about the msgpack encodings -/

theorem beBytes_length : ∀ (w n : Nat), (beBytes w n).length = w
  | 0, _ => rfl
  | w + 1, n => by
    rw [show beBytes (w + 1) n = (n / 256 ^ w) % 256 :: beBytes w (n % 256 ^ w) from rfl]
    simp [beBytes_length w]

theorem beBytes_lt : ∀ (w a b : Nat), a < b → b < 256 ^ w → beBytes w a < beBytes w b
  | 0, a, b, hab, hb => by
    simp at hb
    omega
  | w + 1, a, b, hab, hb => by
    rw [show beBytes (w + 1) a = (a / 256 ^ w) % 256 :: beBytes w (a % 256 ^ w) from rfl]
    rw [show beBytes (w + 1) b = (b / 256 ^ w) % 256 :: beBytes w (b % 256 ^ w) from rfl]
    have hbw : 0 < 256 ^ w := Nat.pos_pow_of_pos w (by omega)
    have hpow : 256 ^ (w + 1) = 256 ^ w * 256 := by ring
    have hbd : b / 256 ^ w < 256 := by
      rw [Nat.div_lt_iff_lt_mul hbw]
      omega
    have had : a / 256 ^ w < 256 := by
      rw [Nat.div_lt_iff_lt_mul hbw]
      omega
    rw [Nat.mod_eq_of_lt hbd, Nat.mod_eq_of_lt had]
    have hdle : a / 256 ^ w ≤ b / 256 ^ w := Nat.div_le_div_right (le_of_lt hab)
    rcases lt_or_eq_of_le hdle with hdlt | hdeq
    · exact lt_of_head_lt _ _ _ _ hdlt
    · rw [hdeq, cons_lt_cons_same]
      have h1 := Nat.div_add_mod a (256 ^ w)
      have h2 := Nat.div_add_mod b (256 ^ w)
      rw [hdeq] at h1
      have h3 : 256 ^ w * (b / 256 ^ w) + a % 256 ^ w <
          256 ^ w * (b / 256 ^ w) + b % 256 ^ w := by
        rw [h1, h2]
        exact hab
      exact beBytes_lt w _ _ (Nat.lt_of_add_lt_add_left h3) (Nat.mod_lt _ hbw)

theorem beVal_beBytes : ∀ (w n : Nat), n < 256 ^ w → beVal (beBytes w n) = n
  | 0, n, h => by
    simp at h
    simp [beBytes, beVal, h]
  | w + 1, n, h => by
    rw [show beBytes (w + 1) n = (n / 256 ^ w) % 256 :: beBytes w (n % 256 ^ w) from rfl]
    rw [show beVal ((n / 256 ^ w) % 256 :: beBytes w (n % 256 ^ w)) =
      ((n / 256 ^ w) % 256) * 256 ^ (beBytes w (n % 256 ^ w)).length
        + beVal (beBytes w (n % 256 ^ w)) from rfl]
    have hbw : 0 < 256 ^ w := Nat.pos_pow_of_pos w (by omega)
    have hpow : 256 ^ (w + 1) = 256 ^ w * 256 := by ring
    have hd : n / 256 ^ w < 256 := by
      rw [Nat.div_lt_iff_lt_mul hbw]
      omega
    rw [Nat.mod_eq_of_lt hd, beBytes_length, beVal_beBytes w _ (Nat.mod_lt _ hbw)]
    exact Nat.div_add_mod' n (256 ^ w)

theorem msgenpackNat_length (n : Nat) :
    (msgenpackNat n).length =
      if n < 128 then 1 else if n < 256 then 2 else if n < 65536 then 3
      else if n < 4294967296 then 5 else 9 := by
  unfold msgenpackNat
  split_ifs <;> simp [beBytes_length]

theorem msgenpackNat_headD (n : Nat) :
    (msgenpackNat n).headD 0 =
      if n < 128 then n else if n < 256 then 0xcc else if n < 65536 then 0xcd
      else if n < 4294967296 then 0xce else 0xcf := by
  unfold msgenpackNat
  split_ifs <;> rfl

theorem msgenpackNat_ne_nil (n : Nat) : msgenpackNat n ≠ [] := by
  unfold msgenpackNat
  split_ifs <;> simp

theorem msgenpackNat_headD_le (n : Nat) : (msgenpackNat n).headD 0 ≤ 0xcf := by
  rw [msgenpackNat_headD]
  split_ifs <;> omega

/-- msgpack integer encodings are not initial segments of one another:
the head byte determines the width. -/
theorem msgenpackNat_init {a b : Nat}
    (h : isInit (msgenpackNat a) (msgenpackNat b) = true) :
    msgenpackNat a = msgenpackNat b := by
  have hha := msgenpackNat_headD a
  have hhb := msgenpackNat_headD b
  obtain ⟨x, xs, hx⟩ := List.exists_cons_of_ne_nil (msgenpackNat_ne_nil a)
  obtain ⟨y, ys, hy⟩ := List.exists_cons_of_ne_nil (msgenpackNat_ne_nil b)
  have heads : (msgenpackNat a).headD 0 = (msgenpackNat b).headD 0 := by
    rw [hx, hy]
    rw [hx, hy] at h
    simpa using isInit_head h
  refine isInit_eq_of_length_eq h ?_
  rw [msgenpackNat_length, msgenpackNat_length]
  rw [hha, hhb] at heads
  split_ifs at heads ⊢ <;> omega

/-- Monotonicity of the msgpack non-negative integer encoding below 2^64. -/
theorem msgenpackNat_lt {a b : Nat} (hab : a < b) (hb : b < 18446744073709551616) :
    msgenpackNat a < msgenpackNat b := by
  unfold msgenpackNat
  by_cases ha1 : a < 128
  · by_cases hb1 : b < 128
    · simp only [if_pos ha1, if_pos hb1]
      exact lt_of_head_lt _ _ _ _ hab
    · by_cases hb2 : b < 256
      · simp only [if_pos ha1, if_neg hb1, if_pos hb2]
        exact lt_of_head_lt _ _ _ _ (by omega)
      · by_cases hb3 : b < 65536
        · simp only [if_pos ha1, if_neg hb1, if_neg hb2, if_pos hb3]
          exact lt_of_head_lt _ _ _ _ (by omega)
        · by_cases hb4 : b < 4294967296
          · simp only [if_pos ha1, if_neg hb1, if_neg hb2, if_neg hb3, if_pos hb4]
            exact lt_of_head_lt _ _ _ _ (by omega)
          · simp only [if_pos ha1, if_neg hb1, if_neg hb2, if_neg hb3, if_neg hb4]
            exact lt_of_head_lt _ _ _ _ (by omega)
  · by_cases ha2 : a < 256
    · have hb1 : ¬ b < 128 := by omega
      by_cases hb2 : b < 256
      · simp only [if_neg ha1, if_pos ha2, if_neg hb1, if_pos hb2]
        rw [cons_lt_cons_same]
        exact lt_of_head_lt _ _ _ _ hab
      · by_cases hb3 : b < 65536
        · simp only [if_neg ha1, if_pos ha2, if_neg hb1, if_neg hb2, if_pos hb3]
          exact lt_of_head_lt _ _ _ _ (by omega)
        · by_cases hb4 : b < 4294967296
          · simp only [if_neg ha1, if_pos ha2, if_neg hb1, if_neg hb2, if_neg hb3, if_pos hb4]
            exact lt_of_head_lt _ _ _ _ (by omega)
          · simp only [if_neg ha1, if_pos ha2, if_neg hb1, if_neg hb2, if_neg hb3, if_neg hb4]
            exact lt_of_head_lt _ _ _ _ (by omega)
    · by_cases ha3 : a < 65536
      · have hb1 : ¬ b < 128 := by omega
        have hb2 : ¬ b < 256 := by omega
        by_cases hb3 : b < 65536
        · simp only [if_neg ha1, if_neg ha2, if_pos ha3, if_neg hb1, if_neg hb2, if_pos hb3]
          rw [cons_lt_cons_same]
          exact beBytes_lt 2 a b hab (by omega)
        · by_cases hb4 : b < 4294967296
          · simp only [if_neg ha1, if_neg ha2, if_pos ha3, if_neg hb1, if_neg hb2, if_neg hb3,
              if_pos hb4]
            exact lt_of_head_lt _ _ _ _ (by omega)
          · simp only [if_neg ha1, if_neg ha2, if_pos ha3, if_neg hb1, if_neg hb2, if_neg hb3,
              if_neg hb4]
            exact lt_of_head_lt _ _ _ _ (by omega)
      · by_cases ha4 : a < 4294967296
        · have hb1 : ¬ b < 128 := by omega
          have hb2 : ¬ b < 256 := by omega
          have hb3 : ¬ b < 65536 := by omega
          by_cases hb4 : b < 4294967296
          · simp only [if_neg ha1, if_neg ha2, if_neg ha3, if_pos ha4, if_neg hb1, if_neg hb2,
              if_neg hb3, if_pos hb4]
            rw [cons_lt_cons_same]
            exact beBytes_lt 4 a b hab (by omega)
          · simp only [if_neg ha1, if_neg ha2, if_neg ha3, if_pos ha4, if_neg hb1, if_neg hb2,
              if_neg hb3, if_neg hb4]
            exact lt_of_head_lt _ _ _ _ (by omega)
        · have hb1 : ¬ b < 128 := by omega
          have hb2 : ¬ b < 256 := by omega
          have hb3 : ¬ b < 65536 := by omega
          have hb4 : ¬ b < 4294967296 := by omega
          simp only [if_neg ha1, if_neg ha2, if_neg ha3, if_neg ha4, if_neg hb1, if_neg hb2,
            if_neg hb3, if_neg hb4]
          rw [cons_lt_cons_same]
          exact beBytes_lt 8 a b hab (by omega)

theorem headD_shape {l : Bytes} (h : l ≠ []) : l = l.headD 0 :: l.tail := by
  cases l with
  | nil => exact absurd rfl h
  | cons x xs => rfl

theorem msgenpackInt_nonneg {v : Int} (h : 0 ≤ v) :
    msgenpackInt v = msgenpackNat v.toNat := by
  unfold msgenpackInt
  rw [if_pos h]

theorem msgenpackInt_length_neg (v : Int) (hv : ¬ 0 ≤ v) :
    (msgenpackInt v).length =
      if -32 ≤ v then 1 else if -128 ≤ v then 2 else if -32768 ≤ v then 3
      else if -2147483648 ≤ v then 5 else 9 := by
  unfold msgenpackInt
  rw [if_neg hv]
  split_ifs <;> simp [beBytes_length]

theorem msgenpackInt_headD_neg (v : Int) (hv : ¬ 0 ≤ v) :
    (msgenpackInt v).headD 0 =
      if -32 ≤ v then (256 + v).toNat else if -128 ≤ v then 0xd0
      else if -32768 ≤ v then 0xd1 else if -2147483648 ≤ v then 0xd2 else 0xd3 := by
  unfold msgenpackInt
  rw [if_neg hv]
  split_ifs <;> rfl

theorem msgenpackInt_ne_nil (v : Int) : msgenpackInt v ≠ [] := by
  unfold msgenpackInt
  split_ifs with h
  · exact msgenpackNat_ne_nil _
  all_goals simp

theorem msgenpackInt_headD_neg_ge (v : Int) (hv : ¬ 0 ≤ v) :
    208 ≤ (msgenpackInt v).headD 0 := by
  rw [msgenpackInt_headD_neg v hv]
  split_ifs <;> omega

/-- msgpack signed-integer encodings are not initial segments of one
another. -/
theorem msgenpackInt_init {s t : Int}
    (h : isInit (msgenpackInt s) (msgenpackInt t) = true) :
    msgenpackInt s = msgenpackInt t := by
  have heads : (msgenpackInt s).headD 0 = (msgenpackInt t).headD 0 := by
    rw [headD_shape (msgenpackInt_ne_nil s), headD_shape (msgenpackInt_ne_nil t)] at h
    exact isInit_head h
  by_cases hs : 0 ≤ s <;> by_cases ht : 0 ≤ t
  · rw [msgenpackInt_nonneg hs, msgenpackInt_nonneg ht] at h ⊢
    exact msgenpackNat_init h
  · rw [msgenpackInt_nonneg hs] at heads
    have h1 := msgenpackNat_headD_le s.toNat
    have h2 := msgenpackInt_headD_neg_ge t ht
    omega
  · rw [msgenpackInt_nonneg ht] at heads
    have h1 := msgenpackNat_headD_le t.toNat
    have h2 := msgenpackInt_headD_neg_ge s hs
    omega
  · refine isInit_eq_of_length_eq h ?_
    rw [msgenpackInt_length_neg s hs, msgenpackInt_length_neg t ht]
    rw [msgenpackInt_headD_neg s hs, msgenpackInt_headD_neg t ht] at heads
    split_ifs at heads ⊢ <;> omega

theorem msgenpackStr_length (s : Bytes) :
    (msgenpackStr s).length =
      if s.length < 32 then 1 + s.length else if s.length < 256 then 2 + s.length
      else 3 + s.length := by
  unfold msgenpackStr
  split_ifs <;> simp [beBytes_length] <;> omega

theorem msgenpackStr_headD (s : Bytes) :
    (msgenpackStr s).headD 0 =
      if s.length < 32 then 0xa0 + s.length else if s.length < 256 then 0xd9
      else 0xda := by
  unfold msgenpackStr
  split_ifs <;> rfl

theorem msgenpackStr_ne_nil (s : Bytes) : msgenpackStr s ≠ [] := by
  unfold msgenpackStr
  split_ifs <;> simp

theorem msgenpackStr_headD_lb (s : Bytes) : 160 ≤ (msgenpackStr s).headD 0 := by
  rw [msgenpackStr_headD]
  split_ifs <;> omega

theorem msgenpackStr_headD_ub (s : Bytes) : (msgenpackStr s).headD 0 ≤ 218 := by
  rw [msgenpackStr_headD]
  split_ifs <;> omega

/-- msgpack string encodings of strings shorter than 65536 bytes are not
initial segments of one another. -/
theorem msgenpackStr_init {s t : Bytes} (hs : s.length < 65536) (ht : t.length < 65536)
    (h : isInit (msgenpackStr s) (msgenpackStr t) = true) :
    msgenpackStr s = msgenpackStr t := by
  refine isInit_eq_of_length_eq h ?_
  rw [msgenpackStr_length, msgenpackStr_length]
  have heads : (msgenpackStr s).headD 0 = (msgenpackStr t).headD 0 := by
    rw [headD_shape (msgenpackStr_ne_nil s), headD_shape (msgenpackStr_ne_nil t)] at h
    exact isInit_head h
  rw [msgenpackStr_headD, msgenpackStr_headD] at heads
  by_cases h1 : s.length < 32 <;> by_cases h2 : t.length < 32
  · simp only [if_pos h1, if_pos h2] at heads ⊢
    omega
  · rw [if_pos h1] at heads ⊢
    rw [if_neg h2] at heads ⊢
    split_ifs at heads <;> omega
  · rw [if_neg h1] at heads ⊢
    rw [if_pos h2] at heads ⊢
    split_ifs at heads <;> omega
  · rw [if_neg h1] at heads ⊢
    rw [if_neg h2] at heads ⊢
    by_cases h3 : s.length < 256 <;> by_cases h4 : t.length < 256
    · -- str8: the second byte is the length
      unfold msgenpackStr at h
      rw [if_neg (by omega : ¬ s.length < 32), if_pos h3,
        if_neg (by omega : ¬ t.length < 32), if_pos h4] at h
      have h5 := isInit_head (isInit_cons h)
      simp only [if_pos h3, if_pos h4]
      omega
    · simp only [if_pos h3, if_neg h4] at heads
      omega
    · simp only [if_neg h3, if_pos h4] at heads
      omega
    · -- str16: the length is the big-endian pair after the tag
      unfold msgenpackStr at h
      rw [if_neg (by omega : ¬ s.length < 32), if_neg h3,
        if_neg (by omega : ¬ t.length < 32), if_neg h4] at h
      have h5 := isInit_cons h
      have h6 := isInit_append_same_length (by rw [beBytes_length, beBytes_length]) h5
      have h7 : beVal (beBytes 2 s.length) = beVal (beBytes 2 t.length) := by rw [h6.1]
      rw [beVal_beBytes 2 _ (by norm_num; omega), beVal_beBytes 2 _ (by norm_num; omega)] at h7
      simp only [if_neg h3, if_neg h4]
      omega

/-- Below 128 bytes, a strictly shorter string has a strictly smaller
msgpack encoding. -/
theorem msgenpackStr_lt_of_length_lt {s t : Bytes} (h : s.length < t.length)
    (ht : t.length < 128) : msgenpackStr s < msgenpackStr t := by
  unfold msgenpackStr
  by_cases h1 : s.length < 32 <;> by_cases h2 : t.length < 32
  · rw [if_pos h1, if_pos h2]
    exact lt_of_head_lt _ _ _ _ (by omega)
  · rw [if_pos h1, if_neg h2, if_pos (by omega : t.length < 256)]
    exact lt_of_head_lt _ _ _ _ (by omega)
  · omega
  · rw [if_neg h1, if_pos (by omega : s.length < 256), if_neg h2,
      if_pos (by omega : t.length < 256)]
    rw [cons_lt_cons_same]
    exact lt_of_head_lt _ _ _ _ h

/-- For strings of equal length below 65536, the msgpack encodings compare
exactly like the strings themselves. -/
theorem msgenpackStr_lt_iff_of_length_eq {s t : Bytes} (h : s.length = t.length)
    (ht : t.length < 65536) : (msgenpackStr s < msgenpackStr t ↔ s < t) := by
  unfold msgenpackStr
  rw [h]
  by_cases h1 : t.length < 32
  · rw [if_pos h1, if_pos h1, cons_lt_cons_same]
  · rw [if_neg h1, if_neg h1]
    by_cases h2 : t.length < 256
    · rw [if_pos h2, if_pos h2, cons_lt_cons_same, cons_lt_cons_same]
    · rw [if_neg h2, if_neg h2]
      rw [show (0xda :: beBytes 2 t.length ++ s : Bytes) =
        0xda :: (beBytes 2 t.length ++ s) from rfl]
      rw [show (0xda :: beBytes 2 t.length ++ t : Bytes) =
        0xda :: (beBytes 2 t.length ++ t) from rfl]
      rw [cons_lt_cons_same, append_lt_append_left]

theorem neg_marker_bytes : NEGATIVE_VAL_MARKER_ENC = [255] := by decide

theorem str_marker_bytes : STRING_VAL_MARKER_ENC = [254] := by decide

theorem hash_marker_bytes : HASH_VAL_MARKER_ENC = [253] := by decide

theorem encValKey_vint_nonneg (hash64 : Bytes → Nat) {i : Int} (h : 0 ≤ i) :
    encValKey hash64 (.vint i) = msgenpackNat i.toNat := by
  simp only [encValKey]
  rw [if_pos h]

theorem encValKey_vint_neg (hash64 : Bytes → Nat) {i : Int} (h : ¬ 0 ≤ i) :
    encValKey hash64 (.vint i) = 255 :: msgenpackNat (-i).toNat := by
  simp only [encValKey]
  rw [if_neg h, neg_marker_bytes]
  rfl

theorem encValKey_vstr_long (hash64 : Bytes → Nat) {s : Bytes}
    (h : LARGE_STRING_SIZE ≤ s.length) :
    encValKey hash64 (.vstr s) = 253 :: msgenpackNat (hash64 s) := by
  simp only [encValKey]
  rw [if_pos h, hash_marker_bytes]
  rfl

theorem encValKey_vstr_short (hash64 : Bytes → Nat) {s : Bytes}
    (h : ¬ LARGE_STRING_SIZE ≤ s.length) :
    encValKey hash64 (.vstr s) = 254 :: msgenpackStr s := by
  simp only [encValKey]
  rw [if_neg h, str_marker_bytes]
  rfl

theorem encValKey_ne_nil (hash64 : Bytes → Nat) (v : Valu) :
    encValKey hash64 v ≠ [] := by
  cases v with
  | vint i =>
    by_cases h : 0 ≤ i
    · rw [encValKey_vint_nonneg hash64 h]
      exact msgenpackNat_ne_nil _
    · rw [encValKey_vint_neg hash64 h]
      simp
  | vstr s =>
    by_cases h : LARGE_STRING_SIZE ≤ s.length
    · rw [encValKey_vstr_long hash64 h]
      simp
    · rw [encValKey_vstr_short hash64 h]
      simp

/-- The head byte of a value-key encoding, by region. -/
theorem encValKey_headD (hash64 : Bytes → Nat) (v : Valu) :
    (encValKey hash64 v).headD 0 =
      match v with
      | .vint i => if 0 ≤ i then (msgenpackNat i.toNat).headD 0 else 255
      | .vstr s => if LARGE_STRING_SIZE ≤ s.length then 253 else 254 := by
  cases v with
  | vint i =>
    by_cases h : 0 ≤ i
    · rw [encValKey_vint_nonneg hash64 h]
      simp [h]
    · rw [encValKey_vint_neg hash64 h]
      simp [h]
  | vstr s =>
    by_cases h : LARGE_STRING_SIZE ≤ s.length
    · rw [encValKey_vstr_long hash64 h]
      simp [h]
    · rw [encValKey_vstr_short hash64 h]
      simp [h]

/-- Value-key encodings are not initial segments of one another. -/
theorem encValKey_init (hash64 : Bytes → Nat) {v w : Valu}
    (h : isInit (encValKey hash64 v) (encValKey hash64 w) = true) :
    encValKey hash64 v = encValKey hash64 w := by
  have heads : (encValKey hash64 v).headD 0 = (encValKey hash64 w).headD 0 := by
    rw [headD_shape (encValKey_ne_nil hash64 v),
      headD_shape (encValKey_ne_nil hash64 w)] at h
    exact isInit_head h
  rw [encValKey_headD, encValKey_headD] at heads
  cases v with
  | vint i =>
    cases w with
    | vint j =>
      by_cases hi : 0 ≤ i <;> by_cases hj : 0 ≤ j
      · rw [encValKey_vint_nonneg hash64 hi, encValKey_vint_nonneg hash64 hj] at h ⊢
        exact msgenpackNat_init h
      · have h1 := msgenpackNat_headD_le i.toNat
        simp only [if_pos hi, if_neg hj] at heads
        omega
      · have h1 := msgenpackNat_headD_le j.toNat
        simp only [if_neg hi, if_pos hj] at heads
        omega
      · rw [encValKey_vint_neg hash64 hi, encValKey_vint_neg hash64 hj] at h ⊢
        rw [msgenpackNat_init (isInit_cons h)]
    | vstr t =>
      have h1 := msgenpackNat_headD_le i.toNat
      by_cases hi : 0 ≤ i <;> by_cases hw : LARGE_STRING_SIZE ≤ t.length <;>
        simp only [hi, hw, if_true, if_false, if_pos, if_neg, not_false_iff] at heads <;>
        omega
  | vstr s =>
    cases w with
    | vint j =>
      have h1 := msgenpackNat_headD_le j.toNat
      by_cases hs : LARGE_STRING_SIZE ≤ s.length <;> by_cases hj : 0 ≤ j <;>
        simp only [hs, hj, if_true, if_false, if_pos, if_neg, not_false_iff] at heads <;>
        omega
    | vstr t =>
      by_cases hs : LARGE_STRING_SIZE ≤ s.length <;> by_cases ht : LARGE_STRING_SIZE ≤ t.length
      · rw [encValKey_vstr_long hash64 hs, encValKey_vstr_long hash64 ht] at h ⊢
        rw [msgenpackNat_init (isInit_cons h)]
      · simp only [if_pos hs, if_neg ht] at heads
        omega
      · simp only [if_neg hs, if_pos ht] at heads
        omega
      · rw [encValKey_vstr_short hash64 hs, encValKey_vstr_short hash64 ht] at h ⊢
        have hs2 : s.length < 65536 := by
          unfold LARGE_STRING_SIZE at hs
          omega
        have ht2 : t.length < 65536 := by
          unfold LARGE_STRING_SIZE at ht
          omega
        rw [msgenpackStr_init hs2 ht2 (isInit_cons h)]

theorem lt_of_headD_lt {a b : Bytes} (ha : a ≠ []) (hb : b ≠ [])
    (h : a.headD 0 < b.headD 0) : a < b := by
  rw [headD_shape ha, headD_shape hb]
  exact lt_of_head_lt _ _ _ _ h

/-- Non-negative integer region: encodings are strictly monotone. -/
theorem encValKey_nonneg_lt (hash64 : Bytes → Nat) {a b : Int} (h0 : 0 ≤ a)
    (hab : a < b) (hb : b < 18446744073709551616) :
    encValKey hash64 (.vint a) < encValKey hash64 (.vint b) := by
  rw [encValKey_vint_nonneg hash64 h0, encValKey_vint_nonneg hash64 (by omega)]
  exact msgenpackNat_lt (by omega) (by omega)

/-- Negative integer region: encodings are strictly antitone. -/
theorem encValKey_neg_lt (hash64 : Bytes → Nat) {a b : Int}
    (ha : -18446744073709551616 < a) (hab : a < b) (hb : b < 0) :
    encValKey hash64 (.vint b) < encValKey hash64 (.vint a) := by
  rw [encValKey_vint_neg hash64 (by omega), encValKey_vint_neg hash64 (by omega)]
  rw [cons_lt_cons_same]
  exact msgenpackNat_lt (by omega) (by omega)

/-- Every non-negative integer encoding is below every string encoding. -/
theorem encValKey_nonneg_lt_vstr (hash64 : Bytes → Nat) {a : Int} (h0 : 0 ≤ a)
    (s : Bytes) :
    encValKey hash64 (.vint a) < encValKey hash64 (.vstr s) := by
  refine lt_of_headD_lt (encValKey_ne_nil hash64 _) (encValKey_ne_nil hash64 _) ?_
  rw [encValKey_headD, encValKey_headD]
  have h1 := msgenpackNat_headD_le a.toNat
  simp only [if_pos h0]
  split_ifs <;> omega

/-- Every string encoding is below every negative integer encoding. -/
theorem encValKey_vstr_lt_neg (hash64 : Bytes → Nat) {b : Int} (hb : b < 0)
    (s : Bytes) :
    encValKey hash64 (.vstr s) < encValKey hash64 (.vint b) := by
  refine lt_of_headD_lt (encValKey_ne_nil hash64 _) (encValKey_ne_nil hash64 _) ?_
  rw [encValKey_headD, encValKey_headD]
  simp only [if_neg (by omega : ¬ 0 ≤ b)]
  split_ifs <;> omega

/-- Every non-negative integer encoding is below every negative one. -/
theorem encValKey_nonneg_lt_neg (hash64 : Bytes → Nat) {a b : Int} (h0 : 0 ≤ a)
    (hb : b < 0) :
    encValKey hash64 (.vint a) < encValKey hash64 (.vint b) := by
  refine lt_of_headD_lt (encValKey_ne_nil hash64 _) (encValKey_ne_nil hash64 _) ?_
  rw [encValKey_headD, encValKey_headD]
  have h1 := msgenpackNat_headD_le a.toNat
  simp only [if_pos h0, if_neg (by omega : ¬ 0 ≤ b)]
  omega

/-- Every hashed (long) string encoding is below every inline (short)
string encoding. -/
theorem encValKey_hash_lt_str (hash64 : Bytes → Nat) {s t : Bytes}
    (hs : LARGE_STRING_SIZE ≤ s.length) (ht : t.length < LARGE_STRING_SIZE) :
    encValKey hash64 (.vstr s) < encValKey hash64 (.vstr t) := by
  refine lt_of_headD_lt (encValKey_ne_nil hash64 _) (encValKey_ne_nil hash64 _) ?_
  rw [encValKey_headD, encValKey_headD]
  simp only [if_pos hs, if_neg (by omega : ¬ LARGE_STRING_SIZE ≤ t.length)]
  omega

/-! ### Claims C4 and C5: marker order and within-region order -/

/-- C4, counterexample.  In the code the encoded markers are
MARK_NEG = 0xff, MARK_STR = 0xfe, MARK_HASH = 0xfd, so MARK_NEG is the
largest of the three; the claimed MARK_NEG < MARK_HASH is false, and the
claimed region order is refuted at -1 versus the one-byte string 0x61:
the negative encoding sorts above the inline-string encoding. -/
theorem C4_marker_order_cex :
    bLt NEGATIVE_VAL_MARKER_ENC HASH_VAL_MARKER_ENC = false ∧
    bLt HASH_VAL_MARKER_ENC NEGATIVE_VAL_MARKER_ENC = true ∧
    bLt (encValKey (fun _ => 0) (.vint (-1))) (encValKey (fun _ => 0) (.vstr [97])) = false ∧
    bLt (encValKey (fun _ => 0) (.vstr [97])) (encValKey (fun _ => 0) (.vint (-1))) = true := by
  decide

/-- C4, amended: the one-byte markers satisfy
MARK_HASH (0xfd) < MARK_STR (0xfe) < MARK_NEG (0xff) as byte strings, so
for values of distinct kinds the regions order as: every non-negative
integer encoding < every hashed-long-string encoding < every
inline-string encoding < every negative integer encoding. -/
theorem C4_marker_order_amended (hash64 : Bytes → Nat) (a b : Int) (s t : Bytes)
    (ha : 0 ≤ a) (hb : b < 0) (hs : 128 ≤ s.length) (ht : t.length < 128) :
    bLt HASH_VAL_MARKER_ENC STRING_VAL_MARKER_ENC = true ∧
    bLt STRING_VAL_MARKER_ENC NEGATIVE_VAL_MARKER_ENC = true ∧
    bLt (encValKey hash64 (.vint a)) (encValKey hash64 (.vstr s)) = true ∧
    bLt (encValKey hash64 (.vstr s)) (encValKey hash64 (.vstr t)) = true ∧
    bLt (encValKey hash64 (.vstr t)) (encValKey hash64 (.vint b)) = true := by
  refine ⟨by decide, by decide, ?_, ?_, ?_⟩
  · exact (bLt_iff _ _).mpr (encValKey_nonneg_lt_vstr hash64 ha s)
  · exact (bLt_iff _ _).mpr (encValKey_hash_lt_str hash64 hs ht)
  · exact (bLt_iff _ _).mpr (encValKey_vstr_lt_neg hash64 hb t)

theorem C4_marker_order_amended_witness :
    bLt (encValKey (fun _ => 7) (.vint 5)) (encValKey (fun _ => 7) (.vstr (List.replicate 128 0))) = true ∧
    bLt (encValKey (fun _ => 7) (.vstr (List.replicate 128 0))) (encValKey (fun _ => 7) (.vstr [97])) = true ∧
    bLt (encValKey (fun _ => 7) (.vstr [97])) (encValKey (fun _ => 7) (.vint (-9))) = true :=
  have h := C4_marker_order_amended (fun _ => 7) 5 (-9) (List.replicate 128 0) [97]
    (by decide) (by decide) (by simp) (by decide)
  ⟨h.2.2.1, h.2.2.2.1, h.2.2.2.2⟩

/-- C5, counterexample.  Within the negative region the encoding order is
the reverse of the numeric order (-2 < -1 but the encoding of -2 sorts
above the encoding of -1), and for inline strings the encodings are
length-prefixed, so the two-byte string "ab" sorts above the one-byte
string "b" although "ab" < "b" as byte strings. -/
theorem C5_within_region_cex :
    ((-2 : Int) < -1 ∧
      bLt (encValKey (fun _ => 0) (.vint (-2))) (encValKey (fun _ => 0) (.vint (-1))) = false) ∧
    (bLt [97, 98] [98] = true ∧
      bLt (encValKey (fun _ => 0) (.vstr [97, 98])) (encValKey (fun _ => 0) (.vstr [98])) = false) := by
  decide

/-- C5, amended: within the non-negative region the encodings are ordered
like the integers; within the negative region the encodings are ordered in
reverse numeric order; within the inline-string region the encodings are
ordered first by string length and, between strings of equal length, like
the strings themselves. -/
theorem C5_within_region_amended (hash64 : Bytes → Nat) :
    (∀ a b : Int, 0 ≤ a → a < b → b ≤ MAX_INT_VAL →
      bLt (encValKey hash64 (.vint a)) (encValKey hash64 (.vint b)) = true) ∧
    (∀ a b : Int, MIN_INT_VAL ≤ a → a < b → b < 0 →
      bLt (encValKey hash64 (.vint b)) (encValKey hash64 (.vint a)) = true) ∧
    (∀ s t : Bytes, s.length < t.length → t.length < 128 →
      bLt (encValKey hash64 (.vstr s)) (encValKey hash64 (.vstr t)) = true) ∧
    (∀ s t : Bytes, s.length = t.length → t.length < 128 →
      (bLt (encValKey hash64 (.vstr s)) (encValKey hash64 (.vstr t)) = bLt s t)) := by
  refine ⟨?_, ?_, ?_, ?_⟩
  · intro a b h0 hab hb
    refine (bLt_iff _ _).mpr (encValKey_nonneg_lt hash64 h0 hab ?_)
    unfold MAX_INT_VAL at hb
    omega
  · intro a b ha hab hb
    refine (bLt_iff _ _).mpr (encValKey_neg_lt hash64 ?_ hab hb)
    unfold MIN_INT_VAL at ha
    omega
  · intro s t hst ht
    have h1 : ¬ LARGE_STRING_SIZE ≤ s.length := by
      unfold LARGE_STRING_SIZE
      omega
    have h2 : ¬ LARGE_STRING_SIZE ≤ t.length := by
      unfold LARGE_STRING_SIZE
      omega
    rw [encValKey_vstr_short hash64 h1, encValKey_vstr_short hash64 h2]
    refine (bLt_iff _ _).mpr ?_
    rw [cons_lt_cons_same]
    exact msgenpackStr_lt_of_length_lt hst ht
  · intro s t hst ht
    have h1 : ¬ LARGE_STRING_SIZE ≤ s.length := by
      unfold LARGE_STRING_SIZE
      omega
    have h2 : ¬ LARGE_STRING_SIZE ≤ t.length := by
      unfold LARGE_STRING_SIZE
      omega
    rw [encValKey_vstr_short hash64 h1, encValKey_vstr_short hash64 h2]
    rw [bLt_eq_decide, bLt_eq_decide, decide_eq_decide]
    rw [cons_lt_cons_same]
    exact msgenpackStr_lt_iff_of_length_eq hst (by omega)

/-! ### Claims C2 and C3: the value-mismatch delete pops the row early -/

set_option maxRecDepth 100000 in
/-- C2: in the source, `_delRowAndIndices` pops the primary row before
the only_if_val check (line 420 calls `_getRowByPkValEnc` with
do_delete=True).  On a value mismatch it returns False with the row
already removed from the primary table and every index entry left in
place.  Consequently `delete_by_iden_prop("aa...aa", "foo", 2)` on a
store holding only (aa...aa, "foo", 1, 10) succeeds, deletes the row
payload of pk 1, and leaves all three indices pointing at the now
missing pk — instead of leaving the store unchanged. -/
theorem C2_value_mismatch_pops_row :
    delRowAndIndices hashZero stOne (msgenpackNat 1) none none none none
        true true true (some (.vint 2)) = .ok (false, { stOne with rows := [] }) ∧
    delRowsByIdProp hashZero stOne idenA propFoo (some (.vint 2)) =
      .ok { stOne with rows := [] } ∧
    stOne.rows = [(1, rowFoo1)] ∧
    indexPks stOne.ip = [1] ∧ indexPks stOne.pvt = [1] ∧ indexPks stOne.pt = [1] := by
  decide

set_option maxRecDepth 100000 in
/-- C3: after the operation sequence [append one row; delete_by_iden_prop
with a mismatching value], the primary table holds no pk while each of
the three index tables still references pk 1, so the index-row
consistency invariant does not survive every append/delete sequence. -/
theorem C3_dangling_indices_after_mismatch_delete :
    rowPks (applyOps hashZero emptyState
        [.add [rowFoo1], .delIdProp idenA propFoo (some (.vint 2))]) = [] ∧
    indexPks (applyOps hashZero emptyState
        [.add [rowFoo1], .delIdProp idenA propFoo (some (.vint 2))]).ip = [1] ∧
    indexPks (applyOps hashZero emptyState
        [.add [rowFoo1], .delIdProp idenA propFoo (some (.vint 2))]).pvt = [1] ∧
    indexPks (applyOps hashZero emptyState
        [.add [rowFoo1], .delIdProp idenA propFoo (some (.vint 2))]).pt = [1] := by
  decide

/-! ### Claim C8: addRows validates the whole batch before writing -/

theorem assignPks_fst_lt : ∀ (rows : List Row) (n : Nat) (p : Nat × Row),
    p ∈ assignPks n rows → n ≤ p.1
  | [], _, p, hp => absurd hp (List.not_mem_nil p)
  | r :: rs, n, p, hp => by
    rw [show assignPks n (r :: rs) = (n, r) :: assignPks (n + 1) rs from rfl] at hp
    rcases List.mem_cons.mp hp with rfl | hp2
    · exact le_refl n
    · exact le_trans (by omega) (assignPks_fst_lt rs (n + 1) p hp2)

theorem assignPks_pairwise : ∀ (rows : List Row) (n : Nat),
    List.Pairwise (fun p q => p.1 < q.1) (assignPks n rows)
  | [], _ => List.Pairwise.nil
  | r :: rs, n => by
    rw [show assignPks n (r :: rs) = (n, r) :: assignPks (n + 1) rs from rfl]
    refine List.Pairwise.cons ?_ (assignPks_pairwise rs (n + 1))
    intro q hq
    have := assignPks_fst_lt rs (n + 1) q hq
    omega

theorem assignPks_length : ∀ (rows : List Row) (n : Nat),
    (assignPks n rows).length = rows.length
  | [], _ => rfl
  | r :: rs, n => by
    rw [show assignPks n (r :: rs) = (n, r) :: assignPks (n + 1) rs from rfl]
    simp [assignPks_length rs]

theorem assignPks_map_snd : ∀ (rows : List Row) (n : Nat),
    (assignPks n rows).map Prod.snd = rows
  | [], _ => rfl
  | r :: rs, n => by
    rw [show assignPks n (r :: rs) = (n, r) :: assignPks (n + 1) rs from rfl]
    simp [assignPks_map_snd rs]

theorem addRowsPrecompute_error_of_offense :
    ∀ (rows : List Row) (n : Nat),
      ((∃ r ∈ rows, MAX_PROP_LEN < r.prop.length) ∨
        (rows ≠ [] ∧ MAX_PK < n + rows.length - 1)) →
      addRowsPrecompute n rows = .error .limitReached
  | [], _, h => by
    rcases h with ⟨r, hr, _⟩ | ⟨hne, _⟩
    · exact absurd hr (List.not_mem_nil r)
    · exact absurd rfl hne
  | r :: rs, n, h => by
    rw [show addRowsPrecompute n (r :: rs) =
      (if MAX_PK < n then .error .limitReached
       else if MAX_PROP_LEN < r.prop.length then .error .limitReached
       else (addRowsPrecompute (n + 1) rs).map (fun l => (n, r) :: l)) from rfl]
    by_cases h1 : MAX_PK < n
    · rw [if_pos h1]
    · rw [if_neg h1]
      by_cases h2 : MAX_PROP_LEN < r.prop.length
      · rw [if_pos h2]
      · rw [if_neg h2]
        have hoff : (∃ q ∈ rs, MAX_PROP_LEN < q.prop.length) ∨
            (rs ≠ [] ∧ MAX_PK < (n + 1) + rs.length - 1) := by
          rcases h with ⟨q, hq, hlen⟩ | ⟨_, hpk⟩
          · rcases List.mem_cons.mp hq with rfl | hq2
            · exact absurd hlen h2
            · exact Or.inl ⟨q, hq2, hlen⟩
          · refine Or.inr ⟨?_, ?_⟩
            · intro hrs
              subst hrs
              simp at hpk
              omega
            · have hlen2 : (r :: rs).length = rs.length + 1 := rfl
              omega
        rw [addRowsPrecompute_error_of_offense rs (n + 1) hoff]
        rfl

theorem addRowsPrecompute_ok :
    ∀ (rows : List Row) (n : Nat),
      (∀ r ∈ rows, ¬ MAX_PROP_LEN < r.prop.length) →
      (rows = [] ∨ n + rows.length - 1 ≤ MAX_PK) →
      addRowsPrecompute n rows = .ok (assignPks n rows)
  | [], _, _, _ => rfl
  | r :: rs, n, hprop, hbound => by
    rw [show addRowsPrecompute n (r :: rs) =
      (if MAX_PK < n then .error .limitReached
       else if MAX_PROP_LEN < r.prop.length then .error .limitReached
       else (addRowsPrecompute (n + 1) rs).map (fun l => (n, r) :: l)) from rfl]
    have h1 : ¬ MAX_PK < n := by
      rcases hbound with hb | hb
      · exact absurd hb (by simp)
      · have : (r :: rs).length = rs.length + 1 := rfl
        omega
    rw [if_neg h1, if_neg (hprop r (List.mem_cons_self r rs))]
    rw [addRowsPrecompute_ok rs (n + 1)
      (fun q hq => hprop q (List.mem_cons_of_mem r hq))
      (by
        cases rs with
        | nil => exact Or.inl rfl
        | cons q qs =>
          rcases hbound with hb | hb
          · exact absurd hb (by simp)
          · refine Or.inr ?_
            have : (r :: q :: qs).length = (q :: qs).length + 1 := rfl
            omega)]
    rfl

theorem mem_of_getLast?_eq {l : List (Nat × Row)} {q : Nat × Row}
    (h : l.getLast? = some q) : q ∈ l := by
  have h2 : q ∈ l.getLast? := by
    rw [h]
    rfl
  obtain ⟨hne, heq⟩ := List.mem_getLast?_eq_getLast h2
  rw [heq]
  exact List.getLast_mem hne

theorem putRowsAppend_ok :
    ∀ (l t : List (Nat × Row)),
      (∀ q ∈ t, ∀ p ∈ l, q.1 < p.1) →
      List.Pairwise (fun p q => p.1 < q.1) l →
      putRowsAppend t l = .ok (t ++ l)
  | [], t, _, _ => by simp [putRowsAppend]
  | p :: ps, t, hqt, hpw => by
    rw [show putRowsAppend t (p :: ps) =
      (if (match t.getLast? with | none => true | some q => decide (q.1 < p.1)) = true then
        putRowsAppend (t ++ [p]) ps
       else .error .inconsistent) from rfl]
    have hcond : (match t.getLast? with
        | none => true
        | some q => decide (q.1 < p.1)) = true := by
      rcases hq : t.getLast? with _ | q
      · rfl
      · have hmem : q ∈ t := mem_of_getLast?_eq hq
        simpa using hqt q hmem p (List.mem_cons_self p ps)
    rw [if_pos hcond]
    rw [putRowsAppend_ok ps (t ++ [p])
      (by
        intro q hq p2 hp2
        rcases List.mem_append.mp hq with hq2 | hq2
        · exact hqt q hq2 p2 (List.mem_cons_of_mem p hp2)
        · rcases List.mem_singleton.mp hq2 with rfl
          exact (List.pairwise_cons.mp hpw).1 p2 hp2)
      (List.pairwise_cons.mp hpw).2]
    simp

/-- C8: `_addRows` rejects a batch with DatabaseLimitReached exactly when
some row's property name is longer than 350 bytes or assigning pks to the
batch would exceed MAX_PK; the checks run in the precompute loop before
the write transaction opens, so a rejected batch leaves the whole store
(all four tables and the next-pk counter) unchanged, and an accepted
batch writes every row. -/
theorem C8_addRows_validation (hash64 : Bytes → Nat) (st : DbState) (rows : List Row)
    (hpk : ∀ pr ∈ st.rows, pr.1 < st.next_pk) :
    (addRows hash64 st rows = .error .limitReached ↔
      ((∃ r ∈ rows, MAX_PROP_LEN < r.prop.length) ∨
        (rows ≠ [] ∧ MAX_PK < st.next_pk + rows.length - 1))) ∧
    (((∃ r ∈ rows, MAX_PROP_LEN < r.prop.length) ∨
        (rows ≠ [] ∧ MAX_PK < st.next_pk + rows.length - 1)) →
      applyOp hash64 st (.add rows) = st) ∧
    (¬ ((∃ r ∈ rows, MAX_PROP_LEN < r.prop.length) ∨
        (rows ≠ [] ∧ MAX_PK < st.next_pk + rows.length - 1)) →
      addRows hash64 st rows = .ok
        { rows := st.rows ++ assignPks st.next_pk rows,
          ip := putEnts ((assignPks st.next_pk rows).map
            (fun pr => (ipKeyOf pr.2, msgenpackNat pr.1))) st.ip,
          pvt := putEnts ((assignPks st.next_pk rows).map
            (fun pr => (pvtKeyOf hash64 pr.2, msgenpackNat pr.1))) st.pvt,
          pt := putEnts ((assignPks st.next_pk rows).map
            (fun pr => (ptKeyOf pr.2, msgenpackNat pr.1))) st.pt,
          next_pk := st.next_pk + rows.length }) := by
  have hok : ¬ ((∃ r ∈ rows, MAX_PROP_LEN < r.prop.length) ∨
      (rows ≠ [] ∧ MAX_PK < st.next_pk + rows.length - 1)) →
      addRows hash64 st rows = .ok
        { rows := st.rows ++ assignPks st.next_pk rows,
          ip := putEnts ((assignPks st.next_pk rows).map
            (fun pr => (ipKeyOf pr.2, msgenpackNat pr.1))) st.ip,
          pvt := putEnts ((assignPks st.next_pk rows).map
            (fun pr => (pvtKeyOf hash64 pr.2, msgenpackNat pr.1))) st.pvt,
          pt := putEnts ((assignPks st.next_pk rows).map
            (fun pr => (ptKeyOf pr.2, msgenpackNat pr.1))) st.pt,
          next_pk := st.next_pk + rows.length } := by
    intro hno
    push_neg at hno
    unfold addRows
    rw [addRowsPrecompute_ok rows st.next_pk (fun r hr => not_lt.mpr (hno.1 r hr))
      (by
        rcases Classical.em (rows = []) with he | he
        · exact Or.inl he
        · exact Or.inr (hno.2 he))]
    rw [show ((Except.ok (assignPks st.next_pk rows) : Except DbErr _).bind
        (fun encs => (putRowsAppend st.rows encs).bind _) : Except DbErr DbState) =
      ((putRowsAppend st.rows (assignPks st.next_pk rows)).bind _ : Except DbErr DbState) from rfl]
    rw [putRowsAppend_ok (assignPks st.next_pk rows) st.rows
      (fun q hq p hp => lt_of_lt_of_le (hpk q hq) (assignPks_fst_lt rows st.next_pk p hp))
      (assignPks_pairwise rows st.next_pk)]
    rfl
  refine ⟨⟨?_, ?_⟩, ?_, hok⟩
  · intro herr
    by_contra hno
    rw [hok hno] at herr
    exact absurd herr (by simp)
  · intro hoff
    unfold addRows
    rw [addRowsPrecompute_error_of_offense rows st.next_pk hoff]
    rfl
  · intro hoff
    show applyExcept st (addRows hash64 st rows) = st
    unfold addRows
    rw [addRowsPrecompute_error_of_offense rows st.next_pk hoff]
    rfl

set_option maxRecDepth 100000 in
theorem C8_addRows_validation_witness :
    addRows hashZero stOne [⟨idenA, List.replicate 351 0, .vint 0, 0⟩] =
      .error .limitReached :=
  (C8_addRows_validation hashZero stOne [⟨idenA, List.replicate 351 0, .vint 0, 0⟩]
      (by decide)).1.mpr
    (Or.inl ⟨⟨idenA, List.replicate 351 0, .vint 0, 0⟩, by decide, by decide⟩)

/-! ### Claim C7: monotone pk assignment and the next-pk computation -/

theorem exceptBind_ok {A B : Type} {x : Except DbErr A} {f : A → Except DbErr B}
    {b : B} (h : x.bind f = .ok b) : ∃ a, x = .ok a ∧ f a = .ok b := by
  cases x with
  | error e => exact absurd h (by simp [Except.bind])
  | ok a => exact ⟨a, rfl, h⟩

theorem getRowByPkValEnc_state {st : DbState} {pv : Bytes} {dd : Bool} {r : Row}
    {st2 : DbState} (h : getRowByPkValEnc st pv dd = .ok (r, st2)) :
    st2.next_pk = st.next_pk ∧ st2.rows.Sublist st.rows ∧
      st2.ip = st.ip ∧ st2.pvt = st.pvt ∧ st2.pt = st.pt := by
  unfold getRowByPkValEnc at h
  split at h
  · exact absurd h (by simp)
  · split at h
    · exact absurd h (by simp)
    · simp only [Except.ok.injEq, Prod.mk.injEq] at h
      rw [← h.2]
      cases dd with
      | false => exact ⟨rfl, List.Sublist.refl _, rfl, rfl, rfl⟩
      | true => exact ⟨rfl, List.eraseP_sublist _, rfl, rfl, rfl⟩

theorem delRowAndIndices_state {hash64 : Bytes → Nat} {st : DbState} {pv : Bytes}
    {ie pe ve te : Option Bytes} {dip dpvt dpt : Bool} {ov : Option Valu}
    {b : Bool} {st2 : DbState}
    (h : delRowAndIndices hash64 st pv ie pe ve te dip dpvt dpt ov = .ok (b, st2)) :
    st2.next_pk = st.next_pk ∧ st2.rows.Sublist st.rows := by
  unfold delRowAndIndices at h
  obtain ⟨rs, hg, h⟩ := exceptBind_ok h
  obtain ⟨hn, hs, _, _, _⟩ := @getRowByPkValEnc_state _ _ _ rs.1 rs.2
    (by rw [hg])
  split at h
  · simp only [Except.ok.injEq, Prod.mk.injEq] at h
    rw [← h.2]
    exact ⟨hn, hs⟩
  · obtain ⟨ip2, _, h⟩ := exceptBind_ok h
    obtain ⟨pvt2, _, h⟩ := exceptBind_ok h
    obtain ⟨pt2, _, h⟩ := exceptBind_ok h
    simp only [Except.ok.injEq, Prod.mk.injEq] at h
    rw [← h.2]
    exact ⟨hn, hs⟩

theorem delByIdGo_state {hash64 : Bytes → Nat} {ie : Bytes} :
    ∀ {es : List Ent} {st : DbState} {out : List Ent × DbState},
      delByIdGo hash64 ie es st = .ok out →
      out.2.next_pk = st.next_pk ∧ out.2.rows.Sublist st.rows
  | [], st, out, h => by
    simp only [delByIdGo, Except.ok.injEq] at h
    rw [← h]
    exact ⟨rfl, List.Sublist.refl _⟩
  | e :: es, st, out, h => by
    unfold delByIdGo at h
    split at h
    · simp only [Except.ok.injEq] at h
      rw [← h]
      exact ⟨rfl, List.Sublist.refl _⟩
    · obtain ⟨bs, hd, h⟩ := exceptBind_ok h
      obtain ⟨hn1, hs1⟩ := @delRowAndIndices_state _ _ _ _ _ _ _ _ _ _ _ bs.1 bs.2 (by rw [hd])
      obtain ⟨hn2, hs2⟩ := delByIdGo_state h
      exact ⟨hn2.trans hn1, hs2.trans hs1⟩

theorem delByIdPropGo_state {hash64 : Bytes → Nat} {fk ie pe : Bytes} {ov : Option Valu} :
    ∀ {es : List Ent} {st : DbState} {out : List Ent × DbState},
      delByIdPropGo hash64 fk ie pe ov es st = .ok out →
      out.2.next_pk = st.next_pk ∧ out.2.rows.Sublist st.rows
  | [], st, out, h => by
    simp only [delByIdPropGo, Except.ok.injEq] at h
    rw [← h]
    exact ⟨rfl, List.Sublist.refl _⟩
  | e :: es, st, out, h => by
    unfold delByIdPropGo at h
    split at h
    · simp only [Except.ok.injEq] at h
      rw [← h]
      exact ⟨rfl, List.Sublist.refl _⟩
    · obtain ⟨bs, hd, h⟩ := exceptBind_ok h
      obtain ⟨hn1, hs1⟩ := @delRowAndIndices_state _ _ _ _ _ _ _ _ _ _ _ bs.1 bs.2 (by rw [hd])
      split at h
      · obtain ⟨hn2, hs2⟩ := delByIdPropGo_state h
        exact ⟨hn2.trans hn1, hs2.trans hs1⟩
      · split at h
        · exact absurd h (by simp)
        · rcases hrec : delByIdPropGo hash64 fk ie pe ov es bs.2 with er | ks
          · rw [hrec] at h
            exact absurd h (by simp [Except.map])
          · rw [hrec] at h
            simp only [Except.map, Except.ok.injEq] at h
            obtain ⟨hn2, hs2⟩ := delByIdPropGo_state hrec
            rw [← h]
            exact ⟨hn2.trans hn1, hs2.trans hs1⟩

theorem getByPropGo_state {hash64 : Bytes → Nat} {pe lk : Bytes} {valu : Option Valu}
    {vh dco ddo : Bool} {limit : Option Int} :
    ∀ {fuel : Nat} {es : List Ent} {count : Nat} {ret : List Row} {st : DbState}
      {out : List Ent × Nat × List Row × DbState},
      getByPropGo hash64 pe lk valu vh dco ddo limit fuel es count ret st = .ok out →
      out.2.2.2.next_pk = st.next_pk ∧ out.2.2.2.rows.Sublist st.rows
  | 0, es, count, ret, st, out, h => absurd h (by simp [getByPropGo])
  | fuel + 1, [], count, ret, st, out, h => by
    unfold getByPropGo at h
    split at h <;> exact absurd h (by simp)
  | fuel + 1, e :: es, count, ret, st, out, h => by
    unfold getByPropGo at h
    split at h
    · simp only [Except.ok.injEq] at h
      rw [← h]
      exact ⟨rfl, List.Sublist.refl _⟩
    · split at h
      · -- delete branch
        obtain ⟨bs, hd, h⟩ := exceptBind_ok h
        obtain ⟨hn1, hs1⟩ := @delRowAndIndices_state _ _ _ _ _ _ _ _ _ _ _ bs.1 bs.2 (by rw [hd])
        repeat' split at h
        all_goals
          first
          | exact Except.noConfusion h
          | (simp only [Except.ok.injEq] at h
             rw [← h]
             exact ⟨hn1, hs1⟩)
          | (obtain ⟨hn2, hs2⟩ := getByPropGo_state h
             exact ⟨hn2.trans hn1, hs2.trans hs1⟩)
      · -- fetch branch
        obtain ⟨rc, hf, h⟩ := exceptBind_ok h
        repeat' split at h
        all_goals
          first
          | exact Except.noConfusion h
          | (simp only [Except.ok.injEq] at h
             rw [← h]
             exact ⟨rfl, List.Sublist.refl _⟩)
          | (obtain ⟨hn2, hs2⟩ := getByPropGo_state h
             exact ⟨hn2, hs2⟩)

theorem delRowsById_state {hash64 : Bytes → Nat} {st : DbState} {iden : Bytes}
    {st2 : DbState} (h : delRowsById hash64 st iden = .ok st2) :
    st2.next_pk = st.next_pk ∧ st2.rows.Sublist st.rows := by
  simp only [delRowsById] at h
  split at h
  · exact Except.noConfusion h
  · obtain ⟨ks, hg, h⟩ := exceptBind_ok h
    obtain ⟨hn, hs⟩ := delByIdGo_state hg
    simp only [Except.ok.injEq] at h
    rw [← h]
    exact ⟨hn, hs⟩

theorem delRowsByIdProp_state {hash64 : Bytes → Nat} {st : DbState}
    {iden prop : Bytes} {valu : Option Valu} {st2 : DbState}
    (h : delRowsByIdProp hash64 st iden prop valu = .ok st2) :
    st2.next_pk = st.next_pk ∧ st2.rows.Sublist st.rows := by
  simp only [delRowsByIdProp] at h
  split at h
  · exact Except.noConfusion h
  · obtain ⟨ks, hg, h⟩ := exceptBind_ok h
    obtain ⟨hn, hs⟩ := delByIdPropGo_state hg
    simp only [Except.ok.injEq] at h
    rw [← h]
    exact ⟨hn, hs⟩

theorem getRowsByProp_state {hash64 : Bytes → Nat} {st : DbState} {prop : Bytes}
    {valu : Option Valu} {limit : Option Int} {mintime maxtime : Option Int}
    {dco ddo : Bool} {out : Nat × List Row × DbState}
    (h : getRowsByProp hash64 st prop valu limit mintime maxtime dco ddo = .ok out) :
    out.2.2.next_pk = st.next_pk ∧ out.2.2.rows.Sublist st.rows := by
  simp only [getRowsByProp] at h
  split at h
  · exact Except.noConfusion h
  · obtain ⟨o2, hg, h⟩ := exceptBind_ok h
    obtain ⟨hn, hs⟩ := getByPropGo_state hg
    split at h <;>
      (simp only [Except.ok.injEq] at h
       rw [← h]) <;>
      first
      | exact ⟨hn, hs⟩
      | (split <;> exact ⟨hn, hs⟩)

theorem delRowsByProp_state {hash64 : Bytes → Nat} {st : DbState} {prop : Bytes}
    {valu : Option Valu} {mintime maxtime : Option Int} {st2 : DbState}
    (h : delRowsByProp hash64 st prop valu mintime maxtime = .ok st2) :
    st2.next_pk = st.next_pk ∧ st2.rows.Sublist st.rows := by
  unfold delRowsByProp at h
  rcases hg : getRowsByProp hash64 st prop valu none mintime maxtime false true with e | out
  · rw [hg] at h
    exact absurd h (by simp [Except.map])
  · rw [hg] at h
    simp only [Except.map, Except.ok.injEq] at h
    obtain ⟨hn, hs⟩ := getRowsByProp_state hg
    rw [← h]
    exact ⟨hn, hs⟩

theorem assignPks_fst_ub : ∀ (rows : List Row) (n : Nat) (p : Nat × Row),
    p ∈ assignPks n rows → p.1 < n + rows.length
  | [], _, p, hp => absurd hp (List.not_mem_nil p)
  | r :: rs, n, p, hp => by
    rw [show assignPks n (r :: rs) = (n, r) :: assignPks (n + 1) rs from rfl] at hp
    rcases List.mem_cons.mp hp with rfl | hp2
    · simp
    · have := assignPks_fst_ub rs (n + 1) p hp2
      have hl : (r :: rs).length = rs.length + 1 := rfl
      omega

theorem addRowsPrecompute_cases : ∀ (rows : List Row) (n : Nat),
    addRowsPrecompute n rows = .error .limitReached ∨
      addRowsPrecompute n rows = .ok (assignPks n rows)
  | [], _ => Or.inr rfl
  | r :: rs, n => by
    rw [show addRowsPrecompute n (r :: rs) =
      (if MAX_PK < n then .error .limitReached
       else if MAX_PROP_LEN < r.prop.length then .error .limitReached
       else (addRowsPrecompute (n + 1) rs).map (fun l => (n, r) :: l)) from rfl]
    by_cases h1 : MAX_PK < n
    · rw [if_pos h1]
      exact Or.inl rfl
    · rw [if_neg h1]
      by_cases h2 : MAX_PROP_LEN < r.prop.length
      · rw [if_pos h2]
        exact Or.inl rfl
      · rw [if_neg h2]
        rcases addRowsPrecompute_cases rs (n + 1) with h | h
        · rw [h]
          exact Or.inl rfl
        · rw [h]
          exact Or.inr rfl

theorem putRowsAppend_shape : ∀ (l t u : List (Nat × Row)),
    putRowsAppend t l = .ok u → u = t ++ l
  | [], t, u, h => by
    simp only [putRowsAppend, Except.ok.injEq] at h
    simp [← h]
  | p :: ps, t, u, h => by
    rw [show putRowsAppend t (p :: ps) =
      (if (match t.getLast? with | none => true | some q => decide (q.1 < p.1)) = true then
        putRowsAppend (t ++ [p]) ps
       else .error .inconsistent) from rfl] at h
    split at h
    · rw [putRowsAppend_shape ps (t ++ [p]) u h]
      simp
    · exact Except.noConfusion h

theorem addRows_ok_inv {hash64 : Bytes → Nat} {st : DbState} {rows : List Row}
    {st2 : DbState} (h : addRows hash64 st rows = .ok st2) :
    st2.rows = st.rows ++ assignPks st.next_pk rows ∧
      st2.next_pk = st.next_pk + rows.length := by
  unfold addRows at h
  obtain ⟨encs, hpre, h⟩ := exceptBind_ok h
  obtain ⟨rows2, hput, h⟩ := exceptBind_ok h
  rcases addRowsPrecompute_cases rows st.next_pk with hc | hc
  · rw [hc] at hpre
    exact Except.noConfusion hpre
  · rw [hc] at hpre
    simp only [Except.ok.injEq] at hpre
    subst hpre
    have hshape := putRowsAppend_shape _ _ _ hput
    simp only [Except.ok.injEq] at h
    rw [← h]
    exact ⟨hshape, rfl⟩

theorem invPk_applyOp (hash64 : Bytes → Nat) (st : DbState) (op : Op)
    (hinv : InvPk st) : InvPk (applyOp hash64 st op) := by
  rcases hr : runOp hash64 st op with e | st2
  · rw [show applyOp hash64 st op = applyExcept st (runOp hash64 st op) from rfl, hr]
    exact hinv
  · rw [show applyOp hash64 st op = applyExcept st (runOp hash64 st op) from rfl, hr]
    show InvPk st2
    cases op with
    | add rows =>
      obtain ⟨hrows, hnext⟩ := @addRows_ok_inv hash64 _ _ _ hr
      constructor
      · intro pr hpr
        rw [hrows] at hpr
        rcases List.mem_append.mp hpr with hm | hm
        · have := hinv.1 pr hm
          omega
        · have := assignPks_fst_ub rows st.next_pk pr hm
          omega
      · rw [hrows]
        rw [List.pairwise_append]
        refine ⟨hinv.2, assignPks_pairwise rows st.next_pk, ?_⟩
        intro a ha b hb
        exact lt_of_lt_of_le (hinv.1 a ha) (assignPks_fst_lt rows st.next_pk b hb)
    | delId iden =>
      obtain ⟨hn, hs⟩ := delRowsById_state hr
      exact ⟨fun pr hpr => hn ▸ hinv.1 pr (hs.mem hpr), hinv.2.sublist hs⟩
    | delIdProp iden prop valu =>
      obtain ⟨hn, hs⟩ := delRowsByIdProp_state hr
      exact ⟨fun pr hpr => hn ▸ hinv.1 pr (hs.mem hpr), hinv.2.sublist hs⟩
    | delProp prop valu mintime maxtime =>
      obtain ⟨hn, hs⟩ := delRowsByProp_state hr
      exact ⟨fun pr hpr => hn ▸ hinv.1 pr (hs.mem hpr), hinv.2.sublist hs⟩

theorem assignedPks_spec (hash64 : Bytes → Nat) : ∀ (ops : List Op) (st : DbState),
    InvPk st →
    InvPk (applyOps hash64 st ops) ∧
    (applyOps hash64 st ops).next_pk =
      st.next_pk + (assignedPks hash64 st ops).length ∧
    assignedPks hash64 st ops =
      List.range' st.next_pk (assignedPks hash64 st ops).length
  | [], st, hinv => by
    refine ⟨hinv, by simp [applyOps, assignedPks], by simp [assignedPks]⟩
  | op :: ops, st, hinv => by
    have hstep : InvPk (applyOp hash64 st op) := invPk_applyOp hash64 st op hinv
    obtain ⟨hinv2, hnext, hrange⟩ := assignedPks_spec hash64 ops (applyOp hash64 st op) hstep
    have happly : applyOps hash64 st (op :: ops) = applyOps hash64 (applyOp hash64 st op) ops := rfl
    have hassign : assignedPks hash64 st (op :: ops) =
        opContribution hash64 st op ++ assignedPks hash64 (applyOp hash64 st op) ops := rfl
    have hcontrib : (applyOp hash64 st op).next_pk =
        st.next_pk + (opContribution hash64 st op).length := by
      rcases hr : runOp hash64 st op with e | st2
      · rw [show applyOp hash64 st op = applyExcept st (runOp hash64 st op) from rfl, hr]
        cases op <;> simp [applyExcept, opContribution, hr]
      · rw [show applyOp hash64 st op = applyExcept st (runOp hash64 st op) from rfl, hr]
        cases op with
        | add rows =>
          obtain ⟨_, hnext2⟩ := @addRows_ok_inv hash64 _ _ _ hr
          simp only [applyExcept, opContribution, hr]
          rw [hnext2]
          simp
        | delId iden =>
          obtain ⟨hn, _⟩ := delRowsById_state hr
          simp only [applyExcept, opContribution, hr]
          simpa using hn
        | delIdProp iden prop valu =>
          obtain ⟨hn, _⟩ := delRowsByIdProp_state hr
          simp only [applyExcept, opContribution, hr]
          simpa using hn
        | delProp prop valu mintime maxtime =>
          obtain ⟨hn, _⟩ := delRowsByProp_state hr
          simp only [applyExcept, opContribution, hr]
          simpa using hn
    refine ⟨by rw [happly]; exact hinv2, ?_, ?_⟩
    · rw [happly, hnext, hassign]
      simp only [List.length_append]
      omega
    · rcases hr : runOp hash64 st op with e | st2
      · have hcon : opContribution hash64 st op = [] := by
          cases op <;> simp [opContribution, hr]
        have hst : applyOp hash64 st op = st := by
          rw [show applyOp hash64 st op = applyExcept st (runOp hash64 st op) from rfl, hr]
          rfl
        rw [hassign, hcon, List.nil_append, hrange, hst, List.length_range']
      · cases op with
        | add rows =>
          obtain ⟨_, hnext2⟩ := @addRows_ok_inv hash64 _ _ _ hr
          have hap : (applyOp hash64 st (Op.add rows)).next_pk =
              st.next_pk + rows.length := by
            rw [show applyOp hash64 st (Op.add rows) =
              applyExcept st (runOp hash64 st (Op.add rows)) from rfl, hr]
            exact hnext2
          have hcon : opContribution hash64 st (Op.add rows) =
              List.range' st.next_pk rows.length := by
            simp [opContribution, hr]
          rw [hassign, hcon, hrange, hap]
          rw [List.length_append, List.length_range', List.length_range']
          have hre := List.range'_append st.next_pk rows.length
            (assignedPks hash64 (applyOp hash64 st (Op.add rows)) ops).length 1
          simp only [one_mul] at hre
          rw [Nat.add_comm rows.length
            (assignedPks hash64 (applyOp hash64 st (Op.add rows)) ops).length]
          exact hre
        | delId iden =>
          have hst : (applyOp hash64 st (Op.delId iden)).next_pk = st.next_pk := by
            rw [show applyOp hash64 st (Op.delId iden) =
              applyExcept st (runOp hash64 st (Op.delId iden)) from rfl, hr]
            exact (delRowsById_state hr).1
          have hcon : opContribution hash64 st (Op.delId iden) = [] := by
            simp [opContribution, hr]
          rw [hassign, hcon, List.nil_append, hrange, hst, List.length_range']
        | delIdProp iden prop valu =>
          have hst : (applyOp hash64 st (Op.delIdProp iden prop valu)).next_pk =
              st.next_pk := by
            rw [show applyOp hash64 st (Op.delIdProp iden prop valu) =
              applyExcept st (runOp hash64 st (Op.delIdProp iden prop valu)) from rfl, hr]
            exact (delRowsByIdProp_state hr).1
          have hcon : opContribution hash64 st (Op.delIdProp iden prop valu) = [] := by
            simp [opContribution, hr]
          rw [hassign, hcon, List.nil_append, hrange, hst, List.length_range']
        | delProp prop valu mintime maxtime =>
          have hst : (applyOp hash64 st (Op.delProp prop valu mintime maxtime)).next_pk =
              st.next_pk := by
            rw [show applyOp hash64 st (Op.delProp prop valu mintime maxtime) =
              applyExcept st (runOp hash64 st (Op.delProp prop valu mintime maxtime)) from rfl, hr]
            exact (delRowsByProp_state hr).1
          have hcon : opContribution hash64 st (Op.delProp prop valu mintime maxtime) = [] := by
            simp [opContribution, hr]
          rw [hassign, hcon, List.nil_append, hrange, hst, List.length_range']

theorem mem_le_listMaxPk : ∀ (rows : List (Nat × Row)) (p : Nat × Row),
    p ∈ rows → p.1 ≤ listMaxPk rows
  | [], p, hp => absurd hp (List.not_mem_nil p)
  | q :: t, p, hp => by
    rw [show listMaxPk (q :: t) = max q.1 (listMaxPk t) from rfl]
    rcases List.mem_cons.mp hp with rfl | hp2
    · exact le_max_left _ _
    · exact le_trans (mem_le_listMaxPk t p hp2) (le_max_right _ _)

theorem getLargestPk_eq_max : ∀ {rows : List (Nat × Row)},
    List.Pairwise (fun p q : Nat × Row => p.1 < q.1) rows →
    getLargestPk rows = listMaxPk rows
  | [], _ => rfl
  | [p], _ => by
    rw [show getLargestPk [p] = p.1 from rfl,
      show listMaxPk [p] = max p.1 (listMaxPk []) from rfl,
      show listMaxPk ([] : List (Nat × Row)) = 0 from rfl]
    omega
  | p :: q :: t, hpw => by
    have h1 : getLargestPk (p :: q :: t) = getLargestPk (q :: t) := by
      unfold getLargestPk
      rw [List.getLast?_cons_cons]
    rw [h1, getLargestPk_eq_max (List.pairwise_cons.mp hpw).2]
    rw [show listMaxPk (p :: q :: t) = max p.1 (listMaxPk (q :: t)) from rfl]
    have h2 : p.1 < q.1 := (List.pairwise_cons.mp hpw).1 q (List.mem_cons_self q t)
    have h3 : q.1 ≤ listMaxPk (q :: t) := mem_le_listMaxPk _ q (List.mem_cons_self q t)
    omega

/-- C7: starting from a fresh store, over any sequence of append and
delete operations the pks handed out by `_addRows` are exactly the
consecutive integers 1, 2, 3, ... in order — strictly increasing,
starting at 1, and (being pairwise distinct) never reassigned after the
row holding one is deleted.  Moreover the next-pk computation of
`_initDbConn` (largest key of the rows table, plus one, guarded by the
MAX_PK limit) coincides with (the true maximum stored pk) + 1 on the
resulting store. -/
theorem C7_monotone_pks (hash64 : Bytes → Nat) (ops : List Op) :
    assignedPks hash64 emptyState ops =
      List.range' 1 (assignedPks hash64 emptyState ops).length ∧
    List.Pairwise (· < ·) (assignedPks hash64 emptyState ops) ∧
    initNextPk (applyOps hash64 emptyState ops).rows =
      (if listMaxPk (applyOps hash64 emptyState ops).rows = MAX_PK
       then .error .limitReached
       else .ok (listMaxPk (applyOps hash64 emptyState ops).rows + 1)) := by
  have hinv : InvPk emptyState := by
    constructor
    · intro pr hpr
      exact absurd hpr (List.not_mem_nil pr)
    · exact List.Pairwise.nil
  obtain ⟨hinv2, _, hrange⟩ := assignedPks_spec hash64 ops emptyState hinv
  have hone : emptyState.next_pk = 1 := rfl
  rw [hone] at hrange
  refine ⟨hrange, ?_, ?_⟩
  · rw [hrange]
    exact List.pairwise_lt_range' 1 _
  · unfold initNextPk
    rw [getLargestPk_eq_max hinv2.2]

/-! ### Sorted-table infrastructure -/

theorem bLt_false_iff (a b : Bytes) : bLt a b = false ↔ ¬ a < b := by
  rw [bLt_eq_decide]
  exact decide_eq_false_iff_not

theorem bLe_false_iff (a b : Bytes) : bLe a b = false ↔ ¬ a ≤ b := by
  rw [bLe_eq_decide]
  exact decide_eq_false_iff_not

theorem entLe_iff (e1 e2 : Ent) :
    entLe e1 e2 = true ↔ (e1.1 < e2.1 ∨ (e1.1 = e2.1 ∧ e1.2 ≤ e2.2)) := by
  unfold entLe
  rw [Bool.or_eq_true, Bool.and_eq_true, beq_iff_eq, bLt_iff, bLe_iff]

theorem entLe_total (e1 e2 : Ent) : entLe e1 e2 = true ∨ entLe e2 e1 = true := by
  rw [entLe_iff, entLe_iff]
  rcases lt_trichotomy e1.1 e2.1 with h | h | h
  · exact Or.inl (Or.inl h)
  · rcases le_total e1.2 e2.2 with h2 | h2
    · exact Or.inl (Or.inr ⟨h, h2⟩)
    · exact Or.inr (Or.inr ⟨h.symm, h2⟩)
  · exact Or.inr (Or.inl h)

theorem entLe_trans {e1 e2 e3 : Ent} (h1 : entLe e1 e2 = true)
    (h2 : entLe e2 e3 = true) : entLe e1 e3 = true := by
  rw [entLe_iff] at h1 h2 ⊢
  rcases h1 with h1 | ⟨h1a, h1b⟩
  · rcases h2 with h2 | ⟨h2a, h2b⟩
    · exact Or.inl (lt_trans h1 h2)
    · exact Or.inl (h2a ▸ h1)
  · rcases h2 with h2 | ⟨h2a, h2b⟩
    · exact Or.inl (h1a ▸ h2)
    · exact Or.inr ⟨h1a.trans h2a, le_trans h1b h2b⟩

instance : IsTotal Ent entR := ⟨entLe_total⟩

instance : IsTrans Ent entR := ⟨fun _ _ _ => entLe_trans⟩

theorem entLe_key_le {e1 e2 : Ent} (h : entLe e1 e2 = true) : e1.1 ≤ e2.1 := by
  rw [entLe_iff] at h
  rcases h with h | ⟨h, _⟩
  · exact le_of_lt h
  · exact le_of_eq h

theorem sortEnts_sorted (l : List Ent) : List.Pairwise entR (sortEnts l) :=
  List.sorted_insertionSort entR l

theorem sortEnts_perm (l : List Ent) : (sortEnts l).Perm l :=
  List.perm_insertionSort entR l

theorem msgunpack_msgenpack {pk : Nat} (h : pk < 18446744073709551616) :
    msgunpackNat (msgenpackNat pk) = some pk := by
  unfold msgenpackNat
  by_cases h1 : pk < 128
  · rw [if_pos h1]
    simp [msgunpackNat, h1]
  · rw [if_neg h1]
    by_cases h2 : pk < 256
    · rw [if_pos h2]
      rfl
    · rw [if_neg h2]
      by_cases h3 : pk < 65536
      · rw [if_pos h3]
        rw [show msgunpackNat (0xcd :: beBytes 2 pk) =
          (if (beBytes 2 pk).length = 2 then some (beVal (beBytes 2 pk)) else none) from rfl]
        rw [beBytes_length, if_pos rfl, beVal_beBytes 2 pk (by norm_num; omega)]
      · rw [if_neg h3]
        by_cases h4 : pk < 4294967296
        · rw [if_pos h4]
          rw [show msgunpackNat (0xce :: beBytes 4 pk) =
            (if (beBytes 4 pk).length = 4 then some (beVal (beBytes 4 pk)) else none) from rfl]
          rw [beBytes_length, if_pos rfl, beVal_beBytes 4 pk (by norm_num; omega)]
        · rw [if_neg h4]
          rw [show msgunpackNat (0xcf :: beBytes 8 pk) =
            (if (beBytes 8 pk).length = 8 then some (beVal (beBytes 8 pk)) else none) from rfl]
          rw [beBytes_length, if_pos rfl, beVal_beBytes 8 pk (by norm_num; omega)]

theorem lookupRow_eq_of_mem : ∀ {rows : List (Nat × Row)} {pk : Nat} {r : Row},
    (pk, r) ∈ rows → (rows.map Prod.fst).Nodup → lookupRow rows pk = some r
  | [], pk, r, hm, _ => absurd hm (List.not_mem_nil _)
  | q :: t, pk, r, hm, hnd => by
    unfold lookupRow
    rcases List.mem_cons.mp hm with rfl | hm2
    · simp [List.find?]
    · have hq : q.1 ≠ pk := by
        intro he
        have h1 : pk ∈ t.map Prod.fst := by
          exact List.mem_map.mpr ⟨(pk, r), hm2, rfl⟩
        rw [List.map_cons] at hnd
        rw [he] at hnd
        exact (List.nodup_cons.mp hnd).1 h1
      have hbeq : (q.1 == pk) = false := by simpa using hq
      simp only [List.find?_cons, hbeq]
      have := lookupRow_eq_of_mem hm2 (by
        rw [List.map_cons] at hnd
        exact (List.nodup_cons.mp hnd).2)
      unfold lookupRow at this
      exact this

/-- On a well-formed store, fetching a row entry yields its row. -/
theorem fetchRow_entry {hash64 : Bytes → Nat} {st : DbState} (hwf : WF hash64 st)
    {pr : Nat × Row} (hm : pr ∈ st.rows) {k : Bytes} :
    fetchRow st (k, msgenpackNat pr.1) = some pr.2 := by
  unfold fetchRow
  rw [msgunpack_msgenpack (hwf.2.2.2.2 pr hm).2.1]
  exact lookupRow_eq_of_mem (by simpa using hm) hwf.2.2.2.1

theorem getRowByPkValEnc_of_fetch {st : DbState} {e : Ent} {r : Row}
    (h : fetchRow st e = some r) : getRowByPkValEnc st e.2 false = .ok (r, st) := by
  unfold fetchRow at h
  rcases hd : msgunpackNat e.2 with _ | pk
  · rw [hd] at h
    exact absurd h (by simp)
  · rw [hd] at h
    simp only [Option.bind] at h
    simp [getRowByPkValEnc, hd, h]

theorem mem_dropWhile_sorted {k : Bytes} :
    ∀ {t : List Ent}, List.Pairwise entR t →
      ∀ {e : Ent}, e ∈ t.dropWhile (fun e => bLt e.1 k) → bLt e.1 k = false
  | [], _, e, he => absurd he (List.not_mem_nil e)
  | x :: xs, hpw, e, he => by
    rw [List.dropWhile_cons] at he
    split_ifs at he with hx
    · exact mem_dropWhile_sorted (List.pairwise_cons.mp hpw).2 he
    · rcases List.mem_cons.mp he with rfl | he2
      · exact Bool.eq_false_iff.mpr hx
      · have hrel := (List.pairwise_cons.mp hpw).1 e he2
        have h1 : x.1 ≤ e.1 := entLe_key_le hrel
        rw [Bool.not_eq_true, bLt_false_iff] at hx
        rw [bLt_false_iff]
        intro hlt
        exact hx (lt_of_le_of_lt h1 hlt)

theorem mem_dropWhile_of_not {k : Bytes} :
    ∀ {t : List Ent} {e : Ent}, e ∈ t → bLt e.1 k = false →
      e ∈ t.dropWhile (fun e => bLt e.1 k) := by
  intro t e he hnp
  have := List.takeWhile_append_dropWhile (p := fun e : Ent => bLt e.1 k) (l := t)
  rw [← this] at he
  rcases List.mem_append.mp he with h1 | h1
  · have := List.mem_takeWhile_imp h1
    rw [this] at hnp
    exact absurd hnp (by simp)
  · exact h1

theorem takeWhile_eq_filter_sorted {q : Ent → Bool}
    (hmono : ∀ a b : Ent, entLe a b = true → q b = true → q a = true) :
    ∀ {l : List Ent}, List.Pairwise entR l → l.takeWhile q = l.filter q
  | [], _ => rfl
  | x :: xs, hpw => by
    rw [List.takeWhile_cons, List.filter_cons]
    rcases hx : q x with _ | _
    · simp only [Bool.false_eq_true, if_false]
      have hnil : xs.filter q = [] := by
        rw [List.filter_eq_nil_iff]
        intro e he
        intro hqe
        have := hmono x e ((List.pairwise_cons.mp hpw).1 e he) hqe
        rw [hx] at this
        exact Bool.noConfusion this
      rw [hnil]
    · simp only [if_true]
      rw [takeWhile_eq_filter_sorted hmono (List.pairwise_cons.mp hpw).2]

/-- Forward scan of `_getRowsByProp` in get or count mode with no limit:
with the sentinel in range, the loop processes exactly the entries whose
full key is below last_key, fetching each row in get mode. -/
theorem getByPropGo_scan {hash64 : Bytes → Nat} {pe lk : Bytes} {valu : Option Valu}
    {dco : Bool} {st : DbState} :
    ∀ {es : List Ent} {fuel count : Nat} {ret : List Row},
      es.length < fuel →
      (∃ e ∈ es, bLe lk e.1 = true) →
      (∀ e ∈ es.takeWhile (fun e => !(bLe lk e.1)), (fetchRow st e).isSome) →
      getByPropGo hash64 pe lk valu false dco false none fuel es count ret st =
        .ok (es.dropWhile (fun e => !(bLe lk e.1)),
             count + (es.takeWhile (fun e => !(bLe lk e.1))).length,
             ret ++ (if dco then [] else
               (es.takeWhile (fun e => !(bLe lk e.1))).filterMap (fetchRow st)),
             st)
  | [], fuel, count, ret, _, hterm, _ => by
    obtain ⟨e, he, _⟩ := hterm
    exact absurd he (List.not_mem_nil e)
  | e :: es, fuel, count, ret, hfuel, hterm, hsome => by
    obtain ⟨f, rfl⟩ : ∃ f, fuel = f + 1 := by
      cases fuel with
      | zero => omega
      | succ f => exact ⟨f, rfl⟩
    rcases hc : bLe lk e.1 with _ | _
    · -- e is processed
      have htw : (e :: es).takeWhile (fun e => !(bLe lk e.1)) =
          e :: es.takeWhile (fun e => !(bLe lk e.1)) := by
        rw [List.takeWhile_cons, hc]
        rfl
      have hdw : (e :: es).dropWhile (fun e => !(bLe lk e.1)) =
          es.dropWhile (fun e => !(bLe lk e.1)) := by
        rw [List.dropWhile_cons, hc]
        rfl
      have hmem : e ∈ (e :: es).takeWhile (fun e => !(bLe lk e.1)) := by
        rw [htw]
        exact List.mem_cons_self e _
      obtain ⟨r, hr⟩ := Option.isSome_iff_exists.mp (hsome e hmem)
      have hterm2 : ∃ e2 ∈ es, bLe lk e2.1 = true := by
        obtain ⟨e2, he2, hb2⟩ := hterm
        rcases List.mem_cons.mp he2 with rfl | he3
        · rw [hc] at hb2
          exact absurd hb2 (by simp)
        · exact ⟨e2, he3, hb2⟩
      have hesne : es ≠ [] := by
        intro hes
        rw [hes] at hterm2
        obtain ⟨e2, he2, _⟩ := hterm2
        exact absurd he2 (List.not_mem_nil e2)
      have hsome2 : ∀ e2 ∈ es.takeWhile (fun e => !(bLe lk e.1)),
          (fetchRow st e2).isSome := by
        intro e2 he2
        refine hsome e2 ?_
        rw [htw]
        exact List.mem_cons_of_mem e he2
      rcases hdco : dco with _ | _
      · -- get mode: fetch and append
        subst hdco
        have ih := @getByPropGo_scan hash64 pe lk valu false st es f (count + 1)
          (ret ++ [r]) (by simpa using Nat.lt_of_succ_lt_succ hfuel) hterm2 hsome2
        simp only [getByPropGo, hc]
        simp only [Bool.not_false, Bool.true_or, Bool.false_and, if_true, if_false,
          Bool.false_eq_true]
        rw [getRowByPkValEnc_of_fetch hr]
        simp only [Except.bind]
        cases es with
        | nil => exact absurd rfl hesne
        | cons e2 es2 =>
          simp only [Bool.false_eq_true, if_false]
          rw [ih]
          rw [htw, hdw]
          simp only [List.length_cons, List.filterMap_cons, hr, Except.ok.injEq,
            Prod.mk.injEq]
          refine ⟨trivial, by omega, ?_, trivial⟩
          simp
      · -- count mode: no fetch
        subst hdco
        have ih := @getByPropGo_scan hash64 pe lk valu true st es f (count + 1)
          ret (by simpa using Nat.lt_of_succ_lt_succ hfuel) hterm2 hsome2
        simp only [getByPropGo, hc]
        simp only [Bool.not_true, Bool.false_or, Bool.false_and, if_false, if_true,
          Bool.false_eq_true, Bool.true_eq_false]
        cases es with
        | nil => exact absurd rfl hesne
        | cons e2 es2 =>
          simp only [Except.bind, Bool.false_eq_true, if_false]
          rw [ih]
          rw [htw, hdw]
          simp only [List.length_cons, Except.ok.injEq, Prod.mk.injEq]
          refine ⟨trivial, by omega, by simp, trivial⟩
    · -- e breaks the scan
      have htw : (e :: es).takeWhile (fun e => !(bLe lk e.1)) = [] := by
        rw [List.takeWhile_cons, hc]
        rfl
      have hdw : (e :: es).dropWhile (fun e => !(bLe lk e.1)) = e :: es := by
        rw [List.dropWhile_cons, hc]
        rfl
      simp only [getByPropGo, hc, if_true]
      rw [htw, hdw]
      rcases dco <;> simp

theorem C5_within_region_amended_witness :
    bLt (encValKey (fun _ => 0) (.vint 3)) (encValKey (fun _ => 0) (.vint 500)) = true ∧
    bLt (encValKey (fun _ => 0) (.vint (-3))) (encValKey (fun _ => 0) (.vint (-500))) = true ∧
    bLt (encValKey (fun _ => 0) (.vstr [98])) (encValKey (fun _ => 0) (.vstr [97, 98])) = true ∧
    bLt (encValKey (fun _ => 0) (.vstr [97, 98])) (encValKey (fun _ => 0) (.vstr [97, 99])) = bLt [97, 98] [97, 99] :=
  have h := C5_within_region_amended (fun _ => 0)
  ⟨h.1 3 500 (by decide) (by decide) (by decide),
   h.2.1 (-500) (-3) (by decide) (by decide) (by decide),
   h.2.2.1 [98] [97, 98] (by decide) (by decide),
   h.2.2.2 [97, 98] [97, 99] (by decide) (by decide)⟩

/-! ### Key-window characterisation for the equality scan -/

theorem msgenpackStr_inj {s t : Bytes} (h : msgenpackStr s = msgenpackStr t) :
    s = t := by
  have hh : (msgenpackStr s).headD 0 = (msgenpackStr t).headD 0 := by rw [h]
  rw [msgenpackStr_headD, msgenpackStr_headD] at hh
  unfold msgenpackStr at h
  by_cases h1 : s.length < 32 <;> by_cases h2 : t.length < 32
  · rw [if_pos h1, if_pos h2] at h
    exact (List.cons.inj h).2
  · rw [if_pos h1, if_neg h2] at hh
    split_ifs at hh <;> omega
  · rw [if_neg h1, if_pos h2] at hh
    split_ifs at hh <;> omega
  · rw [if_neg h1, if_neg h2] at h hh
    by_cases h3 : s.length < 256 <;> by_cases h4 : t.length < 256
    · rw [if_pos h3, if_pos h4] at h
      exact (List.cons.inj (List.cons.inj h).2).2
    · rw [if_pos h3, if_neg h4] at hh
      omega
    · rw [if_neg h3, if_pos h4] at hh
      omega
    · rw [if_neg h3, if_neg h4] at h
      have h5 := (List.cons.inj h).2
      exact List.append_inj_right h5 (by rw [beBytes_length, beBytes_length])

/-- If two encodings from a prefix-free family differ, the comparison of
anything they head remains decided at the encodings themselves. -/
theorem lt_append_iff_of_encs {a b : Bytes} (hfa : isInit a b = true → a = b)
    (hfb : isInit b a = true → b = a) (hne : a ≠ b) (s t : Bytes) :
    (a ++ s < b ++ t ↔ a < b) := by
  refine lt_append_append_of_notInit a b ?_ ?_ s t
  · rcases hab : isInit a b with _ | _
    · rfl
    · exact absurd (hfa hab) hne
  · rcases hba : isInit b a with _ | _
    · rfl
    · exact absurd (hfb hba) (Ne.symm hne)

/-- Inner layer of the pvt window: with the property header stripped, the
window [vke, vke ++ M) holds exactly the suffixes whose value encoding is
vke itself and whose residue is below M. -/
theorem val_time_range_iff (hash64 : Bytes → Nat) (v w : Valu) (ts M : Bytes) :
    (¬ encValKey hash64 v ++ ts < encValKey hash64 w ∧
      encValKey hash64 v ++ ts < encValKey hash64 w ++ M) ↔
    (encValKey hash64 v = encValKey hash64 w ∧ ts < M) := by
  rcases eq_or_ne (encValKey hash64 v) (encValKey hash64 w) with he | hne
  · rw [he]
    constructor
    · rintro ⟨_, h2⟩
      exact ⟨rfl, (append_lt_append_left _ _ _).mp h2⟩
    · rintro ⟨_, h2⟩
      exact ⟨not_append_lt_self _ _, (append_lt_append_left _ _ _).mpr h2⟩
  · have hd1 := lt_append_iff_of_encs (encValKey_init hash64) (encValKey_init hash64)
      hne ts M
    have hd2 := lt_append_iff_of_encs (encValKey_init hash64) (encValKey_init hash64)
      hne ts []
    rw [List.append_nil] at hd2
    constructor
    · rintro ⟨h1, h2⟩
      exact absurd (hd1.mp h2) (fun hx => h1 (hd2.mpr hx))
    · rintro ⟨he2, _⟩
      exact absurd he2 hne

/-- The pvt window [p_enc ++ v_key_enc, p_enc ++ v_key_enc ++ MAX_TIME_ENC)
captures exactly the keys of rows matching the property, the value-key
encoding, and a time encoding below MAX_TIME_ENC. -/
theorem pvtKey_range_iff (hash64 : Bytes → Nat) {qp : Bytes} (hp : qp.length < 65536)
    (w : Valu) (r : Row) (hr : r.prop.length < 65536) :
    (¬ pvtKeyOf hash64 r < msgenpackStr qp ++ encValKey hash64 w ∧
      pvtKeyOf hash64 r < msgenpackStr qp ++ (encValKey hash64 w ++ MAX_TIME_ENC)) ↔
    (r.prop = qp ∧ encValKey hash64 r.valu = encValKey hash64 w ∧
      msgenpackInt r.tstamp < MAX_TIME_ENC) := by
  unfold pvtKeyOf
  rw [List.append_assoc]
  rcases eq_or_ne (msgenpackStr r.prop) (msgenpackStr qp) with he | hne
  · have hpp : r.prop = qp := msgenpackStr_inj he
    rw [he, append_lt_append_left, append_lt_append_left,
      val_time_range_iff hash64 r.valu w (msgenpackInt r.tstamp) MAX_TIME_ENC]
    simp [hpp]
  · have h1 := lt_append_iff_of_encs (msgenpackStr_init hr hp) (msgenpackStr_init hp hr)
      hne (encValKey hash64 r.valu ++ msgenpackInt r.tstamp) (encValKey hash64 w)
    have h2 := lt_append_iff_of_encs (msgenpackStr_init hr hp) (msgenpackStr_init hp hr)
      hne (encValKey hash64 r.valu ++ msgenpackInt r.tstamp)
      (encValKey hash64 w ++ MAX_TIME_ENC)
    constructor
    · rintro ⟨hA, hB⟩
      exact absurd (h2.mp hB) (fun hx => hA (h1.mpr hx))
    · rintro ⟨hpp, _⟩
      exact absurd (congrArg msgenpackStr hpp) hne

/-- The pt window [p_enc, p_enc ++ MAX_TIME_ENC) captures exactly the keys
of rows matching the property with a time encoding below MAX_TIME_ENC. -/
theorem ptKey_range_iff {qp : Bytes} (hp : qp.length < 65536) (r : Row)
    (hr : r.prop.length < 65536) :
    (¬ ptKeyOf r < msgenpackStr qp ∧ ptKeyOf r < msgenpackStr qp ++ MAX_TIME_ENC) ↔
    (r.prop = qp ∧ msgenpackInt r.tstamp < MAX_TIME_ENC) := by
  unfold ptKeyOf
  rcases eq_or_ne (msgenpackStr r.prop) (msgenpackStr qp) with he | hne
  · have hpp : r.prop = qp := msgenpackStr_inj he
    rw [he, append_lt_append_left]
    simp [hpp, not_append_lt_self]
  · have h1 := lt_append_iff_of_encs (msgenpackStr_init hr hp) (msgenpackStr_init hp hr)
      hne (msgenpackInt r.tstamp) []
    have h2 := lt_append_iff_of_encs (msgenpackStr_init hr hp) (msgenpackStr_init hp hr)
      hne (msgenpackInt r.tstamp) MAX_TIME_ENC
    rw [List.append_nil] at h1
    constructor
    · rintro ⟨hA, hB⟩
      exact absurd (h2.mp hB) (fun hx => hA (h1.mpr hx))
    · rintro ⟨hpp, _⟩
      exact absurd (congrArg msgenpackStr hpp) hne

theorem headD_append_of_ne_nil {a : Bytes} (ha : a ≠ []) (x : Bytes) :
    (a ++ x).headD 0 = a.headD 0 := by
  cases a with
  | nil => exact absurd rfl ha
  | cons y ys => rfl

/-- Any key headed by a property encoding lies strictly above the leading
pvt sentinel key b'\x00'. -/
theorem zero_lt_propKey (qp X : Bytes) : ([0] : Bytes) < msgenpackStr qp ++ X := by
  refine lt_of_headD_lt (by simp) (by simp [msgenpackStr_ne_nil qp]) ?_
  rw [headD_append_of_ne_nil (msgenpackStr_ne_nil qp)]
  have := msgenpackStr_headD_lb qp
  simp only [List.headD_cons]
  omega

/-- Any key headed by a property encoding lies strictly below the terminal
sentinel key 20 * b'\xff'. -/
theorem propKey_lt_max (qp X : Bytes) : msgenpackStr qp ++ X < MAX_INDEX_KEY := by
  refine lt_of_headD_lt (by simp [msgenpackStr_ne_nil qp]) (by decide) ?_
  rw [headD_append_of_ne_nil (msgenpackStr_ne_nil qp)]
  have := msgenpackStr_headD_ub qp
  have hmax : (MAX_INDEX_KEY.headD 0) = 255 := by decide
  omega

/-- On a sorted table, dropWhile by a downward-closed predicate is a
filter. -/
theorem dropWhile_eq_filter_sorted {q : Ent → Bool}
    (hmono : ∀ a b : Ent, entLe a b = true → q b = true → q a = true) :
    ∀ {l : List Ent}, List.Pairwise entR l →
      l.dropWhile q = l.filter (fun e => !(q e))
  | [], _ => rfl
  | x :: xs, hpw => by
    rw [List.dropWhile_cons, List.filter_cons]
    rcases hx : q x with _ | _
    · simp only [Bool.false_eq_true, if_false, Bool.not_false, if_true]
      have hself : xs.filter (fun e => !(q e)) = xs := by
        rw [List.filter_eq_self]
        intro e he
        rcases hq : q e with _ | _
        · rfl
        · rw [hmono x e ((List.pairwise_cons.mp hpw).1 e he) hq] at hx
          exact Bool.noConfusion hx
      rw [hself]
    · simp only [if_true, Bool.not_true, Bool.false_eq_true, if_false]
      exact dropWhile_eq_filter_sorted hmono (List.pairwise_cons.mp hpw).2

/-- The slice of a sorted table between first_key (inclusive) and last_key
(exclusive) visited by the scan loop is the filter by the key window. -/
theorem scan_slice_eq_filter {fk lk : Bytes} {tbl : List Ent}
    (hs : List.Pairwise entR tbl) :
    (tbl.dropWhile (fun e => bLt e.1 fk)).takeWhile (fun e => !(bLe lk e.1)) =
      tbl.filter (fun e => !(bLe lk e.1) && !(bLt e.1 fk)) := by
  have hmono1 : ∀ a b : Ent, entLe a b = true → bLt b.1 fk = true →
      bLt a.1 fk = true := by
    intro a b hab hb
    rw [bLt_iff] at hb ⊢
    exact lt_of_le_of_lt (entLe_key_le hab) hb
  have hmono2 : ∀ a b : Ent, entLe a b = true → (!(bLe lk b.1)) = true →
      (!(bLe lk a.1)) = true := by
    intro a b hab hb
    rw [Bool.not_eq_true'] at hb ⊢
    rw [bLe_false_iff] at hb ⊢
    intro hle
    exact hb (le_trans hle (entLe_key_le hab))
  rw [dropWhile_eq_filter_sorted hmono1 hs]
  rw [takeWhile_eq_filter_sorted hmono2 (hs.sublist (List.filter_sublist _))]
  rw [List.filter_filter]

/-- Splitting the slice of a sorted table built from sentinels plus data
entries: the sentinels fall outside the window, so the slice is a
permutation of the filtered data entries. -/
theorem table_slice_perm {fk lk : Bytes} {sents ents tbl : List Ent}
    (htbl : tbl = sortEnts (sents ++ ents))
    (hsent : ∀ e ∈ sents, (!(bLe lk e.1) && !(bLt e.1 fk)) = false) :
    ((tbl.dropWhile (fun e => bLt e.1 fk)).takeWhile
        (fun e => !(bLe lk e.1))).Perm
      (ents.filter (fun e => !(bLe lk e.1) && !(bLt e.1 fk))) := by
  subst htbl
  rw [scan_slice_eq_filter (sortEnts_sorted _)]
  refine ((sortEnts_perm _).filter _).trans ?_
  rw [List.filter_append]
  rw [List.filter_eq_nil_iff.mpr (fun e he hq => by
    rw [hsent e he] at hq
    exact Bool.noConfusion hq)]
  rw [List.nil_append]

/-- filterMap by a function returning `some` of the payload on every
element of the list is the map of payloads. -/
theorem filterMap_eq_map_of_some {g : Nat × Row → Option Row} :
    ∀ {l : List (Nat × Row)}, (∀ pr ∈ l, g pr = some pr.2) →
      l.filterMap g = l.map Prod.snd
  | [], _ => rfl
  | x :: xs, h => by
    rw [List.filterMap_cons, h x (List.mem_cons_self _ _), List.map_cons,
      filterMap_eq_map_of_some (fun pr hm => h pr (List.mem_cons_of_mem _ hm))]

/-- Evaluation of `_getRowsByProp` with a value, no time bounds and no
limit, down to the cursor scan (everything else in the body is
definitional). -/
theorem getRowsByProp_eval_some (hash64 : Bytes → Nat) (st : DbState) (qp : Bytes)
    (w : Valu) (dco : Bool) :
    getRowsByProp hash64 st qp (some w) none none none dco false =
      (match (setRange st.pvt (msgenpackStr qp ++ encValKey hash64 w ++ [])).2 with
       | [] => .error .inconsistent
       | suf =>
         (getByPropGo hash64 (msgenpackStr qp)
             (msgenpackStr qp ++ encValKey hash64 w ++ MAX_TIME_ENC) (some w) false dco
             false none (suf.length + 1) suf 0 [] st).bind fun out =>
           .ok (out.2.1, out.2.2.1, out.2.2.2)) := rfl

/-- Evaluation of `_getRowsByProp` without a value (pt scan), no time
bounds and no limit, down to the cursor scan. -/
theorem getRowsByProp_eval_none (hash64 : Bytes → Nat) (st : DbState) (qp : Bytes)
    (dco : Bool) :
    getRowsByProp hash64 st qp none none none none dco false =
      (match (setRange st.pt (msgenpackStr qp ++ [] ++ [])).2 with
       | [] => .error .inconsistent
       | suf =>
         (getByPropGo hash64 (msgenpackStr qp)
             (msgenpackStr qp ++ [] ++ MAX_TIME_ENC) none false dco
             false none (suf.length + 1) suf 0 [] st).bind fun out =>
           .ok (out.2.1, out.2.2.1, out.2.2.2)) := rfl

/-- `_getRowsByProp` with no time bounds and no limit, in get or count
mode, on a well-formed store: it succeeds, leaves the store untouched,
counts exactly the matching rows, and in get mode returns a permutation
of the matching rows' payloads (in count mode the row list is empty). -/
theorem getRowsByProp_noTime_spec {hash64 : Bytes → Nat} {st : DbState}
    {qp : Bytes} {valu : Option Valu} {dco : Bool}
    (hwf : WF hash64 st) (hp : qp.length ≤ MAX_PROP_LEN) :
    ∃ L, getRowsByProp hash64 st qp valu none none none dco false =
        .ok ((st.rows.filter (matchesPropQuery hash64 qp valu)).length, L, st) ∧
      L.Perm (if dco then [] else
        (st.rows.filter (matchesPropQuery hash64 qp valu)).map Prod.snd) := by
  have hp65 : qp.length < 65536 := by
    unfold MAX_PROP_LEN at hp
    omega
  cases valu with
  | some w =>
    have hmaxmem : maxSent ∈ st.pvt := by
      rw [hwf.1]
      exact (sortEnts_perm _).mem_iff.mpr (by simp)
    have hfkmax : bLt maxSent.1 (msgenpackStr qp ++ encValKey hash64 w) = false := by
      rw [bLt_false_iff]
      exact lt_asymm (propKey_lt_max qp _)
    have hlkmax : bLe (msgenpackStr qp ++ (encValKey hash64 w ++ MAX_TIME_ENC)) maxSent.1 = true := by
      rw [bLe_iff]
      exact le_of_lt (propKey_lt_max qp _)
    have hmaxsuf : maxSent ∈ st.pvt.dropWhile (fun e => bLt e.1 (msgenpackStr qp ++ encValKey hash64 w)) :=
      mem_dropWhile_of_not hmaxmem hfkmax
    have hsufne : st.pvt.dropWhile (fun e => bLt e.1 (msgenpackStr qp ++ encValKey hash64 w)) ≠ [] :=
      List.ne_nil_of_mem hmaxsuf
    have hsentp : ∀ e ∈ ([zeroSent, maxSent] : List Ent),
        (!(bLe (msgenpackStr qp ++ (encValKey hash64 w ++ MAX_TIME_ENC)) e.1) && !(bLt e.1 (msgenpackStr qp ++ encValKey hash64 w))) = false := by
      intro e he
      rcases List.mem_cons.mp he with rfl | he2
      · have h0 : bLt (zeroSent.1) (msgenpackStr qp ++ encValKey hash64 w) = true := by
          rw [bLt_iff]
          exact zero_lt_propKey qp _
        rw [h0]
        simp
      · rcases List.mem_cons.mp he2 with rfl | he3
        · rw [hlkmax]
          simp
        · exact absurd he3 (List.not_mem_nil _)
    have hslice := table_slice_perm hwf.1 hsentp
    have hfm : (st.rows.map (pvtEntry hash64)).filter
          (fun e => !(bLe (msgenpackStr qp ++ (encValKey hash64 w ++ MAX_TIME_ENC)) e.1) && !(bLt e.1 (msgenpackStr qp ++ encValKey hash64 w))) =
        (st.rows.filter (matchesPropQuery hash64 qp (some w))).map (pvtEntry hash64) := by
      rw [List.filter_map]
      congr 1
      refine List.filter_congr ?_
      intro pr hm
      have hro : rowOk pr.2 := (hwf.2.2.2.2 pr hm).2.2
      have hrp : pr.2.prop.length < 65536 := by
        have h1 := hro.2.1
        unfold MAX_PROP_LEN at h1
        omega
      rw [Bool.eq_iff_iff]
      simp only [Function.comp, pvtEntry, Bool.and_eq_true, Bool.not_eq_true',
        bLe_false_iff, bLt_false_iff, matchesPropQuery, beq_iff_eq, bLt_iff]
      constructor
      · rintro ⟨h1, h2⟩
        have h3 := (pvtKey_range_iff hash64 hp65 w pr.2 hrp).mp ⟨h2, not_le.mp h1⟩
        exact ⟨⟨h3.1, h3.2.1⟩, h3.2.2⟩
      · rintro ⟨⟨ha, hb⟩, hc⟩
        have h3 := (pvtKey_range_iff hash64 hp65 w pr.2 hrp).mpr ⟨ha, hb, hc⟩
        exact ⟨not_le.mpr h3.2, h3.1⟩
    rw [hfm] at hslice
    have hterm : ∃ e ∈ st.pvt.dropWhile (fun e => bLt e.1 (msgenpackStr qp ++ encValKey hash64 w)),
        bLe (msgenpackStr qp ++ (encValKey hash64 w ++ MAX_TIME_ENC)) e.1 = true := ⟨maxSent, hmaxsuf, hlkmax⟩
    have hfetch : ∀ e ∈ (st.pvt.dropWhile (fun e => bLt e.1 (msgenpackStr qp ++ encValKey hash64 w))).takeWhile
        (fun e => !(bLe (msgenpackStr qp ++ (encValKey hash64 w ++ MAX_TIME_ENC)) e.1)), (fetchRow st e).isSome := by
      intro e he
      obtain ⟨pr, hpr, rfl⟩ := List.mem_map.mp (hslice.mem_iff.mp he)
      simp only [pvtEntry]
      rw [fetchRow_entry hwf (List.mem_of_mem_filter hpr)]
      rfl
    obtain ⟨e0, rest, hsuf⟩ := List.exists_cons_of_ne_nil hsufne
    rw [hsuf] at hslice hterm hfetch
    have hscan := @getByPropGo_scan hash64 (msgenpackStr qp) (msgenpackStr qp ++ (encValKey hash64 w ++ MAX_TIME_ENC)) (some w) dco st
      (e0 :: rest) ((e0 :: rest).length + 1) 0 [] (Nat.lt_succ_self _) hterm hfetch
    have hlen : ((e0 :: rest).takeWhile (fun e => !(bLe (msgenpackStr qp ++ (encValKey hash64 w ++ MAX_TIME_ENC)) e.1))).length =
        (st.rows.filter (matchesPropQuery hash64 qp (some w))).length := by
      rw [hslice.length_eq, List.length_map]
    refine ⟨if dco then [] else
      ((e0 :: rest).takeWhile (fun e => !(bLe (msgenpackStr qp ++ (encValKey hash64 w ++ MAX_TIME_ENC)) e.1))).filterMap (fetchRow st),
      ?_, ?_⟩
    · rw [getRowsByProp_eval_some]
      rw [List.append_nil, List.append_assoc]
      have hset : (setRange st.pvt (msgenpackStr qp ++ encValKey hash64 w)).2 =
          st.pvt.dropWhile (fun e => bLt e.1 (msgenpackStr qp ++ encValKey hash64 w)) := by
        unfold setRange
        rw [List.span_eq_take_drop]
      rw [hset, hsuf]
      dsimp only []
      rw [hscan]
      dsimp only [Except.bind]
      rw [Nat.zero_add, hlen]
      rw [List.nil_append]
    · rcases dco with _ | _
      · simp only [Bool.false_eq_true, if_false]
        refine (hslice.filterMap (fetchRow st)).trans ?_
        rw [List.filterMap_map]
        have hfm2 : (st.rows.filter (matchesPropQuery hash64 qp (some w))).filterMap
            (fetchRow st ∘ pvtEntry hash64) =
            (st.rows.filter (matchesPropQuery hash64 qp (some w))).map Prod.snd := by
          refine filterMap_eq_map_of_some ?_
          intro pr hm
          simp only [Function.comp, pvtEntry]
          exact fetchRow_entry hwf (List.mem_of_mem_filter hm)
        rw [hfm2]
      · simp
  | none =>
    have hmaxmem : maxSent ∈ st.pt := by
      rw [hwf.2.1]
      exact (sortEnts_perm _).mem_iff.mpr (by simp)
    have hfkmax : bLt maxSent.1 (msgenpackStr qp) = false := by
      rw [bLt_false_iff]
      have h1 := propKey_lt_max qp []
      rw [List.append_nil] at h1
      exact lt_asymm h1
    have hlkmax : bLe (msgenpackStr qp ++ MAX_TIME_ENC) maxSent.1 = true := by
      rw [bLe_iff]
      exact le_of_lt (propKey_lt_max qp _)
    have hmaxsuf : maxSent ∈ st.pt.dropWhile (fun e => bLt e.1 (msgenpackStr qp)) :=
      mem_dropWhile_of_not hmaxmem hfkmax
    have hsufne : st.pt.dropWhile (fun e => bLt e.1 (msgenpackStr qp)) ≠ [] :=
      List.ne_nil_of_mem hmaxsuf
    have hsentp : ∀ e ∈ ([maxSent] : List Ent),
        (!(bLe (msgenpackStr qp ++ MAX_TIME_ENC) e.1) && !(bLt e.1 (msgenpackStr qp))) = false := by
      intro e he
      rcases List.mem_cons.mp he with rfl | he2
      · rw [hlkmax]
        simp
      · exact absurd he2 (List.not_mem_nil _)
    have hslice := table_slice_perm hwf.2.1 hsentp
    have hfm : (st.rows.map ptEntry).filter
          (fun e => !(bLe (msgenpackStr qp ++ MAX_TIME_ENC) e.1) && !(bLt e.1 (msgenpackStr qp))) =
        (st.rows.filter (matchesPropQuery hash64 qp none)).map ptEntry := by
      rw [List.filter_map]
      congr 1
      refine List.filter_congr ?_
      intro pr hm
      have hro : rowOk pr.2 := (hwf.2.2.2.2 pr hm).2.2
      have hrp : pr.2.prop.length < 65536 := by
        have h1 := hro.2.1
        unfold MAX_PROP_LEN at h1
        omega
      rw [Bool.eq_iff_iff]
      simp only [Function.comp, ptEntry, Bool.and_eq_true, Bool.not_eq_true',
        bLe_false_iff, bLt_false_iff, matchesPropQuery, beq_iff_eq, bLt_iff,
        Bool.and_true, and_true]
      constructor
      · rintro ⟨h1, h2⟩
        exact (ptKey_range_iff hp65 pr.2 hrp).mp ⟨h2, not_le.mp h1⟩
      · rintro ⟨ha, hb⟩
        have h3 := (ptKey_range_iff hp65 pr.2 hrp).mpr ⟨ha, hb⟩
        exact ⟨not_le.mpr h3.2, h3.1⟩
    rw [hfm] at hslice
    have hterm : ∃ e ∈ st.pt.dropWhile (fun e => bLt e.1 (msgenpackStr qp)),
        bLe (msgenpackStr qp ++ MAX_TIME_ENC) e.1 = true := ⟨maxSent, hmaxsuf, hlkmax⟩
    have hfetch : ∀ e ∈ (st.pt.dropWhile (fun e => bLt e.1 (msgenpackStr qp))).takeWhile
        (fun e => !(bLe (msgenpackStr qp ++ MAX_TIME_ENC) e.1)), (fetchRow st e).isSome := by
      intro e he
      obtain ⟨pr, hpr, rfl⟩ := List.mem_map.mp (hslice.mem_iff.mp he)
      simp only [ptEntry]
      rw [fetchRow_entry hwf (List.mem_of_mem_filter hpr)]
      rfl
    obtain ⟨e0, rest, hsuf⟩ := List.exists_cons_of_ne_nil hsufne
    rw [hsuf] at hslice hterm hfetch
    have hscan := @getByPropGo_scan hash64 (msgenpackStr qp) (msgenpackStr qp ++ MAX_TIME_ENC) none dco st
      (e0 :: rest) ((e0 :: rest).length + 1) 0 [] (Nat.lt_succ_self _) hterm hfetch
    have hlen : ((e0 :: rest).takeWhile (fun e => !(bLe (msgenpackStr qp ++ MAX_TIME_ENC) e.1))).length =
        (st.rows.filter (matchesPropQuery hash64 qp none)).length := by
      rw [hslice.length_eq, List.length_map]
    refine ⟨if dco then [] else
      ((e0 :: rest).takeWhile (fun e => !(bLe (msgenpackStr qp ++ MAX_TIME_ENC) e.1))).filterMap (fetchRow st),
      ?_, ?_⟩
    · rw [getRowsByProp_eval_none]
      simp only [List.append_nil]
      have hset : (setRange st.pt (msgenpackStr qp)).2 =
          st.pt.dropWhile (fun e => bLt e.1 (msgenpackStr qp)) := by
        unfold setRange
        rw [List.span_eq_take_drop]
      rw [hset, hsuf]
      dsimp only []
      rw [hscan]
      dsimp only [Except.bind]
      rw [Nat.zero_add, hlen]
      rw [List.nil_append]
    · rcases dco with _ | _
      · simp only [Bool.false_eq_true, if_false]
        refine (hslice.filterMap (fetchRow st)).trans ?_
        rw [List.filterMap_map]
        have hfm2 : (st.rows.filter (matchesPropQuery hash64 qp none)).filterMap (fetchRow st ∘ ptEntry) =
            (st.rows.filter (matchesPropQuery hash64 qp none)).map Prod.snd := by
          refine filterMap_eq_map_of_some ?_
          intro pr hm
          simp only [Function.comp, ptEntry]
          exact fetchRow_entry hwf (List.mem_of_mem_filter hm)
        rw [hfm2]
      · simp

/-! ### Preservation of unrelated rows through the delete scan -/

/-- `_getRowByPkValEnc` never removes a row whose pk differs from the one
decoded from the index value. -/
theorem getRowByPkValEnc_keeps {st : DbState} {pv : Bytes} {dd : Bool}
    {rs : Row × DbState} {pk : Nat} {r : Row} (hm : (pk, r) ∈ st.rows)
    (hne : msgunpackNat pv ≠ some pk)
    (h : getRowByPkValEnc st pv dd = .ok rs) : (pk, r) ∈ rs.2.rows := by
  unfold getRowByPkValEnc at h
  split at h
  · exact Except.noConfusion h
  · rename_i pk2 hd
    split at h
    · exact Except.noConfusion h
    · rename_i r2 hl
      simp only [Except.ok.injEq] at h
      rw [← h]
      cases dd with
      | false => exact hm
      | true =>
        have hpk2 : pk ≠ pk2 := by
          intro he
          rw [hd, he] at hne
          exact hne rfl
        show (pk, r) ∈ List.eraseP (fun pr => pr.1 == pk2) st.rows
        exact (List.mem_eraseP_of_neg (by simpa using hpk2)).mpr hm

/-- `_delRowAndIndices` never removes a row whose pk differs from the one
decoded from pk_val_enc. -/
theorem delRowAndIndices_keeps {hash64 : Bytes → Nat} {st : DbState} {pv : Bytes}
    {ie pe ve te : Option Bytes} {dip dpvt dpt : Bool} {ov : Option Valu}
    {bs : Bool × DbState} {pk : Nat} {r : Row} (hm : (pk, r) ∈ st.rows)
    (hne : msgunpackNat pv ≠ some pk)
    (h : delRowAndIndices hash64 st pv ie pe ve te dip dpvt dpt ov = .ok bs) :
    (pk, r) ∈ bs.2.rows := by
  unfold delRowAndIndices at h
  obtain ⟨rs, hg, h⟩ := exceptBind_ok h
  have hkeep := getRowByPkValEnc_keeps hm hne hg
  split at h
  · simp only [Except.ok.injEq] at h
    rw [← h]
    exact hkeep
  · obtain ⟨ip2, h1, h⟩ := exceptBind_ok h
    obtain ⟨pvt2, h2, h⟩ := exceptBind_ok h
    obtain ⟨pt2, h3, h⟩ := exceptBind_ok h
    simp only [Except.ok.injEq] at h
    rw [← h]
    exact hkeep

/-- The delete-only scan loop never removes a row none of whose index
entries it processes: a row whose pk is not referenced below last_key
survives. -/
theorem getByPropGo_delete_keeps {hash64 : Bytes → Nat} {pe lk : Bytes}
    {valu : Option Valu} {pk : Nat} {r : Row} :
    ∀ (fuel : Nat) {es : List Ent} {count : Nat} {ret : List Row} {st : DbState}
      {out : List Ent × Nat × List Row × DbState},
      (pk, r) ∈ st.rows →
      (∀ e ∈ es, bLe lk e.1 = false → msgunpackNat e.2 ≠ some pk) →
      getByPropGo hash64 pe lk valu false false true none fuel es count ret st =
        .ok out →
      (pk, r) ∈ out.2.2.2.rows
  | 0, es, count, ret, st, out, hm, hne, h => Except.noConfusion h
  | fuel + 1, [], count, ret, st, out, hm, hne, h => by
    simp only [getByPropGo] at h
    split at h <;> exact Except.noConfusion h
  | fuel + 1, e :: es, count, ret, st, out, hm, hne, h => by
    rcases hc : bLe lk e.1 with _ | _
    · simp only [getByPropGo, hc, Bool.false_eq_true, if_false, if_true] at h
      obtain ⟨bs, hdel, h⟩ := exceptBind_ok h
      have hm2 := delRowAndIndices_keeps hm (hne e (List.mem_cons_self _ _) hc) hdel
      exact getByPropGo_delete_keeps fuel hm2
        (fun e2 he2 hb2 => hne e2 (List.mem_cons_of_mem _ he2) hb2) h
    · simp only [getByPropGo, hc, if_true] at h
      simp only [Except.ok.injEq] at h
      rw [← h]
      exact hm

/-- Evaluation of `_getRowsByProp` in delete mode with a value, no time
bounds and no limit. -/
theorem getRowsByProp_eval_some_del (hash64 : Bytes → Nat) (st : DbState)
    (qp : Bytes) (w : Valu) :
    getRowsByProp hash64 st qp (some w) none none none false true =
      (match (setRange st.pvt (msgenpackStr qp ++ encValKey hash64 w ++ [])).2 with
       | [] => .error .inconsistent
       | suf =>
         (getByPropGo hash64 (msgenpackStr qp)
             (msgenpackStr qp ++ encValKey hash64 w ++ MAX_TIME_ENC) (some w) false
             false true none (suf.length + 1) suf 0 [] st).bind fun out =>
           .ok (out.2.1, out.2.2.1,
             { out.2.2.2 with
                pvt := (setRange st.pvt
                  (msgenpackStr qp ++ encValKey hash64 w ++ [])).1 ++ out.1 })) := rfl

/-- Evaluation of `_getRowsByProp` in delete mode without a value, no time
bounds and no limit. -/
theorem getRowsByProp_eval_none_del (hash64 : Bytes → Nat) (st : DbState)
    (qp : Bytes) :
    getRowsByProp hash64 st qp none none none none false true =
      (match (setRange st.pt (msgenpackStr qp ++ [] ++ [])).2 with
       | [] => .error .inconsistent
       | suf =>
         (getByPropGo hash64 (msgenpackStr qp)
             (msgenpackStr qp ++ [] ++ MAX_TIME_ENC) none false
             false true none (suf.length + 1) suf 0 [] st).bind fun out =>
           .ok (out.2.1, out.2.2.1,
             { out.2.2.2 with
                pt := (setRange st.pt (msgenpackStr qp ++ [] ++ [])).1 ++ out.1 })) := rfl

theorem exceptMap_ok {A B : Type} {x : Except DbErr A} {f : A → B} {b : B}
    (h : x.map f = .ok b) : ∃ a, x = .ok a ∧ f a = b := by
  cases x with
  | error e => exact absurd h (by simp [Except.map])
  | ok a =>
    refine ⟨a, rfl, ?_⟩
    simpa [Except.map] using h

/-- In a well-formed store, no pvt entry in the scanned suffix that stays
below last_key references the pk of a row whose timestamp is MAX_INT_VAL:
such a row's only pvt entry carries the key p_enc + v_enc + MAX_TIME_ENC,
which is at or past last_key whenever it is at or past first_key. -/
theorem pvt_suffix_no_ref {hash64 : Bytes → Nat} {st : DbState} {qp : Bytes}
    {w : Valu} {pk : Nat} {r : Row} (hwf : WF hash64 st) (hp65 : qp.length < 65536)
    (hm : (pk, r) ∈ st.rows) (ht : r.tstamp = MAX_INT_VAL) :
    ∀ e ∈ st.pvt.dropWhile (fun e => bLt e.1 (msgenpackStr qp ++ encValKey hash64 w)),
      bLe (msgenpackStr qp ++ (encValKey hash64 w ++ MAX_TIME_ENC)) e.1 = false →
      msgunpackNat e.2 ≠ some pk := by
  intro e he hble hdec
  have hsorted : List.Pairwise entR st.pvt := by
    rw [hwf.1]
    exact sortEnts_sorted _
  have hnotlt : bLt e.1 (msgenpackStr qp ++ encValKey hash64 w) = false :=
    mem_dropWhile_sorted hsorted he
  have hintbl : e ∈ st.pvt := (List.dropWhile_sublist _).subset he
  have hmem2 : e ∈ [zeroSent, maxSent] ++ st.rows.map (pvtEntry hash64) := by
    rw [hwf.1] at hintbl
    exact (sortEnts_perm _).mem_iff.mp hintbl
  rcases List.mem_append.mp hmem2 with hs | hr2
  · rcases List.mem_cons.mp hs with rfl | hs2
    · simp [zeroSent, msgunpackNat] at hdec
    · rcases List.mem_cons.mp hs2 with rfl | hs3
      · simp [maxSent, msgunpackNat] at hdec
      · exact absurd hs3 (List.not_mem_nil _)
  · obtain ⟨pr, hpr, rfl⟩ := List.mem_map.mp hr2
    have hb := (hwf.2.2.2.2 pr hpr).2.1
    rw [show (pvtEntry hash64 pr).2 = msgenpackNat pr.1 from rfl,
      msgunpack_msgenpack hb] at hdec
    have hpk : pr.1 = pk := Option.some.inj hdec
    have hlook1 : lookupRow st.rows pk = some r := lookupRow_eq_of_mem hm hwf.2.2.2.1
    have hlook2 : lookupRow st.rows pk = some pr.2 := by
      rw [← hpk]
      exact lookupRow_eq_of_mem (by simpa using hpr) hwf.2.2.2.1
    have hr2eq : pr.2 = r := by
      rw [hlook1] at hlook2
      exact (Option.some.inj hlook2).symm
    have hro : rowOk r := by
      rw [← hr2eq]
      exact (hwf.2.2.2.2 pr hpr).2.2
    have hrp : r.prop.length < 65536 := by
      have h1 := hro.2.1
      unfold MAX_PROP_LEN at h1
      omega
    have hkey : (pvtEntry hash64 pr).1 = pvtKeyOf hash64 r := by
      rw [show (pvtEntry hash64 pr).1 = pvtKeyOf hash64 pr.2 from rfl, hr2eq]
    rw [hkey] at hble hnotlt
    rw [bLe_false_iff] at hble
    rw [bLt_false_iff] at hnotlt
    have hrange := (pvtKey_range_iff hash64 hp65 w r hrp).mp ⟨hnotlt, not_le.mp hble⟩
    have h3 : msgenpackInt r.tstamp < MAX_TIME_ENC := hrange.2.2
    rw [ht] at h3
    exact absurd h3 (lt_irrefl _)

/-- pt analogue of `pvt_suffix_no_ref`. -/
theorem pt_suffix_no_ref {hash64 : Bytes → Nat} {st : DbState} {qp : Bytes}
    {pk : Nat} {r : Row} (hwf : WF hash64 st) (hp65 : qp.length < 65536)
    (hm : (pk, r) ∈ st.rows) (ht : r.tstamp = MAX_INT_VAL) :
    ∀ e ∈ st.pt.dropWhile (fun e => bLt e.1 (msgenpackStr qp)),
      bLe (msgenpackStr qp ++ MAX_TIME_ENC) e.1 = false →
      msgunpackNat e.2 ≠ some pk := by
  intro e he hble hdec
  have hsorted : List.Pairwise entR st.pt := by
    rw [hwf.2.1]
    exact sortEnts_sorted _
  have hnotlt : bLt e.1 (msgenpackStr qp) = false :=
    mem_dropWhile_sorted hsorted he
  have hintbl : e ∈ st.pt := (List.dropWhile_sublist _).subset he
  have hmem2 : e ∈ [maxSent] ++ st.rows.map ptEntry := by
    rw [hwf.2.1] at hintbl
    exact (sortEnts_perm _).mem_iff.mp hintbl
  rcases List.mem_append.mp hmem2 with hs | hr2
  · rcases List.mem_cons.mp hs with rfl | hs2
    · simp [maxSent, msgunpackNat] at hdec
    · exact absurd hs2 (List.not_mem_nil _)
  · obtain ⟨pr, hpr, rfl⟩ := List.mem_map.mp hr2
    have hb := (hwf.2.2.2.2 pr hpr).2.1
    rw [show (ptEntry pr).2 = msgenpackNat pr.1 from rfl,
      msgunpack_msgenpack hb] at hdec
    have hpk : pr.1 = pk := Option.some.inj hdec
    have hlook1 : lookupRow st.rows pk = some r := lookupRow_eq_of_mem hm hwf.2.2.2.1
    have hlook2 : lookupRow st.rows pk = some pr.2 := by
      rw [← hpk]
      exact lookupRow_eq_of_mem (by simpa using hpr) hwf.2.2.2.1
    have hr2eq : pr.2 = r := by
      rw [hlook1] at hlook2
      exact (Option.some.inj hlook2).symm
    have hro : rowOk r := by
      rw [← hr2eq]
      exact (hwf.2.2.2.2 pr hpr).2.2
    have hrp : r.prop.length < 65536 := by
      have h1 := hro.2.1
      unfold MAX_PROP_LEN at h1
      omega
    have hkey : (ptEntry pr).1 = ptKeyOf r := by
      rw [show (ptEntry pr).1 = ptKeyOf pr.2 from rfl, hr2eq]
    rw [hkey] at hble hnotlt
    rw [bLe_false_iff] at hble
    rw [bLt_false_iff] at hnotlt
    have hrange := (ptKey_range_iff hp65 r hrp).mp ⟨hnotlt, not_le.mp hble⟩
    have h3 : msgenpackInt r.tstamp < MAX_TIME_ENC := hrange.2
    rw [ht] at h3
    exact absurd h3 (lt_irrefl _)

/-- C10: with maxtime omitted, `_getRowsByProp` scans strictly below
p_enc + v_key_enc + MAX_TIME_ENC (the encoding of 2^63-1), so a stored row
whose timestamp equals 2^63-1 is never returned by get_by_prop, never
counted by size_by_prop (whose count covers exactly the rows with a
timestamp encoding strictly below MAX_TIME_ENC), and never deleted by
delete_by_prop, even though no time bound was requested. -/
theorem C10_max_timestamp_invisible {hash64 : Bytes → Nat} {st : DbState}
    {qp : Bytes} {valu : Option Valu} {pk : Nat} {r : Row}
    (hwf : WF hash64 st) (hp : qp.length ≤ MAX_PROP_LEN)
    (hm : (pk, r) ∈ st.rows) (ht : r.tstamp = MAX_INT_VAL) :
    (∀ cnt L st2, getRowsByProp hash64 st qp valu none none none false false =
        .ok (cnt, L, st2) → r ∉ L) ∧
    (∀ cnt, getSizeByProp hash64 st qp valu none none none = .ok cnt →
      cnt = (st.rows.filter (matchesPropQuery hash64 qp valu)).length ∧
      matchesPropQuery hash64 qp valu (pk, r) = false) ∧
    (∀ st2, delRowsByProp hash64 st qp valu none none = .ok st2 →
      (pk, r) ∈ st2.rows) := by
  have hp65 : qp.length < 65536 := by
    unfold MAX_PROP_LEN at hp
    omega
  have hbt : bLt (msgenpackInt r.tstamp) MAX_TIME_ENC = false := by
    rw [ht, bLt_false_iff]
    exact lt_irrefl _
  have hmq : matchesPropQuery hash64 qp valu (pk, r) = false := by
    simp only [matchesPropQuery]
    rw [hbt]
    simp
  obtain ⟨Lg, hgeq, hgperm⟩ := @getRowsByProp_noTime_spec hash64 st qp valu false hwf hp
  obtain ⟨Lc, hceq, _⟩ := @getRowsByProp_noTime_spec hash64 st qp valu true hwf hp
  refine ⟨?_, ?_, ?_⟩
  · intro cnt L st2 heq hrL
    rw [hgeq] at heq
    simp only [Except.ok.injEq, Prod.mk.injEq] at heq
    rw [← heq.2.1] at hrL
    have h2 := hgperm.mem_iff.mp hrL
    simp only [Bool.false_eq_true, if_false] at h2
    obtain ⟨pr2, hpr2, hsnd⟩ := List.mem_map.mp h2
    have hq := List.of_mem_filter hpr2
    simp only [matchesPropQuery, Bool.and_eq_true] at hq
    have h3 := hq.2
    rw [hsnd, hbt] at h3
    exact Bool.noConfusion h3
  · intro cnt hceq2
    unfold getSizeByProp at hceq2
    rw [hceq] at hceq2
    simp only [Except.map, Except.ok.injEq] at hceq2
    exact ⟨hceq2.symm, hmq⟩
  · intro st2 hdel
    unfold delRowsByProp at hdel
    cases valu with
    | some w =>
      rw [getRowsByProp_eval_some_del, List.append_nil] at hdel
      have hmaxmem : maxSent ∈ st.pvt := by
        rw [hwf.1]
        exact (sortEnts_perm _).mem_iff.mpr (by simp)
      have hfkmax : bLt maxSent.1 (msgenpackStr qp ++ encValKey hash64 w) = false := by
        rw [bLt_false_iff]
        exact lt_asymm (propKey_lt_max qp _)
      have hsufne : st.pvt.dropWhile
          (fun e => bLt e.1 (msgenpackStr qp ++ encValKey hash64 w)) ≠ [] :=
        List.ne_nil_of_mem (mem_dropWhile_of_not hmaxmem hfkmax)
      have hset : (setRange st.pvt (msgenpackStr qp ++ encValKey hash64 w)).2 =
          st.pvt.dropWhile (fun e => bLt e.1 (msgenpackStr qp ++ encValKey hash64 w)) := by
        unfold setRange
        rw [List.span_eq_take_drop]
      rw [hset] at hdel
      obtain ⟨e0, rest, hsuf⟩ := List.exists_cons_of_ne_nil hsufne
      have hnoref := pvt_suffix_no_ref hwf hp65 hm ht (w := w)
      rw [hsuf] at hdel hnoref
      dsimp only [] at hdel
      obtain ⟨y, hy, hgy⟩ := exceptMap_ok hdel
      rw [List.append_assoc] at hy
      obtain ⟨out, hloop, hok⟩ := exceptBind_ok hy
      have hkeep := getByPropGo_delete_keeps _ hm hnoref hloop
      simp only [Except.ok.injEq] at hok
      rw [← hgy, ← hok]
      exact hkeep
    | none =>
      rw [getRowsByProp_eval_none_del] at hdel
      simp only [List.append_nil] at hdel
      have hmaxmem : maxSent ∈ st.pt := by
        rw [hwf.2.1]
        exact (sortEnts_perm _).mem_iff.mpr (by simp)
      have hfkmax : bLt maxSent.1 (msgenpackStr qp) = false := by
        rw [bLt_false_iff]
        have h1 := propKey_lt_max qp []
        rw [List.append_nil] at h1
        exact lt_asymm h1
      have hsufne : st.pt.dropWhile (fun e => bLt e.1 (msgenpackStr qp)) ≠ [] :=
        List.ne_nil_of_mem (mem_dropWhile_of_not hmaxmem hfkmax)
      have hset : (setRange st.pt (msgenpackStr qp)).2 =
          st.pt.dropWhile (fun e => bLt e.1 (msgenpackStr qp)) := by
        unfold setRange
        rw [List.span_eq_take_drop]
      rw [hset] at hdel
      obtain ⟨e0, rest, hsuf⟩ := List.exists_cons_of_ne_nil hsufne
      have hnoref := pt_suffix_no_ref hwf hp65 hm ht
      rw [hsuf] at hdel hnoref
      dsimp only [] at hdel
      obtain ⟨y, hy, hgy⟩ := exceptMap_ok hdel
      obtain ⟨out, hloop, hok⟩ := exceptBind_ok hy
      have hkeep := getByPropGo_delete_keeps _ hm hnoref hloop
      simp only [Except.ok.injEq] at hok
      rw [← hgy, ← hok]
      exact hkeep

set_option maxRecDepth 100000 in
theorem C10_max_timestamp_invisible_witness :
    WF hashZero stMaxT ∧ propFoo.length ≤ MAX_PROP_LEN ∧
    (1, rowMaxT) ∈ stMaxT.rows ∧ rowMaxT.tstamp = MAX_INT_VAL ∧
    (∀ st2, delRowsByProp hashZero stMaxT propFoo none none none = .ok st2 →
      (1, rowMaxT) ∈ st2.rows) :=
  have h := @C10_max_timestamp_invisible hashZero stMaxT propFoo none 1 rowMaxT
    (by decide) (by decide) (by decide) (by decide)
  ⟨by decide, by decide, by decide, by decide, h.2.2⟩

/-- C6: under Python 3 the guard `v_key_enc[0] == HASH_VAL_MARKER_ENC`
compares an int against a bytes object and is always False, so
v_is_hashed never becomes true and the primary-row re-verification branch
of `_getRowsByProp` is dead: when two large strings collide under xxh64,
a query for one of them also returns the rows holding the other. -/
theorem C6_hash_collision_leak {hash64 : Bytes → Nat} {st : DbState}
    {qp a b : Bytes} {pk1 pk2 : Nat} {r1 r2 : Row}
    (hwf : WF hash64 st) (hp : qp.length ≤ MAX_PROP_LEN)
    (hm1 : (pk1, r1) ∈ st.rows) (hm2 : (pk2, r2) ∈ st.rows)
    (hr1v : r1.valu = .vstr a) (hr2v : r2.valu = .vstr b)
    (hr1p : r1.prop = qp) (hr2p : r2.prop = qp)
    (hla : LARGE_STRING_SIZE ≤ a.length) (hlb : LARGE_STRING_SIZE ≤ b.length)
    (hcol : hash64 a = hash64 b)
    (ht1 : msgenpackInt r1.tstamp < MAX_TIME_ENC)
    (ht2 : msgenpackInt r2.tstamp < MAX_TIME_ENC) :
    ∀ cnt L st2,
      getRowsByProp hash64 st qp (some (.vstr a)) none none none false false =
        .ok (cnt, L, st2) → r1 ∈ L ∧ r2 ∈ L := by
  obtain ⟨Lg, hgeq, hgperm⟩ :=
    @getRowsByProp_noTime_spec hash64 st qp (some (.vstr a)) false hwf hp
  intro cnt L st2 heq
  rw [hgeq] at heq
  simp only [Except.ok.injEq, Prod.mk.injEq] at heq
  rw [← heq.2.1]
  simp only [Bool.false_eq_true, if_false] at hgperm
  have hmem : ∀ pkr : Nat × Row, pkr ∈ st.rows → pkr.2.prop = qp →
      encValKey hash64 pkr.2.valu = encValKey hash64 (.vstr a) →
      msgenpackInt pkr.2.tstamp < MAX_TIME_ENC → pkr.2 ∈ Lg := by
    intro pkr hmm hpp hvv htt
    refine hgperm.mem_iff.mpr ?_
    refine List.mem_map.mpr ⟨pkr, ?_, rfl⟩
    refine List.mem_filter.mpr ⟨hmm, ?_⟩
    simp only [matchesPropQuery, Bool.and_eq_true, beq_iff_eq, bLt_iff]
    exact ⟨⟨hpp, hvv⟩, htt⟩
  have hv1 : encValKey hash64 r1.valu = encValKey hash64 (.vstr a) := by rw [hr1v]
  have hv2 : encValKey hash64 r2.valu = encValKey hash64 (.vstr a) := by
    rw [hr2v, encValKey_vstr_long hash64 hlb, ← hcol,
      encValKey_vstr_long hash64 hla]
  exact ⟨hmem (pk1, r1) hm1 hr1p hv1 ht1, hmem (pk2, r2) hm2 hr2p hv2 ht2⟩

set_option maxRecDepth 1000000 in
theorem C6_hash_collision_leak_witness :
    strA ≠ strB ∧ hashZero strA = hashZero strB ∧
    rowStrB.valu = Valu.vstr strB ∧ rowStrB ∈ [rowStrA, rowStrB] :=
  have h := @C6_hash_collision_leak hashZero stTwo propFoo strA strB 1 2
    rowStrA rowStrB (by decide) (by decide) (by decide) (by decide) rfl rfl rfl rfl
    (by decide) (by decide) rfl (by decide) (by decide)
  ⟨by decide, rfl, rfl, (h 2 [rowStrA, rowStrB] stTwo (by decide)).2⟩

set_option maxRecDepth 1000000 in
/-- C1 counterexample: the store holds the single row (aa..aa, "foo", 3, 10)
and get_by_range("foo", 0, 3) returns no rows: the upper bound hi = 3 is
NOT included (_rowsByRange passes right_closed=False, and the forward scan
of _subrangeRows breaks as soon as the truncated key reaches last_key), so
the claimed interval [lo, hi] is actually [lo, hi). -/
theorem C1_range_upper_cex :
    (1, rowFoo3) ∈ stThree.rows ∧ rowFoo3.prop = propFoo ∧
    rowFoo3.valu = .vint 3 ∧
    rowsByRange hashZero stThree propFoo 0 3 none = .ok [] :=
  ⟨by decide, rfl, rfl, by decide⟩

/-! ### Machinery for the subrange scans -/

/-- The forward subrange loop with no limit processes entries until the
first one whose truncated key triggers the terminator, fetching each. -/
theorem subRowsF_spec {st : DbState} {lk : Bytes} {term : Bytes → Bytes → Bool} :
    ∀ {es : List Ent} {count : Nat} {ret : List Row},
      (∀ e ∈ es.takeWhile (fun e => !(term (e.1.take lk.length) lk)),
        (fetchRow st e).isSome) →
      subRowsF st lk term none es count ret =
        .ok (ret ++ (es.takeWhile
          (fun e => !(term (e.1.take lk.length) lk))).filterMap (fetchRow st))
  | [], count, ret, _ => by simp [subRowsF]
  | e :: es, count, ret, hsome => by
    rw [List.takeWhile_cons]
    rcases hc : term (e.1.take lk.length) lk with _ | _
    · have hmem : e ∈ (e :: es).takeWhile (fun e => !(term (e.1.take lk.length) lk)) := by
        rw [List.takeWhile_cons, hc]
        exact List.mem_cons_self _ _
      obtain ⟨r, hr⟩ := Option.isSome_iff_exists.mp (hsome e hmem)
      have hsome2 : ∀ e2 ∈ es.takeWhile (fun e => !(term (e.1.take lk.length) lk)),
          (fetchRow st e2).isSome := by
        intro e2 he2
        refine hsome e2 ?_
        rw [List.takeWhile_cons, hc]
        exact List.mem_cons_of_mem _ he2
      simp only [subRowsF, hc, Bool.false_eq_true, if_false, Bool.not_false, if_true]
      rw [getRowByPkValEnc_of_fetch hr]
      simp only [Except.bind]
      rw [subRowsF_spec hsome2]
      simp only [List.filterMap_cons, hr]
      rw [List.append_assoc]
      rfl
    · simp only [subRowsF, hc, if_true, Bool.not_true, Bool.false_eq_true, if_false]
      simp

/-- Generic form of the slice characterisation: takeWhile by any
downward-closed predicate after positioning at first_key is a filter. -/
theorem scan_slice_eq_filter_gen {q : Ent → Bool} {fk : Bytes} {tbl : List Ent}
    (hs : List.Pairwise entR tbl)
    (hq : ∀ a b : Ent, entLe a b = true → q b = true → q a = true) :
    (tbl.dropWhile (fun e => bLt e.1 fk)).takeWhile q =
      tbl.filter (fun e => q e && !(bLt e.1 fk)) := by
  have hmono1 : ∀ a b : Ent, entLe a b = true → bLt b.1 fk = true →
      bLt a.1 fk = true := by
    intro a b hab hb
    rw [bLt_iff] at hb ⊢
    exact lt_of_le_of_lt (entLe_key_le hab) hb
  rw [dropWhile_eq_filter_sorted hmono1 hs,
    takeWhile_eq_filter_sorted hq (hs.sublist (List.filter_sublist _)),
    List.filter_filter]

/-- Generic form of the sentinel-splitting permutation. -/
theorem table_slice_perm_gen {q : Ent → Bool} {fk : Bytes} {sents ents tbl : List Ent}
    (htbl : tbl = sortEnts (sents ++ ents))
    (hq : ∀ a b : Ent, entLe a b = true → q b = true → q a = true)
    (hsent : ∀ e ∈ sents, (q e && !(bLt e.1 fk)) = false) :
    ((tbl.dropWhile (fun e => bLt e.1 fk)).takeWhile q).Perm
      (ents.filter (fun e => q e && !(bLt e.1 fk))) := by
  subst htbl
  rw [scan_slice_eq_filter_gen (sortEnts_sorted _) hq]
  refine ((sortEnts_perm _).filter _).trans ?_
  rw [List.filter_append]
  rw [List.filter_eq_nil_iff.mpr (fun e he hq2 => by
    rw [hsent e he] at hq2
    exact Bool.noConfusion hq2)]
  rw [List.nil_append]

/-- A sorted list splits into its p-false part followed by its p-true part
when p is upward-closed. -/
theorem sorted_split_by_upward {p : Ent → Bool} {l : List Ent}
    (hs : List.Pairwise entR l)
    (hp : ∀ a b : Ent, entLe a b = true → p a = true → p b = true) :
    l = l.filter (fun e => !(p e)) ++ l.filter p := by
  have hdown : ∀ a b : Ent, entLe a b = true → (!(p b)) = true → (!(p a)) = true := by
    intro a b hab hbp
    rw [Bool.not_eq_true'] at hbp ⊢
    rcases hpa : p a with _ | _
    · rfl
    · rw [hp a b hab hpa] at hbp
      exact Bool.noConfusion hbp
  conv_lhs => rw [← List.takeWhile_append_dropWhile (p := fun e => !(p e)) (l := l)]
  rw [takeWhile_eq_filter_sorted hdown hs, dropWhile_eq_filter_sorted hdown hs]
  congr 1
  refine List.filter_congr ?_
  intro e he
  exact Bool.not_not (p e)

theorem takeWhile_append_all {p : Ent → Bool} :
    ∀ {xs ys : List Ent}, (∀ x ∈ xs, p x = true) →
      (xs ++ ys).takeWhile p = xs ++ ys.takeWhile p
  | [], ys, _ => rfl
  | x :: xs, ys, h => by
    rw [List.cons_append, List.takeWhile_cons, h x (List.mem_cons_self _ _),
      takeWhile_append_all (fun y hy => h y (List.mem_cons_of_mem _ hy))]
    rfl

theorem takeWhile_eq_nil_of_all {p : Ent → Bool} :
    ∀ {ys : List Ent}, (∀ y ∈ ys, p y = false) → ys.takeWhile p = []
  | [], _ => rfl
  | y :: ys, h => by
    rw [List.takeWhile_cons, h y (List.mem_cons_self _ _)]
    rfl

/-- Backward traversal of a sorted list: takeWhile by an upward-closed
predicate over the reversal is the reversal of the filter. -/
theorem reverse_takeWhile_sorted {p : Ent → Bool} {l : List Ent}
    (hs : List.Pairwise entR l)
    (hp : ∀ a b : Ent, entLe a b = true → p a = true → p b = true) :
    l.reverse.takeWhile p = (l.filter p).reverse := by
  conv_lhs => rw [sorted_split_by_upward hs hp]
  rw [List.reverse_append]
  rw [takeWhile_append_all (fun x hx => List.of_mem_filter (List.mem_reverse.mp hx))]
  rw [takeWhile_eq_nil_of_all (fun y hy => by
    have h1 := List.of_mem_filter (List.mem_reverse.mp hy)
    rw [Bool.not_eq_true'] at h1
    exact h1)]
  rw [List.append_nil]

theorem lt_take_of_head_lt {a b s : Bytes} (ha : a ≠ []) (hb : b ≠ [])
    (hh : b.headD 0 < a.headD 0) {n : Nat} (hn : 1 ≤ n) :
    b < (a ++ s).take n := by
  cases a with
  | nil => exact absurd rfl ha
  | cons x xs =>
    cases b with
    | nil => exact absurd rfl hb
    | cons y ys =>
      obtain ⟨m, rfl⟩ : ∃ m, n = m + 1 := ⟨n - 1, by omega⟩
      rw [List.cons_append, List.take_succ_cons]
      exact lt_of_head_lt _ _ _ _ (by simpa using hh)

theorem msgenpackNat_lt_iff {a b : Nat} (ha : a < 18446744073709551616)
    (hb : b < 18446744073709551616) :
    msgenpackNat a < msgenpackNat b ↔ a < b := by
  constructor
  · intro h
    rcases lt_trichotomy a b with h2 | rfl | h2
    · exact h2
    · exact absurd h (lt_irrefl _)
    · exact absurd h (lt_asymm (msgenpackNat_lt h2 ha))
  · intro h
    exact msgenpackNat_lt h hb

theorem msgenpackNat_inj {a b : Nat} (ha : a < 18446744073709551616)
    (hb : b < 18446744073709551616) (h : msgenpackNat a = msgenpackNat b) :
    a = b := by
  have h1 := msgunpack_msgenpack ha
  rw [h, msgunpack_msgenpack hb] at h1
  exact (Option.some.inj h1).symm

theorem notInit_encValKey (hash64 : Bytes → Nat) {v w : Valu}
    (hne : encValKey hash64 v ≠ encValKey hash64 w) :
    isInit (encValKey hash64 v) (encValKey hash64 w) = false := by
  rcases h : isInit (encValKey hash64 v) (encValKey hash64 w) with _ | _
  · rfl
  · exact absurd (encValKey_init hash64 h) hne

/-- The full index key compares against a bare value-key boundary exactly
as the value keys compare. -/
theorem encKey_append_lt_enc_iff (hash64 : Bytes → Nat) (v w : Valu) (ts : Bytes) :
    (encValKey hash64 v ++ ts < encValKey hash64 w ↔
      encValKey hash64 v < encValKey hash64 w) := by
  rcases eq_or_ne (encValKey hash64 v) (encValKey hash64 w) with he | hne
  · rw [he]
    constructor
    · intro h
      exact absurd h (not_append_lt_self _ _)
    · intro h
      exact absurd h (lt_irrefl _)
  · have h1 := lt_append_iff_of_encs (encValKey_init hash64) (encValKey_init hash64)
      hne ts []
    rw [List.append_nil] at h1
    exact h1

/-- The index key truncated at a value-key boundary compares exactly as
the value keys compare, in both directions. -/
theorem enc_take_lt_iff (hash64 : Bytes → Nat) (v w : Valu) (ts : Bytes) :
    ((encValKey hash64 v ++ ts).take (encValKey hash64 w).length <
        encValKey hash64 w ↔ encValKey hash64 v < encValKey hash64 w) ∧
    (encValKey hash64 w <
        (encValKey hash64 v ++ ts).take (encValKey hash64 w).length ↔
      encValKey hash64 w < encValKey hash64 v) := by
  rcases eq_or_ne (encValKey hash64 v) (encValKey hash64 w) with he | hne
  · rw [he, List.take_left]
    exact ⟨Iff.rfl, Iff.rfl⟩
  · exact take_lt_of_notInit _ _ (notInit_encValKey hash64 hne)
      (notInit_encValKey hash64 (Ne.symm hne)) ts

/-- In the non-negative integer region the value-key order is the numeric
order. -/
theorem encValKey_vint_lt_iff_nonneg (hash64 : Bytes → Nat) {a b : Int}
    (ha0 : 0 ≤ a) (hb0 : 0 ≤ b) (ha : a ≤ MAX_INT_VAL) (hb : b ≤ MAX_INT_VAL) :
    (encValKey hash64 (.vint a) < encValKey hash64 (.vint b) ↔ a < b) := by
  rw [encValKey_vint_nonneg hash64 ha0, encValKey_vint_nonneg hash64 hb0]
  rw [msgenpackNat_lt_iff (by unfold MAX_INT_VAL at ha; omega)
    (by unfold MAX_INT_VAL at hb; omega)]
  omega

/-- In the negative integer region the value-key order is the reversed
numeric order. -/
theorem encValKey_vint_lt_iff_neg (hash64 : Bytes → Nat) {a b : Int}
    (ha0 : a < 0) (hb0 : b < 0) (ha : MIN_INT_VAL ≤ a) (hb : MIN_INT_VAL ≤ b) :
    (encValKey hash64 (.vint a) < encValKey hash64 (.vint b) ↔ b < a) := by
  rw [encValKey_vint_neg hash64 (by omega), encValKey_vint_neg hash64 (by omega)]
  rw [cons_lt_cons_same]
  rw [msgenpackNat_lt_iff (by unfold MIN_INT_VAL at ha; omega)
    (by unfold MIN_INT_VAL at hb; omega)]
  omega

/-- Value keys of non-negative integers sort strictly below those of
anything whose encoding starts with a marker byte. -/
theorem encValKey_vint_inj (hash64 : Bytes → Nat) {a b : Int}
    (ha1 : MIN_INT_VAL ≤ a) (ha2 : a ≤ MAX_INT_VAL)
    (hb1 : MIN_INT_VAL ≤ b) (hb2 : b ≤ MAX_INT_VAL)
    (h : encValKey hash64 (.vint a) = encValKey hash64 (.vint b)) : a = b := by
  by_cases ha0 : 0 ≤ a <;> by_cases hb0 : 0 ≤ b
  · rw [encValKey_vint_nonneg hash64 ha0, encValKey_vint_nonneg hash64 hb0] at h
    have := msgenpackNat_inj (by unfold MAX_INT_VAL at ha2; omega)
      (by unfold MAX_INT_VAL at hb2; omega) h
    omega
  · have h1 : (encValKey hash64 (.vint a)).headD 0 =
        (encValKey hash64 (.vint b)).headD 0 := by rw [h]
    rw [encValKey_headD, encValKey_headD] at h1
    simp only [if_pos ha0, if_neg hb0] at h1
    have h3 := msgenpackNat_headD_le a.toNat
    omega
  · have h1 : (encValKey hash64 (.vint a)).headD 0 =
        (encValKey hash64 (.vint b)).headD 0 := by rw [h]
    rw [encValKey_headD, encValKey_headD] at h1
    simp only [if_neg ha0, if_pos hb0] at h1
    have h3 := msgenpackNat_headD_le b.toNat
    omega
  · rw [encValKey_vint_neg hash64 ha0, encValKey_vint_neg hash64 hb0] at h
    have h2 : msgenpackNat (-a).toNat = msgenpackNat (-b).toNat :=
      (List.cons.inj h).2
    have := msgenpackNat_inj (by unfold MIN_INT_VAL at ha1; omega)
      (by unfold MIN_INT_VAL at hb1; omega) h2
    omega

/-- Two initial segments of the same string are comparable. -/
theorem isInit_comparable : ∀ {c a b : Bytes}, isInit a c = true →
    isInit b c = true → isInit a b = true ∨ isInit b a = true
  | _, [], b, _, _ => Or.inl rfl
  | _, _ :: _, [], _, _ => Or.inr rfl
  | [], _ :: _, _ :: _, h1, _ => by
    exact Bool.noConfusion h1
  | c :: cs, a :: as, b :: bs, h1, h2 => by
    have ha := isInit_head h1
    have hb := isInit_head h2
    subst ha
    subst hb
    have h3 := isInit_cons h1
    have h4 := isInit_cons h2
    rcases isInit_comparable h3 h4 with h | h
    · exact Or.inl (by simp [isInit, h])
    · exact Or.inr (by simp [isInit, h])

theorem isInit_self (a : Bytes) : isInit a a = true :=
  (isInit_iff_exists a a).mpr ⟨[], (List.append_nil a).symm⟩

theorem isInit_of_append (a u : Bytes) : isInit a (a ++ u) = true :=
  (isInit_iff_exists _ _).mpr ⟨u, rfl⟩

theorem isInit_trans : ∀ {a b c : Bytes}, isInit a b = true → isInit b c = true →
    isInit a c = true := by
  intro a b c h1 h2
  obtain ⟨u, rfl⟩ := (isInit_iff_exists _ _).mp h1
  obtain ⟨v, hv⟩ := (isInit_iff_exists _ _).mp h2
  refine (isInit_iff_exists _ _).mpr ⟨u ++ v, ?_⟩
  rw [hv, List.append_assoc]

/-- A property encoding is never prefix-comparable with a different
property encoding followed by anything. -/
theorem notInit_str_strApp {s t u : Bytes} (hs : s.length < 65536)
    (ht : t.length < 65536) (hne : msgenpackStr s ≠ msgenpackStr t) :
    isInit (msgenpackStr s) (msgenpackStr t ++ u) = false ∧
    isInit (msgenpackStr t ++ u) (msgenpackStr s) = false := by
  constructor
  · rcases h : isInit (msgenpackStr s) (msgenpackStr t ++ u) with _ | _
    · rfl
    · rcases isInit_comparable h (isInit_of_append (msgenpackStr t) u) with h2 | h2
      · exact absurd (msgenpackStr_init hs ht h2) hne
      · exact absurd (msgenpackStr_init ht hs h2).symm hne
  · rcases h : isInit (msgenpackStr t ++ u) (msgenpackStr s) with _ | _
    · rfl
    · have h2 := isInit_trans (isInit_of_append (msgenpackStr t) u) h
      exact absurd (msgenpackStr_init ht hs h2).symm hne

/-- When the head byte of a value key strictly dominates the head byte of
a boundary value key, the full index key is at or above the bare boundary
and its truncation strictly above it. -/
theorem enc_marker_above (hash64 : Bytes → Nat) (v w : Valu) (ts : Bytes)
    (hhead : (encValKey hash64 w).headD 0 < (encValKey hash64 v).headD 0) :
    (¬ encValKey hash64 v ++ ts < encValKey hash64 w) ∧
    encValKey hash64 w <
      (encValKey hash64 v ++ ts).take (encValKey hash64 w).length := by
  have hv := encValKey_ne_nil hash64 v
  have hw := encValKey_ne_nil hash64 w
  constructor
  · refine lt_asymm (lt_of_headD_lt hw ?_ ?_)
    · intro hnil
      exact hv (List.append_eq_nil.mp hnil).1
    · rw [headD_append_of_ne_nil hv]
      exact hhead
  · refine lt_take_of_head_lt hv hw hhead ?_
    have := List.length_pos.mpr hw
    omega

/-- Forward window characterisation: with 0 ≤ first_val, a row's pvt key
passes the positioning and non-termination checks of `_subrangeRows` iff
the row carries the queried property and an integer value inside the
(right-open or right-closed) window. -/
theorem subKeyF_iff (hash64 : Bytes → Nat) {qp : Bytes} (hp65 : qp.length < 65536)
    {fv lv : Int} (rc : Bool) (hfv0 : 0 ≤ fv) (hfl : fv ≤ lv)
    (hlv : lv ≤ MAX_INT_VAL) (r : Row) (hro : rowOk r)
    (hrp : r.prop.length < 65536) :
    ((¬ pvtKeyOf hash64 r < msgenpackStr qp ++ encValKey hash64 (.vint fv)) ∧
      (if rc then
        ¬ msgenpackStr qp ++ encValKey hash64 (.vint lv) <
          (pvtKeyOf hash64 r).take
            (msgenpackStr qp ++ encValKey hash64 (.vint lv)).length
       else
        ¬ msgenpackStr qp ++ encValKey hash64 (.vint lv) ≤
          (pvtKeyOf hash64 r).take
            (msgenpackStr qp ++ encValKey hash64 (.vint lv)).length)) ↔
    (r.prop = qp ∧ ∃ v, r.valu = .vint v ∧ fv ≤ v ∧
      (if rc then v ≤ lv else v < lv)) := by
  unfold pvtKeyOf
  rw [List.append_assoc]
  rcases eq_or_ne (msgenpackStr r.prop) (msgenpackStr qp) with he | hne
  · have hpp : r.prop = qp := msgenpackStr_inj he
    rw [he, append_lt_append_left, List.length_append, take_add_append]
    have hstrip : ∀ X : Bytes,
        (msgenpackStr qp ++ encValKey hash64 (.vint lv) < msgenpackStr qp ++ X ↔
          encValKey hash64 (.vint lv) < X) := fun X => append_lt_append_left _ _ _
    have hstrip2 : ∀ X : Bytes,
        (msgenpackStr qp ++ encValKey hash64 (.vint lv) ≤ msgenpackStr qp ++ X ↔
          encValKey hash64 (.vint lv) ≤ X) := by
      intro X
      rw [← not_lt, ← not_lt, append_lt_append_left]
    rcases hval : r.valu with v | sv
    · rw [encKey_append_lt_enc_iff hash64 (.vint v) (.vint fv) (msgenpackInt r.tstamp)]
      have hvb : MIN_INT_VAL ≤ v ∧ v ≤ MAX_INT_VAL := by
        have h1 := hro.2.2.1
        rw [hval] at h1
        exact h1
      have htake := enc_take_lt_iff hash64 (.vint v) (.vint lv) (msgenpackInt r.tstamp)
      by_cases hv0 : 0 ≤ v
      · rw [encValKey_vint_lt_iff_nonneg hash64 hv0 hfv0 hvb.2 (by omega)]
        have hlt : (encValKey hash64 (.vint v) < encValKey hash64 (.vint lv) ↔ v < lv) :=
          encValKey_vint_lt_iff_nonneg hash64 hv0 (by omega) hvb.2 hlv
        have hgt : (encValKey hash64 (.vint lv) < encValKey hash64 (.vint v) ↔ lv < v) :=
          encValKey_vint_lt_iff_nonneg hash64 (by omega) hv0 hlv hvb.2
        rcases rc with _ | _
        · simp only [Bool.false_eq_true, if_false]
          rw [hstrip2]
          constructor
          · rintro ⟨h1, h2⟩
            have h3 := not_le.mp h2
            rw [htake.1, hlt] at h3
            exact ⟨hpp, v, rfl, by omega, by omega⟩
          · rintro ⟨_, v2, hv2, h3, h4⟩
            have hveq : v = v2 := Valu.vint.inj hv2
            refine ⟨by omega, not_le.mpr (htake.1.mpr (hlt.mpr (by omega)))⟩
        · simp only [if_true]
          rw [hstrip]
          constructor
          · rintro ⟨h1, h2⟩
            have h3 : ¬ lv < v := fun hcon => h2 (htake.2.mpr (hgt.mpr hcon))
            exact ⟨hpp, v, rfl, by omega, by omega⟩
          · rintro ⟨_, v2, hv2, h3, h4⟩
            have hveq : v = v2 := Valu.vint.inj hv2
            refine ⟨by omega, fun hcon => ?_⟩
            exact absurd (hgt.mp (htake.2.mp hcon)) (by omega)
      · have hhead2 : (encValKey hash64 (.vint lv)).headD 0 <
            (encValKey hash64 (.vint v)).headD 0 := by
          rw [encValKey_headD, encValKey_headD]
          simp only [if_pos (by omega : (0:Int) ≤ lv), if_neg hv0]
          have := msgenpackNat_headD_le lv.toNat
          omega
        have hm2 := enc_marker_above hash64 (.vint v) (.vint lv)
          (msgenpackInt r.tstamp) hhead2
        rcases rc with _ | _
        · simp only [Bool.false_eq_true, if_false]
          rw [hstrip2]
          constructor
          · rintro ⟨_, h2⟩
            exact absurd (le_of_lt hm2.2) h2
          · rintro ⟨_, v2, hv2, h3, _⟩
            have hveq : v = v2 := Valu.vint.inj hv2
            omega
        · simp only [if_true]
          rw [hstrip]
          constructor
          · rintro ⟨_, h2⟩
            exact absurd hm2.2 h2
          · rintro ⟨_, v2, hv2, h3, _⟩
            have hveq : v = v2 := Valu.vint.inj hv2
            omega
    · have hhead2 : (encValKey hash64 (.vint lv)).headD 0 <
          (encValKey hash64 (.vstr sv)).headD 0 := by
        rw [encValKey_headD, encValKey_headD]
        simp only [if_pos (by omega : (0:Int) ≤ lv)]
        have := msgenpackNat_headD_le lv.toNat
        split_ifs <;> omega
      have hm2 := enc_marker_above hash64 (.vstr sv) (.vint lv)
        (msgenpackInt r.tstamp) hhead2
      rcases rc with _ | _
      · simp only [Bool.false_eq_true, if_false]
        rw [hstrip2]
        constructor
        · rintro ⟨_, h2⟩
          exact absurd (le_of_lt hm2.2) h2
        · rintro ⟨_, v2, hv2, _, _⟩
          exact Valu.noConfusion hv2
      · simp only [if_true]
        rw [hstrip]
        constructor
        · rintro ⟨_, h2⟩
          exact absurd hm2.2 h2
        · rintro ⟨_, v2, hv2, _, _⟩
          exact Valu.noConfusion hv2
  · have hn1 : isInit (msgenpackStr r.prop) (msgenpackStr qp) = false := by
      rcases h : isInit (msgenpackStr r.prop) (msgenpackStr qp) with _ | _
      · rfl
      · exact absurd (msgenpackStr_init hrp hp65 h) hne
    have hn2 : isInit (msgenpackStr qp) (msgenpackStr r.prop) = false := by
      rcases h : isInit (msgenpackStr qp) (msgenpackStr r.prop) with _ | _
      · rfl
      · exact absurd (msgenpackStr_init hp65 hrp h).symm hne
    have hkf := lt_append_append_of_notInit _ _ hn1 hn2
      (encValKey hash64 r.valu ++ msgenpackInt r.tstamp) (encValKey hash64 (.vint fv))
    have hni2 := notInit_str_strApp hrp hp65 hne (u := encValKey hash64 (.vint lv))
    have htk := take_lt_of_notInit _ _ hni2.1 hni2.2
      (encValKey hash64 r.valu ++ msgenpackInt r.tstamp)
    have hpe1 : msgenpackStr r.prop < msgenpackStr qp ++ encValKey hash64 (.vint lv) ↔
        msgenpackStr r.prop < msgenpackStr qp := by
      have h1 := lt_append_append_of_notInit _ _ hn1 hn2 []
        (encValKey hash64 (.vint lv))
      rw [List.append_nil] at h1
      exact h1
    have hpe2 : msgenpackStr qp ++ encValKey hash64 (.vint lv) < msgenpackStr r.prop ↔
        msgenpackStr qp < msgenpackStr r.prop := by
      have h1 := lt_append_append_of_notInit _ _ hn2 hn1
        (encValKey hash64 (.vint lv)) []
      rw [List.append_nil] at h1
      exact h1
    constructor
    · rintro ⟨h1, h2⟩
      rw [hkf] at h1
      exfalso
      rcases rc with _ | _
      · simp only [Bool.false_eq_true, if_false] at h2
        have h3 := not_le.mp h2
        rw [htk.1, hpe1] at h3
        exact h1 h3
      · simp only [if_true] at h2
        have h4 : ¬ msgenpackStr qp < msgenpackStr r.prop := fun hcon =>
          h2 (htk.2.mpr (hpe2.mpr hcon))
        rcases lt_trichotomy (msgenpackStr r.prop) (msgenpackStr qp) with h3 | h3 | h3
        · exact h1 h3
        · exact hne h3
        · exact h4 h3
    · rintro ⟨hpp, _⟩
      exact absurd (congrArg msgenpackStr hpp) hne

theorem take_lt_of_head_lt {a b s : Bytes} (ha : a ≠ []) (hb : b ≠ [])
    (hh : a.headD 0 < b.headD 0) {n : Nat} (hn : 1 ≤ n) :
    (a ++ s).take n < b := by
  cases a with
  | nil => exact absurd rfl ha
  | cons x xs =>
    cases b with
    | nil => exact absurd rfl hb
    | cons y ys =>
      obtain ⟨m, rfl⟩ : ∃ m, n = m + 1 := ⟨n - 1, by omega⟩
      rw [List.cons_append, List.take_succ_cons]
      exact lt_of_head_lt _ _ _ _ (by simpa using hh)

/-- Backward window characterisation: with first_val < 0, a row's pvt key
sits strictly below first_key while not triggering the backward
terminator iff the row carries the queried property and an integer value
with first_val < v inside the (right-open or right-closed) window. -/
theorem subKeyB_iff (hash64 : Bytes → Nat) {qp : Bytes} (hp65 : qp.length < 65536)
    {fv lv : Int} (rc : Bool) (hfv1 : MIN_INT_VAL ≤ fv) (hfv0 : fv < 0)
    (hfl : fv ≤ lv) (hlv0 : lv < 0) (r : Row) (hro : rowOk r)
    (hrp : r.prop.length < 65536) :
    ((pvtKeyOf hash64 r < msgenpackStr qp ++ encValKey hash64 (.vint fv)) ∧
      (if rc then
        ¬ (pvtKeyOf hash64 r).take
            (msgenpackStr qp ++ encValKey hash64 (.vint lv)).length <
          msgenpackStr qp ++ encValKey hash64 (.vint lv)
       else
        ¬ (pvtKeyOf hash64 r).take
            (msgenpackStr qp ++ encValKey hash64 (.vint lv)).length ≤
          msgenpackStr qp ++ encValKey hash64 (.vint lv))) ↔
    (r.prop = qp ∧ ∃ v, r.valu = .vint v ∧ fv < v ∧
      (if rc then v ≤ lv else v < lv)) := by
  unfold pvtKeyOf
  rw [List.append_assoc]
  rcases eq_or_ne (msgenpackStr r.prop) (msgenpackStr qp) with he | hne
  · have hpp : r.prop = qp := msgenpackStr_inj he
    rw [he, append_lt_append_left, List.length_append, take_add_append]
    have hstrip : ∀ X : Bytes,
        (msgenpackStr qp ++ X < msgenpackStr qp ++ encValKey hash64 (.vint lv) ↔
          X < encValKey hash64 (.vint lv)) := fun X => append_lt_append_left _ _ _
    have hstrip2 : ∀ X : Bytes,
        (msgenpackStr qp ++ X ≤ msgenpackStr qp ++ encValKey hash64 (.vint lv) ↔
          X ≤ encValKey hash64 (.vint lv)) := by
      intro X
      rw [← not_lt, ← not_lt, append_lt_append_left]
    rcases hval : r.valu with v | sv
    · rw [encKey_append_lt_enc_iff hash64 (.vint v) (.vint fv) (msgenpackInt r.tstamp)]
      have hvb : MIN_INT_VAL ≤ v ∧ v ≤ MAX_INT_VAL := by
        have h1 := hro.2.2.1
        rw [hval] at h1
        exact h1
      have htake := enc_take_lt_iff hash64 (.vint v) (.vint lv) (msgenpackInt r.tstamp)
      by_cases hv0 : 0 ≤ v
      · have hhead2 : (encValKey hash64 (.vint v)).headD 0 <
            (encValKey hash64 (.vint lv)).headD 0 := by
          rw [encValKey_headD, encValKey_headD]
          simp only [if_pos hv0, if_neg (by omega : ¬ (0:Int) ≤ lv)]
          have := msgenpackNat_headD_le v.toNat
          omega
        have htlt : (encValKey hash64 (.vint v) ++ msgenpackInt r.tstamp).take
            (encValKey hash64 (.vint lv)).length < encValKey hash64 (.vint lv) :=
          take_lt_of_head_lt (encValKey_ne_nil hash64 _) (encValKey_ne_nil hash64 _)
            hhead2 (by
              have := List.length_pos.mpr (encValKey_ne_nil hash64 (Valu.vint lv))
              omega)
        rcases rc with _ | _
        · simp only [Bool.false_eq_true, if_false]
          rw [hstrip2]
          constructor
          · rintro ⟨_, h2⟩
            exact absurd (le_of_lt htlt) h2
          · rintro ⟨_, v2, hv2, _, h4⟩
            have hveq : v = v2 := Valu.vint.inj hv2
            omega
        · simp only [if_true]
          rw [hstrip]
          constructor
          · rintro ⟨_, h2⟩
            exact absurd htlt h2
          · rintro ⟨_, v2, hv2, _, h4⟩
            have hveq : v = v2 := Valu.vint.inj hv2
            omega
      · rw [encValKey_vint_lt_iff_neg hash64 (by omega) (by omega) hvb.1 hfv1]
        have hlt : (encValKey hash64 (.vint v) < encValKey hash64 (.vint lv) ↔ lv < v) :=
          encValKey_vint_lt_iff_neg hash64 (by omega) hlv0 hvb.1 (by omega)
        have hgt : (encValKey hash64 (.vint lv) < encValKey hash64 (.vint v) ↔ v < lv) :=
          encValKey_vint_lt_iff_neg hash64 hlv0 (by omega) (by omega) hvb.1
        rcases rc with _ | _
        · simp only [Bool.false_eq_true, if_false]
          rw [hstrip2]
          constructor
          · rintro ⟨h1, h2⟩
            have h3 := not_le.mp h2
            rw [htake.2, hgt] at h3
            exact ⟨hpp, v, rfl, by omega, by omega⟩
          · rintro ⟨_, v2, hv2, h3, h4⟩
            have hveq : v = v2 := Valu.vint.inj hv2
            exact ⟨by omega, not_le.mpr (htake.2.mpr (hgt.mpr (by omega)))⟩
        · simp only [if_true]
          rw [hstrip]
          constructor
          · rintro ⟨h1, h2⟩
            have h3 : ¬ lv < v := fun hcon => h2 (htake.1.mpr (hlt.mpr hcon))
            exact ⟨hpp, v, rfl, by omega, by omega⟩
          · rintro ⟨_, v2, hv2, h3, h4⟩
            have hveq : v = v2 := Valu.vint.inj hv2
            refine ⟨by omega, fun hcon => ?_⟩
            exact absurd (hlt.mp (htake.1.mp hcon)) (by omega)
    · have hhead2 : (encValKey hash64 (.vstr sv)).headD 0 <
          (encValKey hash64 (.vint lv)).headD 0 := by
        rw [encValKey_headD, encValKey_headD]
        simp only [if_neg (by omega : ¬ (0:Int) ≤ lv)]
        split_ifs <;> omega
      have htlt : (encValKey hash64 (.vstr sv) ++ msgenpackInt r.tstamp).take
          (encValKey hash64 (.vint lv)).length < encValKey hash64 (.vint lv) :=
        take_lt_of_head_lt (encValKey_ne_nil hash64 _) (encValKey_ne_nil hash64 _)
          hhead2 (by
            have := List.length_pos.mpr (encValKey_ne_nil hash64 (Valu.vint lv))
            omega)
      rcases rc with _ | _
      · simp only [Bool.false_eq_true, if_false]
        rw [hstrip2]
        constructor
        · rintro ⟨_, h2⟩
          exact absurd (le_of_lt htlt) h2
        · rintro ⟨_, v2, hv2, _, _⟩
          exact Valu.noConfusion hv2
      · simp only [if_true]
        rw [hstrip]
        constructor
        · rintro ⟨_, h2⟩
          exact absurd htlt h2
        · rintro ⟨_, v2, hv2, _, _⟩
          exact Valu.noConfusion hv2
  · have hn1 : isInit (msgenpackStr r.prop) (msgenpackStr qp) = false := by
      rcases h : isInit (msgenpackStr r.prop) (msgenpackStr qp) with _ | _
      · rfl
      · exact absurd (msgenpackStr_init hrp hp65 h) hne
    have hn2 : isInit (msgenpackStr qp) (msgenpackStr r.prop) = false := by
      rcases h : isInit (msgenpackStr qp) (msgenpackStr r.prop) with _ | _
      · rfl
      · exact absurd (msgenpackStr_init hp65 hrp h).symm hne
    have hkf := lt_append_append_of_notInit _ _ hn1 hn2
      (encValKey hash64 r.valu ++ msgenpackInt r.tstamp) (encValKey hash64 (.vint fv))
    have hni2 := notInit_str_strApp hrp hp65 hne (u := encValKey hash64 (.vint lv))
    have htk := take_lt_of_notInit _ _ hni2.1 hni2.2
      (encValKey hash64 r.valu ++ msgenpackInt r.tstamp)
    have hpe1 : msgenpackStr r.prop < msgenpackStr qp ++ encValKey hash64 (.vint lv) ↔
        msgenpackStr r.prop < msgenpackStr qp := by
      have h1 := lt_append_append_of_notInit _ _ hn1 hn2 []
        (encValKey hash64 (.vint lv))
      rw [List.append_nil] at h1
      exact h1
    have hpe2 : msgenpackStr qp ++ encValKey hash64 (.vint lv) < msgenpackStr r.prop ↔
        msgenpackStr qp < msgenpackStr r.prop := by
      have h1 := lt_append_append_of_notInit _ _ hn2 hn1
        (encValKey hash64 (.vint lv)) []
      rw [List.append_nil] at h1
      exact h1
    constructor
    · rintro ⟨h1, h2⟩
      rw [hkf] at h1
      exfalso
      rcases rc with _ | _
      · simp only [Bool.false_eq_true, if_false] at h2
        have h3 := not_le.mp h2
        rw [htk.2, hpe2] at h3
        rcases lt_trichotomy (msgenpackStr r.prop) (msgenpackStr qp) with h4 | h4 | h4
        · exact absurd h4 (lt_asymm h3)
        · exact hne h4
        · exact absurd h1 (lt_asymm h4)
      · simp only [if_true] at h2
        rw [htk.1, hpe1] at h2
        exact h2 h1
    · rintro ⟨hpp, _⟩
      exact absurd (congrArg msgenpackStr hpp) hne

theorem matchesRangeQ_iff (qp : Bytes) (fv lv : Int) (rc : Bool) (pr : Nat × Row) :
    matchesRangeQ qp fv lv rc pr = true ↔
    (pr.2.prop = qp ∧ ∃ v, pr.2.valu = .vint v ∧ fv ≤ v ∧
      (if rc then v ≤ lv else v < lv)) := by
  unfold matchesRangeQ
  rcases hval : pr.2.valu with v | sv
  · simp only [Bool.and_eq_true, beq_iff_eq, decide_eq_true_eq]
    constructor
    · rintro ⟨h1, h2, h3⟩
      refine ⟨h1, v, rfl, h2, ?_⟩
      rcases rc with _ | _
      · simp only [Bool.false_eq_true, if_false] at h3 ⊢
        exact of_decide_eq_true h3
      · simp only [if_true] at h3 ⊢
        exact of_decide_eq_true h3
    · rintro ⟨h1, v2, hv2, h3, h4⟩
      have hveq : v = v2 := Valu.vint.inj hv2
      refine ⟨h1, by omega, ?_⟩
      rcases rc with _ | _
      · simp only [Bool.false_eq_true, if_false] at h4 ⊢
        exact decide_eq_true (by omega)
      · simp only [if_true] at h4 ⊢
        exact decide_eq_true (by omega)
  · simp only [Bool.and_false, Bool.false_eq_true, false_iff, not_and]
    rintro _ ⟨v2, hv2, _⟩
    exact Valu.noConfusion hv2

/-- Shared window analysis of a forward pvt scan: the processed slice as
an in-order filter of the table, its permutation with the matching rows,
and fetchability. -/
theorem pvt_window_spec {hash64 : Bytes → Nat} {st : DbState} (hwf : WF hash64 st)
    {fk : Bytes} {p : Ent → Bool}
    (hpdc : ∀ a b : Ent, entLe a b = true → p b = true → p a = true)
    {mq : Nat × Row → Bool}
    (hiff : ∀ pr ∈ st.rows,
      (p (pvtEntry hash64 pr) && !(bLt (pvtEntry hash64 pr).1 fk)) = mq pr)
    (hz : (p zeroSent && !(bLt zeroSent.1 fk)) = false)
    (hm : (p maxSent && !(bLt maxSent.1 fk)) = false) :
    ((st.pvt.dropWhile (fun e => bLt e.1 fk)).takeWhile p) =
      st.pvt.filter (fun e => p e && !(bLt e.1 fk)) ∧
    ((st.pvt.dropWhile (fun e => bLt e.1 fk)).takeWhile p).Perm
      ((st.rows.filter mq).map (pvtEntry hash64)) ∧
    (∀ e ∈ (st.pvt.dropWhile (fun e => bLt e.1 fk)).takeWhile p,
      (fetchRow st e).isSome) := by
  have hsorted : List.Pairwise entR st.pvt := by
    rw [hwf.1]
    exact sortEnts_sorted _
  have heq := @scan_slice_eq_filter_gen p fk st.pvt hsorted hpdc
  have hperm0 := @table_slice_perm_gen p fk [zeroSent, maxSent] _ _ hwf.1 hpdc (fun e he => by
    rcases List.mem_cons.mp he with rfl | he2
    · exact hz
    · rcases List.mem_cons.mp he2 with rfl | he3
      · exact hm
      · exact absurd he3 (List.not_mem_nil _))
  have hfm : (st.rows.map (pvtEntry hash64)).filter
        (fun e => p e && !(bLt e.1 fk)) =
      (st.rows.filter mq).map (pvtEntry hash64) := by
    rw [List.filter_map]
    congr 1
    refine List.filter_congr ?_
    intro pr hmm
    exact hiff pr hmm
  rw [hfm] at hperm0
  refine ⟨heq, hperm0, ?_⟩
  intro e he
  obtain ⟨pr, hpr, rfl⟩ := List.mem_map.mp (hperm0.mem_iff.mp he)
  simp only [pvtEntry]
  rw [fetchRow_entry hwf (List.mem_of_mem_filter hpr)]
  rfl

/-- Evaluation of `_subrangeRows` down to its branches (definitional). -/
theorem subrangeRows_eval (hash64 : Bytes → Nat) (st : DbState) (pe : Bytes)
    (fv lv : Int) (lim : Option Int) (rc : Bool) :
    subrangeRows hash64 st pe fv lv lim rc =
      (match (setRange st.pvt (pe ++ encValKey hash64 (.vint fv))).2 with
       | [] => .error .inconsistent
       | e0 :: _ =>
         if fv < 0 then
           (if bLt (pe ++ encValKey hash64 (.vint fv))
               (e0.1.take (pe ++ encValKey hash64 (.vint fv)).length) then
             match (setRange st.pvt (pe ++ encValKey hash64 (.vint fv))).1 with
             | [] => .error .inconsistent
             | pre => subRowsF st (pe ++ encValKey hash64 (.vint lv))
                 (if rc then bLt else bLe) lim pre.reverse 0 []
           else subRowsF st (pe ++ encValKey hash64 (.vint lv))
               (if rc then bLt else bLe) lim
               (((setRange st.pvt (pe ++ encValKey hash64 (.vint fv))).1 ++
                 [e0]).reverse) 0 [])
         else subRowsF st (pe ++ encValKey hash64 (.vint lv))
             (if rc then (fun a b => bLt b a) else (fun a b => bLe b a)) lim
             (setRange st.pvt (pe ++ encValKey hash64 (.vint fv))).2 0 []) := rfl

/-- Forward subrange scan (0 ≤ first_val ≤ last_val): succeeds, returns a
permutation of the rows matching the window, in ascending value order,
every returned row carrying the property and an in-window integer value. -/
theorem subrangeRows_fwd {hash64 : Bytes → Nat} {st : DbState} {qp : Bytes}
    {fv lv : Int} (rc : Bool) (hwf : WF hash64 st) (hp : qp.length ≤ MAX_PROP_LEN)
    (hfv0 : 0 ≤ fv) (hfl : fv ≤ lv) (hlv : lv ≤ MAX_INT_VAL) :
    ∃ L, subrangeRows hash64 st (msgenpackStr qp) fv lv none rc = .ok L ∧
      L.Perm ((st.rows.filter (matchesRangeQ qp fv lv rc)).map Prod.snd) ∧
      L.Pairwise (fun r1 r2 => vintOf r1 ≤ vintOf r2) ∧
      (∀ r ∈ L, r.prop = qp ∧ ∃ v, r.valu = .vint v ∧ fv ≤ v ∧
        (if rc then v ≤ lv else v < lv)) := by
  have hp65 : qp.length < 65536 := by
    unfold MAX_PROP_LEN at hp
    omega
  rcases rc with _ | _
  · simp only [Bool.false_eq_true, if_false]

    have hmaxmem : maxSent ∈ st.pvt := by
      rw [hwf.1]
      exact (sortEnts_perm _).mem_iff.mpr (by simp)
    have hfkmax : bLt maxSent.1 (msgenpackStr qp ++ encValKey hash64 (.vint fv)) = false := by
      rw [bLt_false_iff]
      exact lt_asymm (propKey_lt_max qp _)
    have hsufne : st.pvt.dropWhile (fun e => bLt e.1 (msgenpackStr qp ++ encValKey hash64 (.vint fv))) ≠ [] :=
      List.ne_nil_of_mem (mem_dropWhile_of_not hmaxmem hfkmax)
    have hlkne : (msgenpackStr qp ++ encValKey hash64 (.vint lv)) ≠ [] := fun h =>
      msgenpackStr_ne_nil qp (List.append_eq_nil.mp h).1
    have hpdc : ∀ a b : Ent, entLe a b = true →
        (!(bLe (msgenpackStr qp ++ encValKey hash64 (.vint lv)) (b.1.take ((msgenpackStr qp ++ encValKey hash64 (.vint lv))).length))) = true →
        (!(bLe (msgenpackStr qp ++ encValKey hash64 (.vint lv)) (a.1.take ((msgenpackStr qp ++ encValKey hash64 (.vint lv))).length))) = true := by
      intro a b hab hb
      rw [Bool.not_eq_true', bLe_false_iff] at hb ⊢
      intro hcmp
      exact hb (le_trans hcmp (take_le_take _ _ _ (entLe_key_le hab)))
    have hz : ((!(bLe (msgenpackStr qp ++ encValKey hash64 (.vint lv)) (zeroSent.1.take ((msgenpackStr qp ++ encValKey hash64 (.vint lv))).length))) &&
        !(bLt zeroSent.1 (msgenpackStr qp ++ encValKey hash64 (.vint fv)))) = false := by
      have h0 : bLt (zeroSent.1) (msgenpackStr qp ++ encValKey hash64 (.vint fv)) = true := by
        rw [bLt_iff]
        exact zero_lt_propKey qp _
      rw [h0]
      simp
    have hm : ((!(bLe (msgenpackStr qp ++ encValKey hash64 (.vint lv)) (maxSent.1.take ((msgenpackStr qp ++ encValKey hash64 (.vint lv))).length))) &&
        !(bLt maxSent.1 (msgenpackStr qp ++ encValKey hash64 (.vint fv)))) = false := by
      have h1 : (msgenpackStr qp ++ encValKey hash64 (.vint lv)) < maxSent.1.take ((msgenpackStr qp ++ encValKey hash64 (.vint lv))).length := by
        rw [show maxSent.1 = [255] ++ List.replicate 19 255 from rfl]
        refine lt_take_of_head_lt (by simp) hlkne ?_ ?_
        · rw [headD_append_of_ne_nil (msgenpackStr_ne_nil qp)]
          have := msgenpackStr_headD_ub qp
          simp only [List.headD_cons]
          omega
        · have := List.length_pos.mpr hlkne
          omega
      have h2 : bLe (msgenpackStr qp ++ encValKey hash64 (.vint lv)) (maxSent.1.take ((msgenpackStr qp ++ encValKey hash64 (.vint lv))).length) = true := by
        rw [bLe_iff]
        exact le_of_lt h1
      rw [h2]
      simp
    have hiff : ∀ pr ∈ st.rows,
        ((!(bLe (msgenpackStr qp ++ encValKey hash64 (.vint lv)) ((pvtEntry hash64 pr).1.take ((msgenpackStr qp ++ encValKey hash64 (.vint lv))).length))) &&
          !(bLt (pvtEntry hash64 pr).1 (msgenpackStr qp ++ encValKey hash64 (.vint fv)))) =
        matchesRangeQ qp fv lv false pr := by
      intro pr hmm
      have hro : rowOk pr.2 := (hwf.2.2.2.2 pr hmm).2.2
      have hrp : pr.2.prop.length < 65536 := by
        have h1 := hro.2.1
        unfold MAX_PROP_LEN at h1
        omega
      rw [Bool.eq_iff_iff, matchesRangeQ_iff]
      simp only [pvtEntry, Bool.and_eq_true, Bool.not_eq_true', bLe_false_iff,
        bLt_false_iff]
      have hk := subKeyF_iff hash64 hp65 false hfv0 hfl hlv pr.2 hro hrp
      simp only [Bool.false_eq_true, if_false] at hk ⊢
      rw [← hk]
      constructor
      · rintro ⟨h1, h2⟩
        exact ⟨h2, h1⟩
      · rintro ⟨h1, h2⟩
        exact ⟨h2, h1⟩
    obtain ⟨heq, hperm, hsome⟩ := pvt_window_spec hwf hpdc hiff hz hm
    rw [subrangeRows_eval]
    have hset : (setRange st.pvt (msgenpackStr qp ++ encValKey hash64 (.vint fv))).2 =
        st.pvt.dropWhile (fun e => bLt e.1 (msgenpackStr qp ++ encValKey hash64 (.vint fv))) := by
      unfold setRange
      rw [List.span_eq_take_drop]
    obtain ⟨e0, rest, hsuf⟩ := List.exists_cons_of_ne_nil hsufne
    rw [hset, hsuf]
    dsimp only []
    rw [if_neg (by omega : ¬ fv < 0)]
    simp only [Bool.false_eq_true, if_false]
    rw [hsuf] at heq hperm hsome
    have hspec := @subRowsF_spec st (msgenpackStr qp ++ encValKey hash64 (.vint lv)) (fun a b => bLe b a) (e0 :: rest) 0 []
      hsome
    refine ⟨_, hspec, ?_, ?_, ?_⟩
    · simp only [List.nil_append]
      refine (hperm.filterMap (fetchRow st)).trans ?_
      rw [List.filterMap_map]
      have hfm2 : (st.rows.filter (matchesRangeQ qp fv lv false)).filterMap
          (fetchRow st ∘ pvtEntry hash64) =
          (st.rows.filter (matchesRangeQ qp fv lv false)).map Prod.snd := by
        refine filterMap_eq_map_of_some ?_
        intro pr hmm
        simp only [Function.comp, pvtEntry]
        exact fetchRow_entry hwf (List.mem_of_mem_filter hmm)
      rw [hfm2]
    · simp only [List.nil_append]
      rw [heq]
      have hent : ∀ e ∈ st.pvt.filter (fun e =>
          (!(bLe (msgenpackStr qp ++ encValKey hash64 (.vint lv)) (e.1.take ((msgenpackStr qp ++ encValKey hash64 (.vint lv))).length))) && !(bLt e.1 (msgenpackStr qp ++ encValKey hash64 (.vint fv)))),
          ∃ pr, pr ∈ st.rows ∧ e = pvtEntry hash64 pr ∧
            matchesRangeQ qp fv lv false pr = true := by
        intro e he
        have hq := List.of_mem_filter he
        have hmem := List.mem_of_mem_filter he
        rw [hwf.1] at hmem
        have hmem2 := (sortEnts_perm _).mem_iff.mp hmem
        rcases List.mem_append.mp hmem2 with hs | hr2
        · exfalso
          rcases List.mem_cons.mp hs with rfl | hs2
          · rw [hz] at hq
            exact Bool.noConfusion hq
          · rcases List.mem_cons.mp hs2 with rfl | hs3
            · rw [hm] at hq
              exact Bool.noConfusion hq
            · exact absurd hs3 (List.not_mem_nil _)
        · obtain ⟨pr, hpr, rfl⟩ := List.mem_map.mp hr2
          refine ⟨pr, hpr, rfl, ?_⟩
          rw [← hiff pr hpr]
          exact hq
      have hsorted : List.Pairwise entR st.pvt := by
        rw [hwf.1]
        exact sortEnts_sorted _
      have h1 : List.Pairwise entR (st.pvt.filter (fun e =>
          (!(bLe (msgenpackStr qp ++ encValKey hash64 (.vint lv)) (e.1.take ((msgenpackStr qp ++ encValKey hash64 (.vint lv))).length))) && !(bLt e.1 (msgenpackStr qp ++ encValKey hash64 (.vint fv))))) :=
        hsorted.sublist (List.filter_sublist _)
      have h2 := List.Pairwise.and_mem.mp h1
      refine List.Pairwise.filterMap (fetchRow st) ?_ h2
      rintro a b ⟨hamem, hbmem, hab⟩ r1 hr1 r2 hr2
      obtain ⟨pra, hpra, rfl, hqa⟩ := hent a hamem
      obtain ⟨prb, hprb, rfl, hqb⟩ := hent b hbmem
      have hfa : fetchRow st (pvtEntry hash64 pra) = some pra.2 := by
        simp only [pvtEntry]
        exact fetchRow_entry hwf hpra
      have hfb : fetchRow st (pvtEntry hash64 prb) = some prb.2 := by
        simp only [pvtEntry]
        exact fetchRow_entry hwf hprb
      have hr1e : r1 = pra.2 := by
        have := Option.mem_def.mp hr1
        rw [hfa] at this
        exact (Option.some.inj this).symm
      have hr2e : r2 = prb.2 := by
        have := Option.mem_def.mp hr2
        rw [hfb] at this
        exact (Option.some.inj this).symm
      obtain ⟨hpa, va, hva, hva1, hva2⟩ := (matchesRangeQ_iff _ _ _ _ _).mp hqa
      obtain ⟨hpb, vb, hvb, hvb1, hvb2⟩ := (matchesRangeQ_iff _ _ _ _ _).mp hqb
      have hroa : rowOk pra.2 := (hwf.2.2.2.2 pra hpra).2.2
      have hrob : rowOk prb.2 := (hwf.2.2.2.2 prb hprb).2.2
      have hvaM : va ≤ MAX_INT_VAL := by
        have h3 := hroa.2.2.1
        rw [hva] at h3
        exact h3.2
      have hvbM : vb ≤ MAX_INT_VAL := by
        have h3 := hrob.2.2.1
        rw [hvb] at h3
        exact h3.2
      have hv1 : vintOf r1 = va := by
        rw [hr1e]
        unfold vintOf
        rw [hva]
      have hv2 : vintOf r2 = vb := by
        rw [hr2e]
        unfold vintOf
        rw [hvb]
      rw [hv1, hv2]
      by_contra hcon
      push_neg at hcon
      have henc : encValKey hash64 (.vint vb) < encValKey hash64 (.vint va) :=
        (encValKey_vint_lt_iff_nonneg hash64 (by omega) (by omega) hvbM hvaM).mpr hcon
      have hne2 : encValKey hash64 (.vint vb) ≠ encValKey hash64 (.vint va) :=
        ne_of_lt henc
      have hkb : pvtKeyOf hash64 prb.2 < pvtKeyOf hash64 pra.2 := by
        unfold pvtKeyOf
        rw [hpa, hpb, hva, hvb, List.append_assoc, List.append_assoc,
          append_lt_append_left]
        exact (lt_append_append_of_notInit _ _ (notInit_encValKey hash64 hne2)
          (notInit_encValKey hash64 (Ne.symm hne2)) _ _).mpr henc
      have hkey := entLe_key_le hab
      exact absurd hkb (not_lt.mpr hkey)
    · intro r hr
      simp only [List.nil_append] at hr
      have hr2 := ((hperm.filterMap (fetchRow st)).mem_iff).mp hr
      rw [List.filterMap_map] at hr2
      have hfm2 : (st.rows.filter (matchesRangeQ qp fv lv false)).filterMap
          (fetchRow st ∘ pvtEntry hash64) =
          (st.rows.filter (matchesRangeQ qp fv lv false)).map Prod.snd := by
        refine filterMap_eq_map_of_some ?_
        intro pr hmm
        simp only [Function.comp, pvtEntry]
        exact fetchRow_entry hwf (List.mem_of_mem_filter hmm)
      rw [hfm2] at hr2
      obtain ⟨pr, hpr, rfl⟩ := List.mem_map.mp hr2
      have hq := List.of_mem_filter hpr
      obtain ⟨hpa, va, hva, hva1, hva2⟩ := (matchesRangeQ_iff _ _ _ _ _).mp hq
      exact ⟨hpa, va, hva, hva1, hva2⟩
  · simp only [if_true]

    have hmaxmem : maxSent ∈ st.pvt := by
      rw [hwf.1]
      exact (sortEnts_perm _).mem_iff.mpr (by simp)
    have hfkmax : bLt maxSent.1 (msgenpackStr qp ++ encValKey hash64 (.vint fv)) = false := by
      rw [bLt_false_iff]
      exact lt_asymm (propKey_lt_max qp _)
    have hsufne : st.pvt.dropWhile (fun e => bLt e.1 (msgenpackStr qp ++ encValKey hash64 (.vint fv))) ≠ [] :=
      List.ne_nil_of_mem (mem_dropWhile_of_not hmaxmem hfkmax)
    have hlkne : (msgenpackStr qp ++ encValKey hash64 (.vint lv)) ≠ [] := fun h =>
      msgenpackStr_ne_nil qp (List.append_eq_nil.mp h).1
    have hpdc : ∀ a b : Ent, entLe a b = true →
        (!(bLt (msgenpackStr qp ++ encValKey hash64 (.vint lv)) (b.1.take ((msgenpackStr qp ++ encValKey hash64 (.vint lv))).length))) = true →
        (!(bLt (msgenpackStr qp ++ encValKey hash64 (.vint lv)) (a.1.take ((msgenpackStr qp ++ encValKey hash64 (.vint lv))).length))) = true := by
      intro a b hab hb
      rw [Bool.not_eq_true', bLt_false_iff] at hb ⊢
      intro hcmp
      exact hb (lt_of_lt_of_le hcmp (take_le_take _ _ _ (entLe_key_le hab)))
    have hz : ((!(bLt (msgenpackStr qp ++ encValKey hash64 (.vint lv)) (zeroSent.1.take ((msgenpackStr qp ++ encValKey hash64 (.vint lv))).length))) &&
        !(bLt zeroSent.1 (msgenpackStr qp ++ encValKey hash64 (.vint fv)))) = false := by
      have h0 : bLt (zeroSent.1) (msgenpackStr qp ++ encValKey hash64 (.vint fv)) = true := by
        rw [bLt_iff]
        exact zero_lt_propKey qp _
      rw [h0]
      simp
    have hm : ((!(bLt (msgenpackStr qp ++ encValKey hash64 (.vint lv)) (maxSent.1.take ((msgenpackStr qp ++ encValKey hash64 (.vint lv))).length))) &&
        !(bLt maxSent.1 (msgenpackStr qp ++ encValKey hash64 (.vint fv)))) = false := by
      have h1 : (msgenpackStr qp ++ encValKey hash64 (.vint lv)) < maxSent.1.take ((msgenpackStr qp ++ encValKey hash64 (.vint lv))).length := by
        rw [show maxSent.1 = [255] ++ List.replicate 19 255 from rfl]
        refine lt_take_of_head_lt (by simp) hlkne ?_ ?_
        · rw [headD_append_of_ne_nil (msgenpackStr_ne_nil qp)]
          have := msgenpackStr_headD_ub qp
          simp only [List.headD_cons]
          omega
        · have := List.length_pos.mpr hlkne
          omega
      have h2 : bLt (msgenpackStr qp ++ encValKey hash64 (.vint lv)) (maxSent.1.take ((msgenpackStr qp ++ encValKey hash64 (.vint lv))).length) = true := by
        rw [bLt_iff]
        exact id h1
      rw [h2]
      simp
    have hiff : ∀ pr ∈ st.rows,
        ((!(bLt (msgenpackStr qp ++ encValKey hash64 (.vint lv)) ((pvtEntry hash64 pr).1.take ((msgenpackStr qp ++ encValKey hash64 (.vint lv))).length))) &&
          !(bLt (pvtEntry hash64 pr).1 (msgenpackStr qp ++ encValKey hash64 (.vint fv)))) =
        matchesRangeQ qp fv lv true pr := by
      intro pr hmm
      have hro : rowOk pr.2 := (hwf.2.2.2.2 pr hmm).2.2
      have hrp : pr.2.prop.length < 65536 := by
        have h1 := hro.2.1
        unfold MAX_PROP_LEN at h1
        omega
      rw [Bool.eq_iff_iff, matchesRangeQ_iff]
      simp only [pvtEntry, Bool.and_eq_true, Bool.not_eq_true', bLt_false_iff,
        bLt_false_iff]
      have hk := subKeyF_iff hash64 hp65 true hfv0 hfl hlv pr.2 hro hrp
      simp only [if_true] at hk ⊢
      rw [← hk]
      constructor
      · rintro ⟨h1, h2⟩
        exact ⟨h2, h1⟩
      · rintro ⟨h1, h2⟩
        exact ⟨h2, h1⟩
    obtain ⟨heq, hperm, hsome⟩ := pvt_window_spec hwf hpdc hiff hz hm
    rw [subrangeRows_eval]
    have hset : (setRange st.pvt (msgenpackStr qp ++ encValKey hash64 (.vint fv))).2 =
        st.pvt.dropWhile (fun e => bLt e.1 (msgenpackStr qp ++ encValKey hash64 (.vint fv))) := by
      unfold setRange
      rw [List.span_eq_take_drop]
    obtain ⟨e0, rest, hsuf⟩ := List.exists_cons_of_ne_nil hsufne
    rw [hset, hsuf]
    dsimp only []
    rw [if_neg (by omega : ¬ fv < 0)]
    simp only [if_true]
    rw [hsuf] at heq hperm hsome
    have hspec := @subRowsF_spec st (msgenpackStr qp ++ encValKey hash64 (.vint lv)) (fun a b => bLt b a) (e0 :: rest) 0 []
      hsome
    refine ⟨_, hspec, ?_, ?_, ?_⟩
    · simp only [List.nil_append]
      refine (hperm.filterMap (fetchRow st)).trans ?_
      rw [List.filterMap_map]
      have hfm2 : (st.rows.filter (matchesRangeQ qp fv lv true)).filterMap
          (fetchRow st ∘ pvtEntry hash64) =
          (st.rows.filter (matchesRangeQ qp fv lv true)).map Prod.snd := by
        refine filterMap_eq_map_of_some ?_
        intro pr hmm
        simp only [Function.comp, pvtEntry]
        exact fetchRow_entry hwf (List.mem_of_mem_filter hmm)
      rw [hfm2]
    · simp only [List.nil_append]
      rw [heq]
      have hent : ∀ e ∈ st.pvt.filter (fun e =>
          (!(bLt (msgenpackStr qp ++ encValKey hash64 (.vint lv)) (e.1.take ((msgenpackStr qp ++ encValKey hash64 (.vint lv))).length))) && !(bLt e.1 (msgenpackStr qp ++ encValKey hash64 (.vint fv)))),
          ∃ pr, pr ∈ st.rows ∧ e = pvtEntry hash64 pr ∧
            matchesRangeQ qp fv lv true pr = true := by
        intro e he
        have hq := List.of_mem_filter he
        have hmem := List.mem_of_mem_filter he
        rw [hwf.1] at hmem
        have hmem2 := (sortEnts_perm _).mem_iff.mp hmem
        rcases List.mem_append.mp hmem2 with hs | hr2
        · exfalso
          rcases List.mem_cons.mp hs with rfl | hs2
          · rw [hz] at hq
            exact Bool.noConfusion hq
          · rcases List.mem_cons.mp hs2 with rfl | hs3
            · rw [hm] at hq
              exact Bool.noConfusion hq
            · exact absurd hs3 (List.not_mem_nil _)
        · obtain ⟨pr, hpr, rfl⟩ := List.mem_map.mp hr2
          refine ⟨pr, hpr, rfl, ?_⟩
          rw [← hiff pr hpr]
          exact hq
      have hsorted : List.Pairwise entR st.pvt := by
        rw [hwf.1]
        exact sortEnts_sorted _
      have h1 : List.Pairwise entR (st.pvt.filter (fun e =>
          (!(bLt (msgenpackStr qp ++ encValKey hash64 (.vint lv)) (e.1.take ((msgenpackStr qp ++ encValKey hash64 (.vint lv))).length))) && !(bLt e.1 (msgenpackStr qp ++ encValKey hash64 (.vint fv))))) :=
        hsorted.sublist (List.filter_sublist _)
      have h2 := List.Pairwise.and_mem.mp h1
      refine List.Pairwise.filterMap (fetchRow st) ?_ h2
      rintro a b ⟨hamem, hbmem, hab⟩ r1 hr1 r2 hr2
      obtain ⟨pra, hpra, rfl, hqa⟩ := hent a hamem
      obtain ⟨prb, hprb, rfl, hqb⟩ := hent b hbmem
      have hfa : fetchRow st (pvtEntry hash64 pra) = some pra.2 := by
        simp only [pvtEntry]
        exact fetchRow_entry hwf hpra
      have hfb : fetchRow st (pvtEntry hash64 prb) = some prb.2 := by
        simp only [pvtEntry]
        exact fetchRow_entry hwf hprb
      have hr1e : r1 = pra.2 := by
        have := Option.mem_def.mp hr1
        rw [hfa] at this
        exact (Option.some.inj this).symm
      have hr2e : r2 = prb.2 := by
        have := Option.mem_def.mp hr2
        rw [hfb] at this
        exact (Option.some.inj this).symm
      obtain ⟨hpa, va, hva, hva1, hva2⟩ := (matchesRangeQ_iff _ _ _ _ _).mp hqa
      obtain ⟨hpb, vb, hvb, hvb1, hvb2⟩ := (matchesRangeQ_iff _ _ _ _ _).mp hqb
      have hroa : rowOk pra.2 := (hwf.2.2.2.2 pra hpra).2.2
      have hrob : rowOk prb.2 := (hwf.2.2.2.2 prb hprb).2.2
      have hvaM : va ≤ MAX_INT_VAL := by
        have h3 := hroa.2.2.1
        rw [hva] at h3
        exact h3.2
      have hvbM : vb ≤ MAX_INT_VAL := by
        have h3 := hrob.2.2.1
        rw [hvb] at h3
        exact h3.2
      have hv1 : vintOf r1 = va := by
        rw [hr1e]
        unfold vintOf
        rw [hva]
      have hv2 : vintOf r2 = vb := by
        rw [hr2e]
        unfold vintOf
        rw [hvb]
      rw [hv1, hv2]
      by_contra hcon
      push_neg at hcon
      have henc : encValKey hash64 (.vint vb) < encValKey hash64 (.vint va) :=
        (encValKey_vint_lt_iff_nonneg hash64 (by omega) (by omega) hvbM hvaM).mpr hcon
      have hne2 : encValKey hash64 (.vint vb) ≠ encValKey hash64 (.vint va) :=
        ne_of_lt henc
      have hkb : pvtKeyOf hash64 prb.2 < pvtKeyOf hash64 pra.2 := by
        unfold pvtKeyOf
        rw [hpa, hpb, hva, hvb, List.append_assoc, List.append_assoc,
          append_lt_append_left]
        exact (lt_append_append_of_notInit _ _ (notInit_encValKey hash64 hne2)
          (notInit_encValKey hash64 (Ne.symm hne2)) _ _).mpr henc
      have hkey := entLe_key_le hab
      exact absurd hkb (not_lt.mpr hkey)
    · intro r hr
      simp only [List.nil_append] at hr
      have hr2 := ((hperm.filterMap (fetchRow st)).mem_iff).mp hr
      rw [List.filterMap_map] at hr2
      have hfm2 : (st.rows.filter (matchesRangeQ qp fv lv true)).filterMap
          (fetchRow st ∘ pvtEntry hash64) =
          (st.rows.filter (matchesRangeQ qp fv lv true)).map Prod.snd := by
        refine filterMap_eq_map_of_some ?_
        intro pr hmm
        simp only [Function.comp, pvtEntry]
        exact fetchRow_entry hwf (List.mem_of_mem_filter hmm)
      rw [hfm2] at hr2
      obtain ⟨pr, hpr, rfl⟩ := List.mem_map.mp hr2
      have hq := List.of_mem_filter hpr
      obtain ⟨hpa, va, hva, hva1, hva2⟩ := (matchesRangeQ_iff _ _ _ _ _).mp hq
      exact ⟨hpa, va, hva, hva1, hva2⟩

/-- Disjoint filters: filtering by a disjunction splits, up to
permutation, into the two filters. -/
theorem filter_or_perm {a b : Nat × Row → Bool} :
    ∀ {l : List (Nat × Row)}, (∀ x ∈ l, ¬(a x = true ∧ b x = true)) →
      (l.filter (fun x => a x || b x)).Perm (l.filter a ++ l.filter b)
  | [], _ => List.Perm.refl _
  | x :: t, h => by
    have ih := filter_or_perm (fun y hy => h y (List.mem_cons_of_mem _ hy))
    rw [List.filter_cons, List.filter_cons, List.filter_cons]
    rcases hax : a x with _ | _ <;> rcases hbx : b x with _ | _
    · simp only [Bool.or_self, Bool.false_eq_true, if_false]
      exact ih
    · simp only [Bool.false_or, hbx, if_true, Bool.false_eq_true, if_false]
      refine (ih.cons x).trans ?_
      exact (List.perm_middle).symm
    · simp only [Bool.true_or, if_true, Bool.false_eq_true, if_false]
      rw [List.cons_append]
      exact ih.cons x
    · exact absurd ⟨hax, hbx⟩ (h x (List.mem_cons_self _ _))

theorem eq_singleton_of_length_le_one {l : List (Nat × Row)} {x : Nat × Row}
    (hm : x ∈ l) (hl : l.length ≤ 1) : l = [x] := by
  cases l with
  | nil => exact absurd hm (List.not_mem_nil _)
  | cons y t =>
    cases t with
    | nil =>
      rcases List.mem_cons.mp hm with rfl | h2
      · rfl
      · exact absurd h2 (List.not_mem_nil _)
    | cons z t2 => simp at hl

/-- Pre-slice analysis of a backward pvt scan: the entries strictly below
first_key surviving the terminator, reversed, with their row content. -/
theorem pvt_pre_spec {hash64 : Bytes → Nat} {st : DbState} (hwf : WF hash64 st)
    {fk : Bytes} {p : Ent → Bool}
    (hup : ∀ a b : Ent, entLe a b = true → p a = true → p b = true)
    {mq : Nat × Row → Bool}
    (hiff : ∀ pr ∈ st.rows,
      (p (pvtEntry hash64 pr) && bLt (pvtEntry hash64 pr).1 fk) = mq pr)
    (hz : (p zeroSent && bLt zeroSent.1 fk) = false)
    (hm : (p maxSent && bLt maxSent.1 fk) = false) :
    (st.pvt.takeWhile (fun e => bLt e.1 fk)).reverse.takeWhile p =
      (st.pvt.filter (fun e => p e && bLt e.1 fk)).reverse ∧
    (st.pvt.filter (fun e => p e && bLt e.1 fk)).Perm
      ((st.rows.filter mq).map (pvtEntry hash64)) ∧
    (∀ e ∈ st.pvt.filter (fun e => p e && bLt e.1 fk),
      ∃ pr, pr ∈ st.rows ∧ e = pvtEntry hash64 pr ∧ mq pr = true) := by
  have hsorted : List.Pairwise entR st.pvt := by
    rw [hwf.1]
    exact sortEnts_sorted _
  have hdown : ∀ a b : Ent, entLe a b = true → bLt b.1 fk = true →
      bLt a.1 fk = true := by
    intro a b hab hb
    rw [bLt_iff] at hb ⊢
    exact lt_of_le_of_lt (entLe_key_le hab) hb
  have htwf : st.pvt.takeWhile (fun e => bLt e.1 fk) =
      st.pvt.filter (fun e => bLt e.1 fk) :=
    takeWhile_eq_filter_sorted hdown hsorted
  have hperm : (st.pvt.filter (fun e => p e && bLt e.1 fk)).Perm
      ((st.rows.filter mq).map (pvtEntry hash64)) := by
    have h1 : st.pvt.filter (fun e => p e && bLt e.1 fk) =
        (sortEnts ([zeroSent, maxSent] ++ st.rows.map (pvtEntry hash64))).filter
          (fun e => p e && bLt e.1 fk) := by rw [← hwf.1]
    rw [h1]
    refine ((sortEnts_perm _).filter _).trans ?_
    rw [List.filter_append]
    rw [List.filter_eq_nil_iff.mpr (fun e he hq2 => by
      rcases List.mem_cons.mp he with rfl | he2
      · rw [hz] at hq2
        exact Bool.noConfusion hq2
      · rcases List.mem_cons.mp he2 with rfl | he3
        · rw [hm] at hq2
          exact Bool.noConfusion hq2
        · exact absurd he3 (List.not_mem_nil _))]
    rw [List.nil_append, List.filter_map]
    have hcongr : List.filter ((fun e => p e && bLt e.1 fk) ∘ pvtEntry hash64)
        st.rows = List.filter mq st.rows :=
      List.filter_congr (fun pr hm2 => hiff pr hm2)
    rw [hcongr]
  refine ⟨?_, hperm, ?_⟩
  · rw [htwf]
    rw [reverse_takeWhile_sorted (hsorted.sublist (List.filter_sublist _)) hup]
    rw [List.filter_filter]
  · intro e he
    have hq := List.of_mem_filter he
    have hmem := List.mem_of_mem_filter he
    rw [hwf.1] at hmem
    have hmem2 := (sortEnts_perm _).mem_iff.mp hmem
    rcases List.mem_append.mp hmem2 with hs | hr2
    · exfalso
      rcases List.mem_cons.mp hs with rfl | hs2
      · rw [hz] at hq
        exact Bool.noConfusion hq
      · rcases List.mem_cons.mp hs2 with rfl | hs3
        · rw [hm] at hq
          exact Bool.noConfusion hq
        · exact absurd hs3 (List.not_mem_nil _)
    · obtain ⟨pr, hpr, rfl⟩ := List.mem_map.mp hr2
      refine ⟨pr, hpr, rfl, ?_⟩
      rw [← hiff pr hpr]
      exact hq

/-- An entry of a well-formed pvt table whose key extends
p_enc + enc(first_val), first_val < 0, is the index entry of a row with
that property and exactly that value. -/
theorem e0_of_init {hash64 : Bytes → Nat} {st : DbState} (hwf : WF hash64 st)
    {qp : Bytes} (hp65 : qp.length < 65536) {fv : Int}
    (hfv1 : MIN_INT_VAL ≤ fv) (hfv0 : fv < 0) {e0 : Ent} (hmem : e0 ∈ st.pvt)
    (hinit : isInit (msgenpackStr qp ++ encValKey hash64 (.vint fv)) e0.1 = true) :
    ∃ pr, pr ∈ st.rows ∧ e0 = pvtEntry hash64 pr ∧ pr.2.prop = qp ∧
      pr.2.valu = .vint fv := by
  rw [hwf.1] at hmem
  have hmem2 := (sortEnts_perm _).mem_iff.mp hmem
  have hfkhead : (msgenpackStr qp ++ encValKey hash64 (.vint fv)).headD 0 ≤ 218 := by
    rw [headD_append_of_ne_nil (msgenpackStr_ne_nil qp)]
    exact msgenpackStr_headD_ub qp
  rcases List.mem_append.mp hmem2 with hs | hr2
  · exfalso
    rcases List.mem_cons.mp hs with rfl | hs2
    · -- zeroSent: fk would be an initial segment of [0]
      obtain ⟨u, hu⟩ := (isInit_iff_exists _ _).mp hinit
      have h1 := congrArg List.length hu
      rw [List.length_append, List.length_append] at h1
      have h2 := List.length_pos.mpr (msgenpackStr_ne_nil qp)
      have h3 := List.length_pos.mpr (encValKey_ne_nil hash64 (Valu.vint fv))
      have h4 : zeroSent.1.length = 1 := rfl
      omega
    · rcases List.mem_cons.mp hs2 with rfl | hs3
      · -- maxSent: head 255 vs ≤ 218
        have h1 : maxSent.1 = 255 :: List.replicate 19 255 := rfl
        rw [headD_shape (show (msgenpackStr qp ++ encValKey hash64 (.vint fv)) ≠ []
          from fun h => msgenpackStr_ne_nil qp (List.append_eq_nil.mp h).1),
          h1] at hinit
        have := isInit_head hinit
        omega
      · exact absurd hs3 (List.not_mem_nil _)
  · obtain ⟨pr, hpr, rfl⟩ := List.mem_map.mp hr2
    have hro : rowOk pr.2 := (hwf.2.2.2.2 pr hpr).2.2
    have hrp : pr.2.prop.length < 65536 := by
      have h1 := hro.2.1
      unfold MAX_PROP_LEN at h1
      omega
    have hkey : (pvtEntry hash64 pr).1 = msgenpackStr pr.2.prop ++
        (encValKey hash64 pr.2.valu ++ msgenpackInt pr.2.tstamp) := by
      rw [show (pvtEntry hash64 pr).1 = pvtKeyOf hash64 pr.2 from rfl]
      unfold pvtKeyOf
      rw [List.append_assoc]
    rw [hkey] at hinit
    -- property encodings agree
    have hpe : msgenpackStr pr.2.prop = msgenpackStr qp := by
      have h1 : isInit (msgenpackStr qp)
          (msgenpackStr pr.2.prop ++
            (encValKey hash64 pr.2.valu ++ msgenpackInt pr.2.tstamp)) = true := by
        refine isInit_trans ?_ hinit
        exact isInit_of_append _ _
      have h2 : isInit (msgenpackStr pr.2.prop)
          (msgenpackStr pr.2.prop ++
            (encValKey hash64 pr.2.valu ++ msgenpackInt pr.2.tstamp)) = true :=
        isInit_of_append _ _
      rcases isInit_comparable h1 h2 with h3 | h3
      · exact (msgenpackStr_init hp65 hrp h3).symm
      · exact msgenpackStr_init hrp hp65 h3
    rw [hpe] at hinit
    have hev : encValKey hash64 pr.2.valu = encValKey hash64 (.vint fv) := by
      have h1 := isInit_append_same_length rfl hinit
      have h2 : isInit (encValKey hash64 (.vint fv))
          (encValKey hash64 pr.2.valu ++ msgenpackInt pr.2.tstamp) = true := h1.2
      have h3 : isInit (encValKey hash64 pr.2.valu)
          (encValKey hash64 pr.2.valu ++ msgenpackInt pr.2.tstamp) = true :=
        isInit_of_append _ _
      rcases isInit_comparable h2 h3 with h4 | h4
      · exact (encValKey_init hash64 h4).symm
      · exact encValKey_init hash64 h4
    refine ⟨pr, hpr, rfl, msgenpackStr_inj hpe, ?_⟩
    rcases hval : pr.2.valu with v | sv
    · rw [hval] at hev
      have hvb : MIN_INT_VAL ≤ v ∧ v ≤ MAX_INT_VAL := by
        have h1 := hro.2.2.1
        rw [hval] at h1
        exact h1
      have := encValKey_vint_inj hash64 hvb.1 hvb.2 hfv1 (by unfold MAX_INT_VAL; omega) hev
      rw [this]
    · exfalso
      rw [hval] at hev
      have h1 : (encValKey hash64 (.vstr sv)).headD 0 =
          (encValKey hash64 (.vint fv)).headD 0 := by rw [hev]
      rw [encValKey_headD, encValKey_headD] at h1
      simp only [if_neg (by omega : ¬ (0:Int) ≤ fv)] at h1
      split_ifs at h1 <;> omega

set_option maxHeartbeats 1000000 in
/-- Backward subrange scan (first_val < 0, last_val < 0): succeeds,
always returns rows inside the window in ascending numeric order, and —
when at most one stored row is valued exactly first_val under the
property (the initial cursor.prev() can step over further duplicates) —
returns a permutation of ALL the rows matching the window. -/
theorem subrangeRows_bwd {hash64 : Bytes → Nat} {st : DbState} {qp : Bytes}
    {fv lv : Int} (rc : Bool) (hwf : WF hash64 st) (hp : qp.length ≤ MAX_PROP_LEN)
    (hfv1 : MIN_INT_VAL ≤ fv) (hfv0 : fv < 0) (hfl : fv ≤ lv) (hlv0 : lv < 0) :
    ∃ L, subrangeRows hash64 st (msgenpackStr qp) fv lv none rc = .ok L ∧
      ((st.rows.filter (fun pr => (pr.2.prop == qp) &&
          (pr.2.valu == Valu.vint fv))).length ≤ 1 →
        L.Perm ((st.rows.filter (matchesRangeQ qp fv lv rc)).map Prod.snd)) ∧
      L.Pairwise (fun r1 r2 => vintOf r1 ≤ vintOf r2) ∧
      (∀ r ∈ L, r.prop = qp ∧ ∃ v, r.valu = .vint v ∧ fv ≤ v ∧
        (if rc then v ≤ lv else v < lv)) := by
  have hp65 : qp.length < 65536 := by
    unfold MAX_PROP_LEN at hp
    omega
  rcases rc with _ | _
  · simp only [Bool.false_eq_true, if_false]

    have hsorted : List.Pairwise entR st.pvt := by
      rw [hwf.1]
      exact sortEnts_sorted _
    have hdown : ∀ a b : Ent, entLe a b = true → bLt b.1 (msgenpackStr qp ++ encValKey hash64 (.vint fv)) = true →
        bLt a.1 (msgenpackStr qp ++ encValKey hash64 (.vint fv)) = true := by
      intro a b hab hb
      rw [bLt_iff] at hb ⊢
      exact lt_of_le_of_lt (entLe_key_le hab) hb
    have hlkne : (msgenpackStr qp ++ encValKey hash64 (.vint lv)) ≠ [] := fun h =>
      msgenpackStr_ne_nil qp (List.append_eq_nil.mp h).1
    have hmaxmem : maxSent ∈ st.pvt := by
      rw [hwf.1]
      exact (sortEnts_perm _).mem_iff.mpr (by simp)
    have hfkmax : bLt maxSent.1 (msgenpackStr qp ++ encValKey hash64 (.vint fv)) = false := by
      rw [bLt_false_iff]
      exact lt_asymm (propKey_lt_max qp _)
    have hsufne : st.pvt.dropWhile (fun e => bLt e.1 (msgenpackStr qp ++ encValKey hash64 (.vint fv))) ≠ [] :=
      List.ne_nil_of_mem (mem_dropWhile_of_not hmaxmem hfkmax)
    have hup : ∀ a b : Ent, entLe a b = true →
        (!(bLe (a.1.take ((msgenpackStr qp ++ encValKey hash64 (.vint lv))).length) (msgenpackStr qp ++ encValKey hash64 (.vint lv)))) = true →
        (!(bLe (b.1.take ((msgenpackStr qp ++ encValKey hash64 (.vint lv))).length) (msgenpackStr qp ++ encValKey hash64 (.vint lv)))) = true := by
      intro a b hab ha
      rw [Bool.not_eq_true', bLe_false_iff] at ha ⊢
      intro hcmp
      exact ha (le_trans (take_le_take _ _ _ (entLe_key_le hab)) hcmp)
    have hzlt : ([0] : Bytes).take ((msgenpackStr qp ++ encValKey hash64 (.vint lv))).length < (msgenpackStr qp ++ encValKey hash64 (.vint lv)) := by
      rcases hn : ((msgenpackStr qp ++ encValKey hash64 (.vint lv))).length with _ | m
      · exact absurd (List.length_eq_zero.mp hn) hlkne
      · rw [show ([0] : Bytes) = 0 :: [] from rfl, List.take_succ_cons, List.take_nil]
        exact zero_lt_propKey qp _
    have hz : ((!(bLe (zeroSent.1.take ((msgenpackStr qp ++ encValKey hash64 (.vint lv))).length) (msgenpackStr qp ++ encValKey hash64 (.vint lv)))) &&
        bLt zeroSent.1 (msgenpackStr qp ++ encValKey hash64 (.vint fv))) = false := by
      have h2 : bLe (zeroSent.1.take ((msgenpackStr qp ++ encValKey hash64 (.vint lv))).length) (msgenpackStr qp ++ encValKey hash64 (.vint lv)) = true := by
        rw [bLe_iff]
        exact le_of_lt hzlt
      rw [h2]
      rfl
    have hm : ((!(bLe (maxSent.1.take ((msgenpackStr qp ++ encValKey hash64 (.vint lv))).length) (msgenpackStr qp ++ encValKey hash64 (.vint lv)))) &&
        bLt maxSent.1 (msgenpackStr qp ++ encValKey hash64 (.vint fv))) = false := by
      rw [hfkmax]
      rw [Bool.and_false]
    have hiffpre : ∀ pr ∈ st.rows,
        ((!(bLe ((pvtEntry hash64 pr).1.take ((msgenpackStr qp ++ encValKey hash64 (.vint lv))).length) (msgenpackStr qp ++ encValKey hash64 (.vint lv)))) &&
          bLt (pvtEntry hash64 pr).1 (msgenpackStr qp ++ encValKey hash64 (.vint fv))) =
        matchesRangeQ qp (fv + 1) lv false pr := by
      intro pr hmm
      have hro : rowOk pr.2 := (hwf.2.2.2.2 pr hmm).2.2
      have hrp : pr.2.prop.length < 65536 := by
        have h1 := hro.2.1
        unfold MAX_PROP_LEN at h1
        omega
      rw [Bool.eq_iff_iff, matchesRangeQ_iff]
      simp only [pvtEntry, Bool.and_eq_true, Bool.not_eq_true', bLe_false_iff,
        bLt_iff, Bool.false_eq_true, if_false]
      have hk := subKeyB_iff hash64 hp65 false hfv1 hfv0 hfl hlv0 pr.2 hro hrp
      simp only [Bool.false_eq_true, if_false] at hk
      constructor
      · rintro ⟨h1, h2⟩
        obtain ⟨hq1, v, hq2, hq3, hq4⟩ := hk.mp ⟨h2, h1⟩
        exact ⟨hq1, v, hq2, by omega, hq4⟩
      · rintro ⟨hq1, v, hq2, hq3, hq4⟩
        have h5 := hk.mpr ⟨hq1, v, hq2, by omega, hq4⟩
        exact ⟨h5.2, h5.1⟩
    obtain ⟨hpre_eq, hpre_perm, hpre_ent⟩ := pvt_pre_spec hwf hup hiffpre hz hm
    have hsomePre : ∀ e ∈ ((st.pvt.takeWhile
        (fun e => bLt e.1 (msgenpackStr qp ++ encValKey hash64 (.vint fv)))).reverse).takeWhile
        (fun e => !(bLe (e.1.take ((msgenpackStr qp ++ encValKey hash64 (.vint lv))).length) (msgenpackStr qp ++ encValKey hash64 (.vint lv)))),
        (fetchRow st e).isSome := by
      intro e he
      rw [hpre_eq] at he
      obtain ⟨pr, hpr, rfl, _⟩ := hpre_ent e (List.mem_reverse.mp he)
      simp only [pvtEntry]
      rw [fetchRow_entry hwf hpr]
      rfl
    have hvpair : ∀ pra prb : Nat × Row, pra ∈ st.rows → prb ∈ st.rows →
        matchesRangeQ qp (fv + 1) lv false pra = true →
        matchesRangeQ qp (fv + 1) lv false prb = true →
        (pvtEntry hash64 prb).1 ≤ (pvtEntry hash64 pra).1 →
        vintOf pra.2 ≤ vintOf prb.2 := by
      intro pra prb hpra hprb hqa hqb hkey
      obtain ⟨hpa, va, hva, hva1, hva2⟩ := (matchesRangeQ_iff _ _ _ _ _).mp hqa
      obtain ⟨hpb, vb, hvb, hvb1, hvb2⟩ := (matchesRangeQ_iff _ _ _ _ _).mp hqb
      simp only [Bool.false_eq_true, if_false] at hva2 hvb2
      have hroa : rowOk pra.2 := (hwf.2.2.2.2 pra hpra).2.2
      have hrob : rowOk prb.2 := (hwf.2.2.2.2 prb hprb).2.2
      have hvam : MIN_INT_VAL ≤ va := by
        have h3 := hroa.2.2.1
        rw [hva] at h3
        exact h3.1
      have hvbm : MIN_INT_VAL ≤ vb := by
        have h3 := hrob.2.2.1
        rw [hvb] at h3
        exact h3.1
      have hv1 : vintOf pra.2 = va := by
        unfold vintOf
        rw [hva]
      have hv2 : vintOf prb.2 = vb := by
        unfold vintOf
        rw [hvb]
      rw [hv1, hv2]
      by_contra hcon
      push_neg at hcon
      have henc : encValKey hash64 (.vint va) < encValKey hash64 (.vint vb) :=
        (encValKey_vint_lt_iff_neg hash64 (by omega) (by omega) hvam hvbm).mpr hcon
      have hne2 : encValKey hash64 (.vint va) ≠ encValKey hash64 (.vint vb) :=
        ne_of_lt henc
      have hkb : pvtKeyOf hash64 pra.2 < pvtKeyOf hash64 prb.2 := by
        unfold pvtKeyOf
        rw [hpa, hpb, hva, hvb, List.append_assoc, List.append_assoc,
          append_lt_append_left]
        exact (lt_append_append_of_notInit _ _ (notInit_encValKey hash64 hne2)
          (notInit_encValKey hash64 (Ne.symm hne2)) _ _).mpr henc
      exact absurd hkb (not_lt.mpr hkey)
    have hpermPre2 : (((st.pvt.filter (fun e =>
        (!(bLe (e.1.take ((msgenpackStr qp ++ encValKey hash64 (.vint lv))).length) (msgenpackStr qp ++ encValKey hash64 (.vint lv)))) && bLt e.1 (msgenpackStr qp ++ encValKey hash64 (.vint fv)))).reverse).filterMap
          (fetchRow st)).Perm
        ((st.rows.filter (matchesRangeQ qp (fv + 1) lv false)).map Prod.snd) := by
      refine ((List.reverse_perm _).filterMap (fetchRow st)).trans ?_
      refine (hpre_perm.filterMap (fetchRow st)).trans ?_
      rw [List.filterMap_map]
      have hfm2 : (st.rows.filter (matchesRangeQ qp (fv + 1) lv false)).filterMap
          (fetchRow st ∘ pvtEntry hash64) =
          (st.rows.filter (matchesRangeQ qp (fv + 1) lv false)).map Prod.snd := by
        refine filterMap_eq_map_of_some ?_
        intro pr hmm
        simp only [Function.comp, pvtEntry]
        exact fetchRow_entry hwf (List.mem_of_mem_filter hmm)
      rw [hfm2]
    have hpwPre : (((st.pvt.filter (fun e =>
        (!(bLe (e.1.take ((msgenpackStr qp ++ encValKey hash64 (.vint lv))).length) (msgenpackStr qp ++ encValKey hash64 (.vint lv)))) && bLt e.1 (msgenpackStr qp ++ encValKey hash64 (.vint fv)))).reverse).filterMap
          (fetchRow st)).Pairwise (fun r1 r2 => vintOf r1 ≤ vintOf r2) := by
      have h1 : List.Pairwise entR (st.pvt.filter (fun e =>
          (!(bLe (e.1.take ((msgenpackStr qp ++ encValKey hash64 (.vint lv))).length) (msgenpackStr qp ++ encValKey hash64 (.vint lv)))) && bLt e.1 (msgenpackStr qp ++ encValKey hash64 (.vint fv)))) :=
        hsorted.sublist (List.filter_sublist _)
      have h2 : List.Pairwise (fun a b : Ent => entR b a)
          ((st.pvt.filter (fun e =>
            (!(bLe (e.1.take ((msgenpackStr qp ++ encValKey hash64 (.vint lv))).length) (msgenpackStr qp ++ encValKey hash64 (.vint lv)))) && bLt e.1 (msgenpackStr qp ++ encValKey hash64 (.vint fv)))).reverse) :=
        List.pairwise_reverse.mpr h1
      have h3 := List.Pairwise.and_mem.mp h2
      refine List.Pairwise.filterMap (fetchRow st) ?_ h3
      rintro a b ⟨hamem, hbmem, hab⟩ r1 hr1 r2 hr2
      obtain ⟨pra, hpra, rfl, hqa⟩ := hpre_ent a (List.mem_reverse.mp hamem)
      obtain ⟨prb, hprb, rfl, hqb⟩ := hpre_ent b (List.mem_reverse.mp hbmem)
      have hfa : fetchRow st (pvtEntry hash64 pra) = some pra.2 := by
        simp only [pvtEntry]
        exact fetchRow_entry hwf hpra
      have hfb : fetchRow st (pvtEntry hash64 prb) = some prb.2 := by
        simp only [pvtEntry]
        exact fetchRow_entry hwf hprb
      have hr1e : r1 = pra.2 := by
        have h4 := Option.mem_def.mp hr1
        rw [hfa] at h4
        exact (Option.some.inj h4).symm
      have hr2e : r2 = prb.2 := by
        have h4 := Option.mem_def.mp hr2
        rw [hfb] at h4
        exact (Option.some.inj h4).symm
      rw [hr1e, hr2e]
      exact hvpair pra prb hpra hprb hqa hqb (entLe_key_le hab)
    rw [subrangeRows_eval]
    have hset2 : (setRange st.pvt (msgenpackStr qp ++ encValKey hash64 (.vint fv))).2 =
        st.pvt.dropWhile (fun e => bLt e.1 (msgenpackStr qp ++ encValKey hash64 (.vint fv))) := by
      unfold setRange
      rw [List.span_eq_take_drop]
    have hset1 : (setRange st.pvt (msgenpackStr qp ++ encValKey hash64 (.vint fv))).1 =
        st.pvt.takeWhile (fun e => bLt e.1 (msgenpackStr qp ++ encValKey hash64 (.vint fv))) := by
      unfold setRange
      rw [List.span_eq_take_drop]
    obtain ⟨e0, rest, hsuf⟩ := List.exists_cons_of_ne_nil hsufne
    rw [hset2, hsuf]
    dsimp only []
    rw [if_pos (by omega : fv < 0), hset1]
    simp only [Bool.false_eq_true, if_false]
    rcases hpos : bLt (msgenpackStr qp ++ encValKey hash64 (.vint fv)) (e0.1.take ((msgenpackStr qp ++ encValKey hash64 (.vint fv))).length) with _ | _
    · -- the cursor landed exactly on a first_val entry
      simp only [Bool.false_eq_true, if_false]
      rw [List.reverse_append, List.reverse_singleton, List.singleton_append]
      have he0dw : e0 ∈ st.pvt.dropWhile (fun e => bLt e.1 (msgenpackStr qp ++ encValKey hash64 (.vint fv))) := by
        rw [hsuf]
        exact List.mem_cons_self _ _
      have hnotlt : bLt e0.1 (msgenpackStr qp ++ encValKey hash64 (.vint fv)) = false := mem_dropWhile_sorted hsorted he0dw
      have he0mem : e0 ∈ st.pvt := (List.dropWhile_sublist _).subset he0dw
      have hgetrunc : e0.1.take ((msgenpackStr qp ++ encValKey hash64 (.vint fv))).length = (msgenpackStr qp ++ encValKey hash64 (.vint fv)) := by
        have h1 : (msgenpackStr qp ++ encValKey hash64 (.vint fv)) ≤ e0.1.take ((msgenpackStr qp ++ encValKey hash64 (.vint fv))).length := by
          have h2 : (msgenpackStr qp ++ encValKey hash64 (.vint fv)) ≤ e0.1 := by
            rw [bLt_false_iff] at hnotlt
            exact not_lt.mp hnotlt
          have h3 := take_le_take ((msgenpackStr qp ++ encValKey hash64 (.vint fv))).length _ _ h2
          rw [List.take_length] at h3
          exact h3
        have h2 : ¬ (msgenpackStr qp ++ encValKey hash64 (.vint fv)) < e0.1.take ((msgenpackStr qp ++ encValKey hash64 (.vint fv))).length := by
          rw [bLt_false_iff] at hpos
          exact hpos
        exact le_antisymm (not_lt.mp h2) h1
      have hinit : isInit (msgenpackStr qp ++ encValKey hash64 (.vint fv)) e0.1 = true := by
        refine (isInit_iff_exists _ _).mpr ⟨e0.1.drop ((msgenpackStr qp ++ encValKey hash64 (.vint fv))).length, ?_⟩
        conv_lhs => rw [← List.take_append_drop ((msgenpackStr qp ++ encValKey hash64 (.vint fv))).length e0.1]
        rw [hgetrunc]
      rcases eq_or_lt_of_le hfl with hfleq | hflt
      · subst hfleq
        have hpe0 : bLe (e0.1.take
            (msgenpackStr qp ++ encValKey hash64 (.vint fv)).length)
            (msgenpackStr qp ++ encValKey hash64 (.vint fv)) = true := by
          rw [bLe_iff, hgetrunc]
        have hproc0 : (e0 :: (st.pvt.takeWhile (fun e => bLt e.1
            (msgenpackStr qp ++ encValKey hash64 (.vint fv)))).reverse).takeWhile
            (fun e => !(bLe (e.1.take
              (msgenpackStr qp ++ encValKey hash64 (.vint fv)).length)
              (msgenpackStr qp ++ encValKey hash64 (.vint fv)))) = [] := by
          rw [List.takeWhile_cons, hpe0]
          rfl
        have hsome2 : ∀ e ∈ (e0 :: (st.pvt.takeWhile (fun e => bLt e.1
            (msgenpackStr qp ++ encValKey hash64 (.vint fv)))).reverse).takeWhile
            (fun e => !(bLe (e.1.take
              (msgenpackStr qp ++ encValKey hash64 (.vint fv)).length)
              (msgenpackStr qp ++ encValKey hash64 (.vint fv)))),
            (fetchRow st e).isSome := by
          intro e he
          rw [hproc0] at he
          exact absurd he (List.not_mem_nil _)
        have hspec := @subRowsF_spec st
          (msgenpackStr qp ++ encValKey hash64 (.vint fv)) bLe
          (e0 :: (st.pvt.takeWhile (fun e => bLt e.1
            (msgenpackStr qp ++ encValKey hash64 (.vint fv)))).reverse) 0 [] hsome2
        have hempty : st.rows.filter (matchesRangeQ qp fv fv false) = [] := by
          rw [List.filter_eq_nil_iff]
          intro pr hpr hq
          obtain ⟨_, v, _, h3, h4⟩ := (matchesRangeQ_iff _ _ _ _ _).mp hq
          simp only [Bool.false_eq_true, if_false] at h4
          omega
        refine ⟨_, hspec, ?_, ?_, ?_⟩
        · intro _
          rw [hproc0, hempty]
          simp
        · rw [hproc0]
          simp
        · intro r hr
          rw [hproc0] at hr
          simp at hr
      · obtain ⟨pr0, hpr0, he0, hp0, hv0⟩ := e0_of_init hwf hp65 hfv1 hfv0 he0mem hinit
        have hfvmem : pr0 ∈ st.rows.filter
            (fun pr => (pr.2.prop == qp) && (pr.2.valu == Valu.vint fv)) := by
          refine List.mem_filter.mpr ⟨hpr0, ?_⟩
          simp only [Bool.and_eq_true, beq_iff_eq]
          exact ⟨hp0, hv0⟩
        have he0key : e0.1 = msgenpackStr qp ++
            (encValKey hash64 (.vint fv) ++ msgenpackInt pr0.2.tstamp) := by
          rw [he0, show (pvtEntry hash64 pr0).1 = pvtKeyOf hash64 pr0.2 from rfl]
          unfold pvtKeyOf
          rw [hp0, hv0, List.append_assoc]
        have htr0 : e0.1.take ((msgenpackStr qp ++ encValKey hash64 (.vint lv))).length = msgenpackStr qp ++
            ((encValKey hash64 (.vint fv) ++ msgenpackInt pr0.2.tstamp).take
              (encValKey hash64 (.vint lv)).length) := by
          rw [he0key, List.length_append, take_add_append]
        have htlt0 := enc_take_lt_iff hash64 (.vint fv) (.vint lv)
          (msgenpackInt pr0.2.tstamp)
        have hpe0 : bLe (e0.1.take ((msgenpackStr qp ++ encValKey hash64 (.vint lv))).length) (msgenpackStr qp ++ encValKey hash64 (.vint lv)) = false := by
          rw [bLe_false_iff]
          intro hcon
          have h5 : encValKey hash64 (.vint lv) < encValKey hash64 (.vint fv) :=
            (encValKey_vint_lt_iff_neg hash64 hlv0 hfv0 (by omega) hfv1).mpr hflt
          have h6 : msgenpackStr qp ++ encValKey hash64 (.vint lv) <
              e0.1.take (msgenpackStr qp ++ encValKey hash64 (.vint lv)).length := by
            rw [htr0]
            exact (append_lt_append_left _ _ _).mpr (htlt0.2.mpr h5)
          exact absurd hcon (not_le.mpr h6)
        have hp0t : (!(bLe (e0.1.take ((msgenpackStr qp ++ encValKey hash64 (.vint lv))).length) (msgenpackStr qp ++ encValKey hash64 (.vint lv)))) = true := by
          rw [hpe0]
          rfl
        have hproc : (e0 :: (st.pvt.takeWhile (fun e => bLt e.1 (msgenpackStr qp ++ encValKey hash64 (.vint fv)))).reverse).takeWhile
            (fun e => !(bLe (e.1.take ((msgenpackStr qp ++ encValKey hash64 (.vint lv))).length) (msgenpackStr qp ++ encValKey hash64 (.vint lv)))) =
            e0 :: (st.pvt.filter (fun e =>
              (!(bLe (e.1.take ((msgenpackStr qp ++ encValKey hash64 (.vint lv))).length) (msgenpackStr qp ++ encValKey hash64 (.vint lv)))) && bLt e.1 (msgenpackStr qp ++ encValKey hash64 (.vint fv)))).reverse := by
          rw [List.takeWhile_cons, hp0t]
          simp only [if_true]
          rw [hpre_eq]
        have hfetch0 : fetchRow st e0 = some pr0.2 := by
          rw [he0]
          simp only [pvtEntry]
          exact fetchRow_entry hwf hpr0
        have hsome2 : ∀ e ∈ (e0 :: (st.pvt.takeWhile
            (fun e => bLt e.1 (msgenpackStr qp ++ encValKey hash64 (.vint fv)))).reverse).takeWhile
            (fun e => !(bLe (e.1.take ((msgenpackStr qp ++ encValKey hash64 (.vint lv))).length) (msgenpackStr qp ++ encValKey hash64 (.vint lv)))),
            (fetchRow st e).isSome := by
          intro e he
          rw [hproc] at he
          rcases List.mem_cons.mp he with rfl | he2
          · rw [hfetch0]
            rfl
          · refine hsomePre e ?_
            rw [hpre_eq]
            exact he2
        have hspec := @subRowsF_spec st (msgenpackStr qp ++ encValKey hash64 (.vint lv)) bLe
          (e0 :: (st.pvt.takeWhile (fun e => bLt e.1 (msgenpackStr qp ++ encValKey hash64 (.vint fv)))).reverse) 0 [] hsome2
        have hsplitpt : ∀ pr ∈ st.rows, matchesRangeQ qp fv lv false pr =
            (((pr.2.prop == qp) && (pr.2.valu == Valu.vint fv)) ||
              matchesRangeQ qp (fv + 1) lv false pr) := by
          intro pr hpr
          rw [Bool.eq_iff_iff, Bool.or_eq_true, matchesRangeQ_iff, matchesRangeQ_iff]
          simp only [Bool.and_eq_true, beq_iff_eq, Bool.false_eq_true, if_false]
          constructor
          · rintro ⟨h1, v, h2, h3, h4⟩
            rcases eq_or_lt_of_le h3 with heq2 | hlt2
            · exact Or.inl ⟨h1, by rw [h2, ← heq2]⟩
            · exact Or.inr ⟨h1, v, h2, by omega, h4⟩
          · rintro (⟨h1, h2⟩ | ⟨h1, v, h2, h3, h4⟩)
            · refine ⟨h1, fv, h2, le_refl _, ?_⟩
              exact hflt
            · exact ⟨h1, v, h2, by omega, h4⟩
        refine ⟨_, hspec, ?_, ?_, ?_⟩
        · intro hdup
          have hfvsing := eq_singleton_of_length_le_one hfvmem hdup
          have hpermfull : (st.rows.filter (matchesRangeQ qp fv lv false)).Perm
              (pr0 :: st.rows.filter (matchesRangeQ qp (fv + 1) lv false)) := by
            have h1 : st.rows.filter (matchesRangeQ qp fv lv false) =
                st.rows.filter (fun pr =>
                  ((pr.2.prop == qp) && (pr.2.valu == Valu.vint fv)) ||
                    matchesRangeQ qp (fv + 1) lv false pr) :=
              List.filter_congr hsplitpt
            rw [h1]
            refine (filter_or_perm ?_).trans ?_
            · intro pr hpr hcontra
              obtain ⟨ha, hb⟩ := hcontra
              simp only [Bool.and_eq_true, beq_iff_eq] at ha
              obtain ⟨_, v, h2, h3, _⟩ := (matchesRangeQ_iff _ _ _ _ _).mp hb
              rw [ha.2] at h2
              have := Valu.vint.inj h2
              omega
            · rw [hfvsing]
              exact List.Perm.refl _
          simp only [List.nil_append]
          rw [hproc]
          simp only [List.filterMap_cons, hfetch0]
          refine (hpermPre2.cons pr0.2).trans ?_
          have h9 := (hpermfull.map Prod.snd).symm
          simp only [List.map_cons] at h9
          exact h9
        · simp only [List.nil_append]
          rw [hproc]
          simp only [List.filterMap_cons, hfetch0]
          rw [List.pairwise_cons]
          constructor
          · intro r hr
            have hmem5 := hpermPre2.mem_iff.mp hr
            obtain ⟨pr, hpr, rfl⟩ := List.mem_map.mp hmem5
            have hq := List.of_mem_filter hpr
            obtain ⟨_, v, h2, h3, _⟩ := (matchesRangeQ_iff _ _ _ _ _).mp hq
            have hvv : vintOf pr.2 = v := by
              unfold vintOf
              rw [h2]
            have hvz : vintOf pr0.2 = fv := by
              unfold vintOf
              rw [hv0]
            rw [hvv, hvz]
            omega
          · exact hpwPre
        · intro r hr
          simp only [List.nil_append] at hr
          rw [hproc] at hr
          simp only [List.filterMap_cons, hfetch0] at hr
          rcases List.mem_cons.mp hr with rfl | hr2
          · refine ⟨hp0, fv, hv0, le_refl _, ?_⟩
            exact hflt
          · have hmem5 := hpermPre2.mem_iff.mp hr2
            obtain ⟨pr, hpr, rfl⟩ := List.mem_map.mp hmem5
            have hq := List.of_mem_filter hpr
            obtain ⟨h1, v, h2, h3, h4⟩ := (matchesRangeQ_iff _ _ _ _ _).mp hq
            simp only [Bool.false_eq_true, if_false] at h4
            exact ⟨h1, v, h2, by omega, h4⟩

    · -- the cursor landed strictly past first_key: step back once
      simp only [if_true]
      -- no row carries value first_val: first_key-prefixed keys would sit at
      -- or above the cursor whose truncation is already past first_key
      have hnofv : st.rows.filter
          (fun pr => (pr.2.prop == qp) && (pr.2.valu == Valu.vint fv)) = [] := by
        rw [List.filter_eq_nil_iff]
        intro pr hpr hq
        simp only [Bool.and_eq_true, beq_iff_eq] at hq
        have hentmem : pvtEntry hash64 pr ∈ st.pvt := by
          rw [hwf.1]
          exact (sortEnts_perm _).mem_iff.mpr
            (List.mem_append.mpr (Or.inr (List.mem_map.mpr ⟨pr, hpr, rfl⟩)))
        have hinit2 : isInit (msgenpackStr qp ++ encValKey hash64 (.vint fv)) (pvtEntry hash64 pr).1 = true := by
          rw [show (pvtEntry hash64 pr).1 = pvtKeyOf hash64 pr.2 from rfl]
          unfold pvtKeyOf
          rw [hq.1, hq.2]
          exact isInit_of_append _ _
        obtain ⟨u, hu⟩ := (isInit_iff_exists _ _).mp hinit2
        have hdw : pvtEntry hash64 pr ∈ st.pvt.dropWhile (fun e => bLt e.1 (msgenpackStr qp ++ encValKey hash64 (.vint fv))) := by
          refine mem_dropWhile_of_not hentmem ?_
          rw [bLt_false_iff, hu]
          exact not_append_lt_self _ _
        rw [hsuf] at hdw
        have hsorted2 : List.Pairwise entR (e0 :: rest) := by
          rw [← hsuf]
          exact hsorted.sublist (List.dropWhile_sublist _)
        have hle : e0.1 ≤ (pvtEntry hash64 pr).1 := by
          rcases List.mem_cons.mp hdw with heq2 | hmem3
          · rw [heq2]
          · exact entLe_key_le ((List.pairwise_cons.mp hsorted2).1 _ hmem3)
        have htr : e0.1.take ((msgenpackStr qp ++ encValKey hash64 (.vint fv))).length ≤ (msgenpackStr qp ++ encValKey hash64 (.vint fv)) := by
          have h1 := take_le_take ((msgenpackStr qp ++ encValKey hash64 (.vint fv))).length _ _ hle
          rw [hu, List.take_left] at h1
          exact h1
        rw [bLt_iff] at hpos
        exact absurd hpos (not_lt.mpr htr)
      have hsame : st.rows.filter (matchesRangeQ qp fv lv false) =
          st.rows.filter (matchesRangeQ qp (fv + 1) lv false) := by
        refine List.filter_congr ?_
        intro pr hpr
        rw [Bool.eq_iff_iff, matchesRangeQ_iff, matchesRangeQ_iff]
        constructor
        · rintro ⟨h1, v, h2, h3, h4⟩
          refine ⟨h1, v, h2, ?_, h4⟩
          rcases eq_or_lt_of_le h3 with heq2 | hlt2
          · exfalso
            have h5 : (fun pr : Nat × Row =>
                (pr.2.prop == qp) && (pr.2.valu == Valu.vint fv)) pr = true := by
              simp only [Bool.and_eq_true, beq_iff_eq]
              exact ⟨h1, by rw [h2, ← heq2]⟩
            have hmem4 : pr ∈ st.rows.filter
                (fun pr => (pr.2.prop == qp) && (pr.2.valu == Valu.vint fv)) :=
              List.mem_filter.mpr ⟨hpr, h5⟩
            rw [hnofv] at hmem4
            exact absurd hmem4 (List.not_mem_nil _)
          · omega
        · rintro ⟨h1, v, h2, h3, h4⟩
          exact ⟨h1, v, h2, by omega, h4⟩
      -- the prefix below first_key is nonempty (leading sentinel)
      have hzpre : zeroSent ∈ st.pvt.takeWhile (fun e => bLt e.1 (msgenpackStr qp ++ encValKey hash64 (.vint fv))) := by
        rw [takeWhile_eq_filter_sorted hdown hsorted]
        refine List.mem_filter.mpr ⟨?_, ?_⟩
        · rw [hwf.1]
          exact (sortEnts_perm _).mem_iff.mpr (by simp)
        · rw [bLt_iff]
          exact zero_lt_propKey qp _
      obtain ⟨z0, zrest, hzcons⟩ :=
        List.exists_cons_of_ne_nil (List.ne_nil_of_mem hzpre)
      rw [hzcons]
      dsimp only []
      rw [← hzcons]
      have hsome2 : ∀ e ∈ ((st.pvt.takeWhile
          (fun e => bLt e.1 (msgenpackStr qp ++ encValKey hash64 (.vint fv)))).reverse).takeWhile
          (fun e => !(bLe (e.1.take ((msgenpackStr qp ++ encValKey hash64 (.vint lv))).length) (msgenpackStr qp ++ encValKey hash64 (.vint lv)))),
          (fetchRow st e).isSome := hsomePre
      have hspec := @subRowsF_spec st (msgenpackStr qp ++ encValKey hash64 (.vint lv)) bLe
        ((st.pvt.takeWhile (fun e => bLt e.1 (msgenpackStr qp ++ encValKey hash64 (.vint fv)))).reverse) 0 [] hsome2
      refine ⟨_, hspec, ?_, ?_, ?_⟩
      · intro _
        simp only [List.nil_append]
        rw [hpre_eq, hsame]
        exact hpermPre2
      · simp only [List.nil_append]
        rw [hpre_eq]
        exact hpwPre
      · intro r hr
        simp only [List.nil_append] at hr
        rw [hpre_eq] at hr
        have hmem5 := hpermPre2.mem_iff.mp hr
        obtain ⟨pr, hpr, rfl⟩ := List.mem_map.mp hmem5
        have hq := List.of_mem_filter hpr
        obtain ⟨h1, v, h2, h3, h4⟩ := (matchesRangeQ_iff _ _ _ _ _).mp hq
        simp only [Bool.false_eq_true, if_false] at h4
        exact ⟨h1, v, h2, by omega, h4⟩
  · simp only [if_true]

    have hsorted : List.Pairwise entR st.pvt := by
      rw [hwf.1]
      exact sortEnts_sorted _
    have hdown : ∀ a b : Ent, entLe a b = true → bLt b.1 (msgenpackStr qp ++ encValKey hash64 (.vint fv)) = true →
        bLt a.1 (msgenpackStr qp ++ encValKey hash64 (.vint fv)) = true := by
      intro a b hab hb
      rw [bLt_iff] at hb ⊢
      exact lt_of_le_of_lt (entLe_key_le hab) hb
    have hlkne : (msgenpackStr qp ++ encValKey hash64 (.vint lv)) ≠ [] := fun h =>
      msgenpackStr_ne_nil qp (List.append_eq_nil.mp h).1
    have hmaxmem : maxSent ∈ st.pvt := by
      rw [hwf.1]
      exact (sortEnts_perm _).mem_iff.mpr (by simp)
    have hfkmax : bLt maxSent.1 (msgenpackStr qp ++ encValKey hash64 (.vint fv)) = false := by
      rw [bLt_false_iff]
      exact lt_asymm (propKey_lt_max qp _)
    have hsufne : st.pvt.dropWhile (fun e => bLt e.1 (msgenpackStr qp ++ encValKey hash64 (.vint fv))) ≠ [] :=
      List.ne_nil_of_mem (mem_dropWhile_of_not hmaxmem hfkmax)
    have hup : ∀ a b : Ent, entLe a b = true →
        (!(bLt (a.1.take ((msgenpackStr qp ++ encValKey hash64 (.vint lv))).length) (msgenpackStr qp ++ encValKey hash64 (.vint lv)))) = true →
        (!(bLt (b.1.take ((msgenpackStr qp ++ encValKey hash64 (.vint lv))).length) (msgenpackStr qp ++ encValKey hash64 (.vint lv)))) = true := by
      intro a b hab ha
      rw [Bool.not_eq_true', bLt_false_iff] at ha ⊢
      intro hcmp
      exact ha (lt_of_le_of_lt (take_le_take _ _ _ (entLe_key_le hab)) hcmp)
    have hzlt : ([0] : Bytes).take ((msgenpackStr qp ++ encValKey hash64 (.vint lv))).length < (msgenpackStr qp ++ encValKey hash64 (.vint lv)) := by
      rcases hn : ((msgenpackStr qp ++ encValKey hash64 (.vint lv))).length with _ | m
      · exact absurd (List.length_eq_zero.mp hn) hlkne
      · rw [show ([0] : Bytes) = 0 :: [] from rfl, List.take_succ_cons, List.take_nil]
        exact zero_lt_propKey qp _
    have hz : ((!(bLt (zeroSent.1.take ((msgenpackStr qp ++ encValKey hash64 (.vint lv))).length) (msgenpackStr qp ++ encValKey hash64 (.vint lv)))) &&
        bLt zeroSent.1 (msgenpackStr qp ++ encValKey hash64 (.vint fv))) = false := by
      have h2 : bLt (zeroSent.1.take ((msgenpackStr qp ++ encValKey hash64 (.vint lv))).length) (msgenpackStr qp ++ encValKey hash64 (.vint lv)) = true := by
        rw [bLt_iff]
        exact id hzlt
      rw [h2]
      rfl
    have hm : ((!(bLt (maxSent.1.take ((msgenpackStr qp ++ encValKey hash64 (.vint lv))).length) (msgenpackStr qp ++ encValKey hash64 (.vint lv)))) &&
        bLt maxSent.1 (msgenpackStr qp ++ encValKey hash64 (.vint fv))) = false := by
      rw [hfkmax]
      rw [Bool.and_false]
    have hiffpre : ∀ pr ∈ st.rows,
        ((!(bLt ((pvtEntry hash64 pr).1.take ((msgenpackStr qp ++ encValKey hash64 (.vint lv))).length) (msgenpackStr qp ++ encValKey hash64 (.vint lv)))) &&
          bLt (pvtEntry hash64 pr).1 (msgenpackStr qp ++ encValKey hash64 (.vint fv))) =
        matchesRangeQ qp (fv + 1) lv true pr := by
      intro pr hmm
      have hro : rowOk pr.2 := (hwf.2.2.2.2 pr hmm).2.2
      have hrp : pr.2.prop.length < 65536 := by
        have h1 := hro.2.1
        unfold MAX_PROP_LEN at h1
        omega
      rw [Bool.eq_iff_iff, matchesRangeQ_iff]
      simp only [pvtEntry, Bool.and_eq_true, Bool.not_eq_true', bLt_false_iff,
        bLt_iff, if_true]
      have hk := subKeyB_iff hash64 hp65 true hfv1 hfv0 hfl hlv0 pr.2 hro hrp
      simp only [if_true] at hk
      constructor
      · rintro ⟨h1, h2⟩
        obtain ⟨hq1, v, hq2, hq3, hq4⟩ := hk.mp ⟨h2, h1⟩
        exact ⟨hq1, v, hq2, by omega, hq4⟩
      · rintro ⟨hq1, v, hq2, hq3, hq4⟩
        have h5 := hk.mpr ⟨hq1, v, hq2, by omega, hq4⟩
        exact ⟨h5.2, h5.1⟩
    obtain ⟨hpre_eq, hpre_perm, hpre_ent⟩ := pvt_pre_spec hwf hup hiffpre hz hm
    have hsomePre : ∀ e ∈ ((st.pvt.takeWhile
        (fun e => bLt e.1 (msgenpackStr qp ++ encValKey hash64 (.vint fv)))).reverse).takeWhile
        (fun e => !(bLt (e.1.take ((msgenpackStr qp ++ encValKey hash64 (.vint lv))).length) (msgenpackStr qp ++ encValKey hash64 (.vint lv)))),
        (fetchRow st e).isSome := by
      intro e he
      rw [hpre_eq] at he
      obtain ⟨pr, hpr, rfl, _⟩ := hpre_ent e (List.mem_reverse.mp he)
      simp only [pvtEntry]
      rw [fetchRow_entry hwf hpr]
      rfl
    have hvpair : ∀ pra prb : Nat × Row, pra ∈ st.rows → prb ∈ st.rows →
        matchesRangeQ qp (fv + 1) lv true pra = true →
        matchesRangeQ qp (fv + 1) lv true prb = true →
        (pvtEntry hash64 prb).1 ≤ (pvtEntry hash64 pra).1 →
        vintOf pra.2 ≤ vintOf prb.2 := by
      intro pra prb hpra hprb hqa hqb hkey
      obtain ⟨hpa, va, hva, hva1, hva2⟩ := (matchesRangeQ_iff _ _ _ _ _).mp hqa
      obtain ⟨hpb, vb, hvb, hvb1, hvb2⟩ := (matchesRangeQ_iff _ _ _ _ _).mp hqb
      simp only [if_true] at hva2 hvb2
      have hroa : rowOk pra.2 := (hwf.2.2.2.2 pra hpra).2.2
      have hrob : rowOk prb.2 := (hwf.2.2.2.2 prb hprb).2.2
      have hvam : MIN_INT_VAL ≤ va := by
        have h3 := hroa.2.2.1
        rw [hva] at h3
        exact h3.1
      have hvbm : MIN_INT_VAL ≤ vb := by
        have h3 := hrob.2.2.1
        rw [hvb] at h3
        exact h3.1
      have hv1 : vintOf pra.2 = va := by
        unfold vintOf
        rw [hva]
      have hv2 : vintOf prb.2 = vb := by
        unfold vintOf
        rw [hvb]
      rw [hv1, hv2]
      by_contra hcon
      push_neg at hcon
      have henc : encValKey hash64 (.vint va) < encValKey hash64 (.vint vb) :=
        (encValKey_vint_lt_iff_neg hash64 (by omega) (by omega) hvam hvbm).mpr hcon
      have hne2 : encValKey hash64 (.vint va) ≠ encValKey hash64 (.vint vb) :=
        ne_of_lt henc
      have hkb : pvtKeyOf hash64 pra.2 < pvtKeyOf hash64 prb.2 := by
        unfold pvtKeyOf
        rw [hpa, hpb, hva, hvb, List.append_assoc, List.append_assoc,
          append_lt_append_left]
        exact (lt_append_append_of_notInit _ _ (notInit_encValKey hash64 hne2)
          (notInit_encValKey hash64 (Ne.symm hne2)) _ _).mpr henc
      exact absurd hkb (not_lt.mpr hkey)
    have hpermPre2 : (((st.pvt.filter (fun e =>
        (!(bLt (e.1.take ((msgenpackStr qp ++ encValKey hash64 (.vint lv))).length) (msgenpackStr qp ++ encValKey hash64 (.vint lv)))) && bLt e.1 (msgenpackStr qp ++ encValKey hash64 (.vint fv)))).reverse).filterMap
          (fetchRow st)).Perm
        ((st.rows.filter (matchesRangeQ qp (fv + 1) lv true)).map Prod.snd) := by
      refine ((List.reverse_perm _).filterMap (fetchRow st)).trans ?_
      refine (hpre_perm.filterMap (fetchRow st)).trans ?_
      rw [List.filterMap_map]
      have hfm2 : (st.rows.filter (matchesRangeQ qp (fv + 1) lv true)).filterMap
          (fetchRow st ∘ pvtEntry hash64) =
          (st.rows.filter (matchesRangeQ qp (fv + 1) lv true)).map Prod.snd := by
        refine filterMap_eq_map_of_some ?_
        intro pr hmm
        simp only [Function.comp, pvtEntry]
        exact fetchRow_entry hwf (List.mem_of_mem_filter hmm)
      rw [hfm2]
    have hpwPre : (((st.pvt.filter (fun e =>
        (!(bLt (e.1.take ((msgenpackStr qp ++ encValKey hash64 (.vint lv))).length) (msgenpackStr qp ++ encValKey hash64 (.vint lv)))) && bLt e.1 (msgenpackStr qp ++ encValKey hash64 (.vint fv)))).reverse).filterMap
          (fetchRow st)).Pairwise (fun r1 r2 => vintOf r1 ≤ vintOf r2) := by
      have h1 : List.Pairwise entR (st.pvt.filter (fun e =>
          (!(bLt (e.1.take ((msgenpackStr qp ++ encValKey hash64 (.vint lv))).length) (msgenpackStr qp ++ encValKey hash64 (.vint lv)))) && bLt e.1 (msgenpackStr qp ++ encValKey hash64 (.vint fv)))) :=
        hsorted.sublist (List.filter_sublist _)
      have h2 : List.Pairwise (fun a b : Ent => entR b a)
          ((st.pvt.filter (fun e =>
            (!(bLt (e.1.take ((msgenpackStr qp ++ encValKey hash64 (.vint lv))).length) (msgenpackStr qp ++ encValKey hash64 (.vint lv)))) && bLt e.1 (msgenpackStr qp ++ encValKey hash64 (.vint fv)))).reverse) :=
        List.pairwise_reverse.mpr h1
      have h3 := List.Pairwise.and_mem.mp h2
      refine List.Pairwise.filterMap (fetchRow st) ?_ h3
      rintro a b ⟨hamem, hbmem, hab⟩ r1 hr1 r2 hr2
      obtain ⟨pra, hpra, rfl, hqa⟩ := hpre_ent a (List.mem_reverse.mp hamem)
      obtain ⟨prb, hprb, rfl, hqb⟩ := hpre_ent b (List.mem_reverse.mp hbmem)
      have hfa : fetchRow st (pvtEntry hash64 pra) = some pra.2 := by
        simp only [pvtEntry]
        exact fetchRow_entry hwf hpra
      have hfb : fetchRow st (pvtEntry hash64 prb) = some prb.2 := by
        simp only [pvtEntry]
        exact fetchRow_entry hwf hprb
      have hr1e : r1 = pra.2 := by
        have h4 := Option.mem_def.mp hr1
        rw [hfa] at h4
        exact (Option.some.inj h4).symm
      have hr2e : r2 = prb.2 := by
        have h4 := Option.mem_def.mp hr2
        rw [hfb] at h4
        exact (Option.some.inj h4).symm
      rw [hr1e, hr2e]
      exact hvpair pra prb hpra hprb hqa hqb (entLe_key_le hab)
    rw [subrangeRows_eval]
    have hset2 : (setRange st.pvt (msgenpackStr qp ++ encValKey hash64 (.vint fv))).2 =
        st.pvt.dropWhile (fun e => bLt e.1 (msgenpackStr qp ++ encValKey hash64 (.vint fv))) := by
      unfold setRange
      rw [List.span_eq_take_drop]
    have hset1 : (setRange st.pvt (msgenpackStr qp ++ encValKey hash64 (.vint fv))).1 =
        st.pvt.takeWhile (fun e => bLt e.1 (msgenpackStr qp ++ encValKey hash64 (.vint fv))) := by
      unfold setRange
      rw [List.span_eq_take_drop]
    obtain ⟨e0, rest, hsuf⟩ := List.exists_cons_of_ne_nil hsufne
    rw [hset2, hsuf]
    dsimp only []
    rw [if_pos (by omega : fv < 0), hset1]
    simp only [if_true]
    rcases hpos : bLt (msgenpackStr qp ++ encValKey hash64 (.vint fv)) (e0.1.take ((msgenpackStr qp ++ encValKey hash64 (.vint fv))).length) with _ | _
    · -- the cursor landed exactly on a first_val entry
      simp only [Bool.false_eq_true, if_false]
      rw [List.reverse_append, List.reverse_singleton, List.singleton_append]
      have he0dw : e0 ∈ st.pvt.dropWhile (fun e => bLt e.1 (msgenpackStr qp ++ encValKey hash64 (.vint fv))) := by
        rw [hsuf]
        exact List.mem_cons_self _ _
      have hnotlt : bLt e0.1 (msgenpackStr qp ++ encValKey hash64 (.vint fv)) = false := mem_dropWhile_sorted hsorted he0dw
      have he0mem : e0 ∈ st.pvt := (List.dropWhile_sublist _).subset he0dw
      have hgetrunc : e0.1.take ((msgenpackStr qp ++ encValKey hash64 (.vint fv))).length = (msgenpackStr qp ++ encValKey hash64 (.vint fv)) := by
        have h1 : (msgenpackStr qp ++ encValKey hash64 (.vint fv)) ≤ e0.1.take ((msgenpackStr qp ++ encValKey hash64 (.vint fv))).length := by
          have h2 : (msgenpackStr qp ++ encValKey hash64 (.vint fv)) ≤ e0.1 := by
            rw [bLt_false_iff] at hnotlt
            exact not_lt.mp hnotlt
          have h3 := take_le_take ((msgenpackStr qp ++ encValKey hash64 (.vint fv))).length _ _ h2
          rw [List.take_length] at h3
          exact h3
        have h2 : ¬ (msgenpackStr qp ++ encValKey hash64 (.vint fv)) < e0.1.take ((msgenpackStr qp ++ encValKey hash64 (.vint fv))).length := by
          rw [bLt_false_iff] at hpos
          exact hpos
        exact le_antisymm (not_lt.mp h2) h1
      have hinit : isInit (msgenpackStr qp ++ encValKey hash64 (.vint fv)) e0.1 = true := by
        refine (isInit_iff_exists _ _).mpr ⟨e0.1.drop ((msgenpackStr qp ++ encValKey hash64 (.vint fv))).length, ?_⟩
        conv_lhs => rw [← List.take_append_drop ((msgenpackStr qp ++ encValKey hash64 (.vint fv))).length e0.1]
        rw [hgetrunc]

      obtain ⟨pr0, hpr0, he0, hp0, hv0⟩ := e0_of_init hwf hp65 hfv1 hfv0 he0mem hinit
      have hfvmem : pr0 ∈ st.rows.filter
          (fun pr => (pr.2.prop == qp) && (pr.2.valu == Valu.vint fv)) := by
        refine List.mem_filter.mpr ⟨hpr0, ?_⟩
        simp only [Bool.and_eq_true, beq_iff_eq]
        exact ⟨hp0, hv0⟩
      have he0key : e0.1 = msgenpackStr qp ++
          (encValKey hash64 (.vint fv) ++ msgenpackInt pr0.2.tstamp) := by
        rw [he0, show (pvtEntry hash64 pr0).1 = pvtKeyOf hash64 pr0.2 from rfl]
        unfold pvtKeyOf
        rw [hp0, hv0, List.append_assoc]
      have htr0 : e0.1.take ((msgenpackStr qp ++ encValKey hash64 (.vint lv))).length = msgenpackStr qp ++
          ((encValKey hash64 (.vint fv) ++ msgenpackInt pr0.2.tstamp).take
            (encValKey hash64 (.vint lv)).length) := by
        rw [he0key, List.length_append, take_add_append]
      have htlt0 := enc_take_lt_iff hash64 (.vint fv) (.vint lv)
        (msgenpackInt pr0.2.tstamp)
      have hpe0 : bLt (e0.1.take ((msgenpackStr qp ++ encValKey hash64 (.vint lv))).length) (msgenpackStr qp ++ encValKey hash64 (.vint lv)) = false := by
        rw [bLt_false_iff]
        intro hcon
        rw [htr0] at hcon
        have h5 := (append_lt_append_left _ _ _).mp hcon
        rw [htlt0.1] at h5
        rw [encValKey_vint_lt_iff_neg hash64 hfv0 hlv0 hfv1 (by omega)] at h5
        omega
      have hp0t : (!(bLt (e0.1.take ((msgenpackStr qp ++ encValKey hash64 (.vint lv))).length) (msgenpackStr qp ++ encValKey hash64 (.vint lv)))) = true := by
        rw [hpe0]
        rfl
      have hproc : (e0 :: (st.pvt.takeWhile (fun e => bLt e.1 (msgenpackStr qp ++ encValKey hash64 (.vint fv)))).reverse).takeWhile
          (fun e => !(bLt (e.1.take ((msgenpackStr qp ++ encValKey hash64 (.vint lv))).length) (msgenpackStr qp ++ encValKey hash64 (.vint lv)))) =
          e0 :: (st.pvt.filter (fun e =>
            (!(bLt (e.1.take ((msgenpackStr qp ++ encValKey hash64 (.vint lv))).length) (msgenpackStr qp ++ encValKey hash64 (.vint lv)))) && bLt e.1 (msgenpackStr qp ++ encValKey hash64 (.vint fv)))).reverse := by
        rw [List.takeWhile_cons, hp0t]
        simp only [if_true]
        rw [hpre_eq]
      have hfetch0 : fetchRow st e0 = some pr0.2 := by
        rw [he0]
        simp only [pvtEntry]
        exact fetchRow_entry hwf hpr0
      have hsome2 : ∀ e ∈ (e0 :: (st.pvt.takeWhile
          (fun e => bLt e.1 (msgenpackStr qp ++ encValKey hash64 (.vint fv)))).reverse).takeWhile
          (fun e => !(bLt (e.1.take ((msgenpackStr qp ++ encValKey hash64 (.vint lv))).length) (msgenpackStr qp ++ encValKey hash64 (.vint lv)))),
          (fetchRow st e).isSome := by
        intro e he
        rw [hproc] at he
        rcases List.mem_cons.mp he with rfl | he2
        · rw [hfetch0]
          rfl
        · refine hsomePre e ?_
          rw [hpre_eq]
          exact he2
      have hspec := @subRowsF_spec st (msgenpackStr qp ++ encValKey hash64 (.vint lv)) bLt
        (e0 :: (st.pvt.takeWhile (fun e => bLt e.1 (msgenpackStr qp ++ encValKey hash64 (.vint fv)))).reverse) 0 [] hsome2
      have hsplitpt : ∀ pr ∈ st.rows, matchesRangeQ qp fv lv true pr =
          (((pr.2.prop == qp) && (pr.2.valu == Valu.vint fv)) ||
            matchesRangeQ qp (fv + 1) lv true pr) := by
        intro pr hpr
        rw [Bool.eq_iff_iff, Bool.or_eq_true, matchesRangeQ_iff, matchesRangeQ_iff]
        simp only [Bool.and_eq_true, beq_iff_eq, if_true]
        constructor
        · rintro ⟨h1, v, h2, h3, h4⟩
          rcases eq_or_lt_of_le h3 with heq2 | hlt2
          · exact Or.inl ⟨h1, by rw [h2, ← heq2]⟩
          · exact Or.inr ⟨h1, v, h2, by omega, h4⟩
        · rintro (⟨h1, h2⟩ | ⟨h1, v, h2, h3, h4⟩)
          · refine ⟨h1, fv, h2, le_refl _, ?_⟩
            exact hfl
          · exact ⟨h1, v, h2, by omega, h4⟩
      refine ⟨_, hspec, ?_, ?_, ?_⟩
      · intro hdup
        have hfvsing := eq_singleton_of_length_le_one hfvmem hdup
        have hpermfull : (st.rows.filter (matchesRangeQ qp fv lv true)).Perm
            (pr0 :: st.rows.filter (matchesRangeQ qp (fv + 1) lv true)) := by
          have h1 : st.rows.filter (matchesRangeQ qp fv lv true) =
              st.rows.filter (fun pr =>
                ((pr.2.prop == qp) && (pr.2.valu == Valu.vint fv)) ||
                  matchesRangeQ qp (fv + 1) lv true pr) :=
            List.filter_congr hsplitpt
          rw [h1]
          refine (filter_or_perm ?_).trans ?_
          · intro pr hpr hcontra
            obtain ⟨ha, hb⟩ := hcontra
            simp only [Bool.and_eq_true, beq_iff_eq] at ha
            obtain ⟨_, v, h2, h3, _⟩ := (matchesRangeQ_iff _ _ _ _ _).mp hb
            rw [ha.2] at h2
            have := Valu.vint.inj h2
            omega
          · rw [hfvsing]
            exact List.Perm.refl _
        simp only [List.nil_append]
        rw [hproc]
        simp only [List.filterMap_cons, hfetch0]
        refine (hpermPre2.cons pr0.2).trans ?_
        have h9 := (hpermfull.map Prod.snd).symm
        simp only [List.map_cons] at h9
        exact h9
      · simp only [List.nil_append]
        rw [hproc]
        simp only [List.filterMap_cons, hfetch0]
        rw [List.pairwise_cons]
        constructor
        · intro r hr
          have hmem5 := hpermPre2.mem_iff.mp hr
          obtain ⟨pr, hpr, rfl⟩ := List.mem_map.mp hmem5
          have hq := List.of_mem_filter hpr
          obtain ⟨_, v, h2, h3, _⟩ := (matchesRangeQ_iff _ _ _ _ _).mp hq
          have hvv : vintOf pr.2 = v := by
            unfold vintOf
            rw [h2]
          have hvz : vintOf pr0.2 = fv := by
            unfold vintOf
            rw [hv0]
          rw [hvv, hvz]
          omega
        · exact hpwPre
      · intro r hr
        simp only [List.nil_append] at hr
        rw [hproc] at hr
        simp only [List.filterMap_cons, hfetch0] at hr
        rcases List.mem_cons.mp hr with rfl | hr2
        · refine ⟨hp0, fv, hv0, le_refl _, ?_⟩
          exact hfl
        · have hmem5 := hpermPre2.mem_iff.mp hr2
          obtain ⟨pr, hpr, rfl⟩ := List.mem_map.mp hmem5
          have hq := List.of_mem_filter hpr
          obtain ⟨h1, v, h2, h3, h4⟩ := (matchesRangeQ_iff _ _ _ _ _).mp hq
          simp only [if_true] at h4
          exact ⟨h1, v, h2, by omega, h4⟩

    · -- the cursor landed strictly past first_key: step back once
      simp only [if_true]
      -- no row carries value first_val: first_key-prefixed keys would sit at
      -- or above the cursor whose truncation is already past first_key
      have hnofv : st.rows.filter
          (fun pr => (pr.2.prop == qp) && (pr.2.valu == Valu.vint fv)) = [] := by
        rw [List.filter_eq_nil_iff]
        intro pr hpr hq
        simp only [Bool.and_eq_true, beq_iff_eq] at hq
        have hentmem : pvtEntry hash64 pr ∈ st.pvt := by
          rw [hwf.1]
          exact (sortEnts_perm _).mem_iff.mpr
            (List.mem_append.mpr (Or.inr (List.mem_map.mpr ⟨pr, hpr, rfl⟩)))
        have hinit2 : isInit (msgenpackStr qp ++ encValKey hash64 (.vint fv)) (pvtEntry hash64 pr).1 = true := by
          rw [show (pvtEntry hash64 pr).1 = pvtKeyOf hash64 pr.2 from rfl]
          unfold pvtKeyOf
          rw [hq.1, hq.2]
          exact isInit_of_append _ _
        obtain ⟨u, hu⟩ := (isInit_iff_exists _ _).mp hinit2
        have hdw : pvtEntry hash64 pr ∈ st.pvt.dropWhile (fun e => bLt e.1 (msgenpackStr qp ++ encValKey hash64 (.vint fv))) := by
          refine mem_dropWhile_of_not hentmem ?_
          rw [bLt_false_iff, hu]
          exact not_append_lt_self _ _
        rw [hsuf] at hdw
        have hsorted2 : List.Pairwise entR (e0 :: rest) := by
          rw [← hsuf]
          exact hsorted.sublist (List.dropWhile_sublist _)
        have hle : e0.1 ≤ (pvtEntry hash64 pr).1 := by
          rcases List.mem_cons.mp hdw with heq2 | hmem3
          · rw [heq2]
          · exact entLe_key_le ((List.pairwise_cons.mp hsorted2).1 _ hmem3)
        have htr : e0.1.take ((msgenpackStr qp ++ encValKey hash64 (.vint fv))).length ≤ (msgenpackStr qp ++ encValKey hash64 (.vint fv)) := by
          have h1 := take_le_take ((msgenpackStr qp ++ encValKey hash64 (.vint fv))).length _ _ hle
          rw [hu, List.take_left] at h1
          exact h1
        rw [bLt_iff] at hpos
        exact absurd hpos (not_lt.mpr htr)
      have hsame : st.rows.filter (matchesRangeQ qp fv lv true) =
          st.rows.filter (matchesRangeQ qp (fv + 1) lv true) := by
        refine List.filter_congr ?_
        intro pr hpr
        rw [Bool.eq_iff_iff, matchesRangeQ_iff, matchesRangeQ_iff]
        constructor
        · rintro ⟨h1, v, h2, h3, h4⟩
          refine ⟨h1, v, h2, ?_, h4⟩
          rcases eq_or_lt_of_le h3 with heq2 | hlt2
          · exfalso
            have h5 : (fun pr : Nat × Row =>
                (pr.2.prop == qp) && (pr.2.valu == Valu.vint fv)) pr = true := by
              simp only [Bool.and_eq_true, beq_iff_eq]
              exact ⟨h1, by rw [h2, ← heq2]⟩
            have hmem4 : pr ∈ st.rows.filter
                (fun pr => (pr.2.prop == qp) && (pr.2.valu == Valu.vint fv)) :=
              List.mem_filter.mpr ⟨hpr, h5⟩
            rw [hnofv] at hmem4
            exact absurd hmem4 (List.not_mem_nil _)
          · omega
        · rintro ⟨h1, v, h2, h3, h4⟩
          exact ⟨h1, v, h2, by omega, h4⟩
      -- the prefix below first_key is nonempty (leading sentinel)
      have hzpre : zeroSent ∈ st.pvt.takeWhile (fun e => bLt e.1 (msgenpackStr qp ++ encValKey hash64 (.vint fv))) := by
        rw [takeWhile_eq_filter_sorted hdown hsorted]
        refine List.mem_filter.mpr ⟨?_, ?_⟩
        · rw [hwf.1]
          exact (sortEnts_perm _).mem_iff.mpr (by simp)
        · rw [bLt_iff]
          exact zero_lt_propKey qp _
      obtain ⟨z0, zrest, hzcons⟩ :=
        List.exists_cons_of_ne_nil (List.ne_nil_of_mem hzpre)
      rw [hzcons]
      dsimp only []
      rw [← hzcons]
      have hsome2 : ∀ e ∈ ((st.pvt.takeWhile
          (fun e => bLt e.1 (msgenpackStr qp ++ encValKey hash64 (.vint fv)))).reverse).takeWhile
          (fun e => !(bLt (e.1.take ((msgenpackStr qp ++ encValKey hash64 (.vint lv))).length) (msgenpackStr qp ++ encValKey hash64 (.vint lv)))),
          (fetchRow st e).isSome := hsomePre
      have hspec := @subRowsF_spec st (msgenpackStr qp ++ encValKey hash64 (.vint lv)) bLt
        ((st.pvt.takeWhile (fun e => bLt e.1 (msgenpackStr qp ++ encValKey hash64 (.vint fv)))).reverse) 0 [] hsome2
      refine ⟨_, hspec, ?_, ?_, ?_⟩
      · intro _
        simp only [List.nil_append]
        rw [hpre_eq, hsame]
        exact hpermPre2
      · simp only [List.nil_append]
        rw [hpre_eq]
        exact hpwPre
      · intro r hr
        simp only [List.nil_append] at hr
        rw [hpre_eq] at hr
        have hmem5 := hpermPre2.mem_iff.mp hr
        obtain ⟨pr, hpr, rfl⟩ := List.mem_map.mp hmem5
        have hq := List.of_mem_filter hpr
        obtain ⟨h1, v, h2, h3, h4⟩ := (matchesRangeQ_iff _ _ _ _ _).mp hq
        simp only [if_true] at h4
        exact ⟨h1, v, h2, by omega, h4⟩

/-- Evaluation of `rowsByMinmax` with no limit: the limit-exhaustion
early return is dead (its guard is `&& false`). -/
theorem rowsByMinmax_eval_none (hash64 : Bytes → Nat) (st : DbState)
    (prop : Bytes) (minval maxval : Int) (right_closed : Bool) :
    rowsByMinmax hash64 st prop minval maxval none right_closed =
    if maxval < minval then .ok []
    else
      (if minval < 0 then
        subrangeRows hash64 st (msgenpackStr prop) minval (min (-1) maxval) none
          (decide (0 ≤ maxval) || right_closed)
      else .ok []).bind fun ret =>
        if decide (minval < 0) && false then .ok ret
        else if 0 ≤ maxval then
          (subrangeRows hash64 st (msgenpackStr prop) (max 0 minval) maxval none
            right_closed).map (fun ret2 => ret ++ ret2)
        else .ok ret := rfl

set_option maxHeartbeats 1000000 in
/-- `_rowsByMinmax` without limit: under well-formedness and in-bounds
range ends the call succeeds and its result is sorted by ascending
integer value; when additionally (if the range enters the negatives) at
most one stored row is valued exactly at the lower end, the result is a
permutation of the rows matching the window. -/
theorem rowsByMinmax_spec {hash64 : Bytes → Nat} {st : DbState} {qp : Bytes}
    {lo hi : Int} (rc : Bool) (hwf : WF hash64 st) (hp : qp.length ≤ MAX_PROP_LEN)
    (hlo : MIN_INT_VAL ≤ lo) (hhi : hi ≤ MAX_INT_VAL) :
    ∃ L, rowsByMinmax hash64 st qp lo hi none rc = .ok L ∧
      ((lo < 0 → (st.rows.filter (fun pr => (pr.2.prop == qp) &&
          (pr.2.valu == Valu.vint lo))).length ≤ 1) →
        L.Perm ((st.rows.filter (matchesRangeQ qp lo hi rc)).map Prod.snd)) ∧
      L.Pairwise (fun r1 r2 => vintOf r1 ≤ vintOf r2) := by
  rw [rowsByMinmax_eval_none]
  by_cases hmm : hi < lo
  · rw [if_pos hmm]
    refine ⟨[], rfl, ?_, List.Pairwise.nil⟩
    intro _
    have hfe : st.rows.filter (matchesRangeQ qp lo hi rc) = [] := by
      rw [List.filter_eq_nil_iff]
      intro pr hpr hq
      obtain ⟨_, v, _, h3, h4⟩ := (matchesRangeQ_iff _ _ _ _ _).mp hq
      split at h4 <;> omega
    rw [hfe]
    simp
  · rw [if_neg hmm]
    have hle : lo ≤ hi := by omega
    by_cases hneg : lo < 0
    · rw [if_pos hneg]
      by_cases hpos : 0 ≤ hi
      · have hmin : min (-1) hi = (-1 : Int) := min_eq_left (by omega)
        have hrcneg : (decide (0 ≤ hi) || rc) = true := by
          simp [hpos]
        rw [hmin, hrcneg]
        obtain ⟨Ln, hneq, hnpermI, hnpw, hnwin⟩ :=
          @subrangeRows_bwd hash64 st qp lo (-1) true hwf hp hlo hneg
            (by omega) (by omega)
        rw [hneq]
        dsimp only [Except.bind]
        simp only [Bool.and_false, Bool.false_eq_true, if_false]
        rw [if_pos hpos]
        have hmax : max 0 lo = (0 : Int) := max_eq_left (by omega)
        rw [hmax]
        obtain ⟨Lp, hpeq, hpperm, hppw, hpwin⟩ :=
          @subrangeRows_fwd hash64 st qp 0 hi rc hwf hp (le_refl 0) hpos hhi
        rw [hpeq]
        dsimp only [Except.map]
        refine ⟨Ln ++ Lp, rfl, ?_, ?_⟩
        · intro hdup
          have hnperm := hnpermI (hdup hneg)
          have hsplit : ∀ pr ∈ st.rows, matchesRangeQ qp lo hi rc pr =
              (matchesRangeQ qp lo (-1) true pr || matchesRangeQ qp 0 hi rc pr) := by
            intro pr _
            rw [Bool.eq_iff_iff, Bool.or_eq_true, matchesRangeQ_iff,
              matchesRangeQ_iff, matchesRangeQ_iff]
            constructor
            · rintro ⟨h1, v, h2, h3, h4⟩
              by_cases hv : v ≤ -1
              · refine Or.inl ⟨h1, v, h2, h3, ?_⟩
                rw [if_pos rfl]
                omega
              · refine Or.inr ⟨h1, v, h2, by omega, h4⟩
            · rintro (⟨h1, v, h2, h3, h4⟩ | ⟨h1, v, h2, h3, h4⟩)
              · rw [if_pos rfl] at h4
                refine ⟨h1, v, h2, h3, ?_⟩
                split <;> omega
              · exact ⟨h1, v, h2, by omega, h4⟩
          have hcongr := List.filter_congr hsplit
          refine List.Perm.trans (List.Perm.append hnperm hpperm) ?_
          rw [← List.map_append]
          refine List.Perm.map _ ?_
          rw [hcongr]
          refine (filter_or_perm ?_).symm
          intro pr hpr hcontra
          obtain ⟨ha, hb⟩ := hcontra
          obtain ⟨_, v, h2, _, h4⟩ := (matchesRangeQ_iff _ _ _ _ _).mp ha
          obtain ⟨_, v2, h2b, h3b, _⟩ := (matchesRangeQ_iff _ _ _ _ _).mp hb
          rw [h2] at h2b
          have h5 := Valu.vint.inj h2b
          rw [if_pos rfl] at h4
          omega
        · rw [List.pairwise_append]
          refine ⟨hnpw, hppw, ?_⟩
          intro r1 hr1 r2 hr2
          obtain ⟨_, v1, hv1, _, h41⟩ := hnwin r1 hr1
          obtain ⟨_, v2, hv2, h32, _⟩ := hpwin r2 hr2
          rw [if_pos rfl] at h41
          have e1 : vintOf r1 = v1 := by
            unfold vintOf
            rw [hv1]
          have e2 : vintOf r2 = v2 := by
            unfold vintOf
            rw [hv2]
          rw [e1, e2]
          omega
      · have hmin : min (-1) hi = hi := min_eq_right (by omega)
        have hrcneg : (decide (0 ≤ hi) || rc) = rc := by
          simp [hpos]
        rw [hmin, hrcneg]
        obtain ⟨Ln, hneq, hnpermI, hnpw, _⟩ :=
          @subrangeRows_bwd hash64 st qp lo hi rc hwf hp hlo hneg hle
            (by omega)
        rw [hneq]
        dsimp only [Except.bind]
        simp only [Bool.and_false, Bool.false_eq_true, if_false]
        rw [if_neg hpos]
        exact ⟨Ln, rfl, fun hdup => hnpermI (hdup hneg), hnpw⟩
    · rw [if_neg hneg]
      have hpos : 0 ≤ hi := by omega
      dsimp only [Except.bind]
      simp only [Bool.and_false, Bool.false_eq_true, if_false]
      rw [if_pos hpos]
      have hmax : max 0 lo = lo := max_eq_right (by omega)
      rw [hmax]
      obtain ⟨Lp, hpeq, hpperm, hppw, _⟩ :=
        @subrangeRows_fwd hash64 st qp lo hi rc hwf hp (by omega) hle hhi
      rw [hpeq]
      dsimp only [Except.map]
      exact ⟨Lp, rfl, fun _ => hpperm, hppw⟩

/-- C1 (amended): for well-formed stores, in-bounds ends, and (when the
lower end is negative) at most one stored row valued exactly `lo` under
the property, `get_by_range(p, lo, hi)` succeeds and returns exactly
(up to order) the rows with property `p` and integer value
`lo ≤ v < hi` — the upper bound is EXCLUSIVE, not inclusive. -/
theorem C1_range_amended {hash64 : Bytes → Nat} {st : DbState} {qp : Bytes}
    {lo hi : Int} (hwf : WF hash64 st) (hp : qp.length ≤ MAX_PROP_LEN)
    (hlo : MIN_INT_VAL ≤ lo) (hhi : hi ≤ MAX_INT_VAL)
    (hdup : lo < 0 → (st.rows.filter (fun pr => (pr.2.prop == qp) &&
      (pr.2.valu == Valu.vint lo))).length ≤ 1) :
    ∃ L, rowsByRange hash64 st qp lo hi none = .ok L ∧
      L.Perm ((st.rows.filter (matchesRangeQ qp lo hi false)).map Prod.snd) := by
  obtain ⟨L, heq, hpermI, _⟩ := rowsByMinmax_spec false hwf hp hlo hhi
  exact ⟨L, heq, hpermI hdup⟩

set_option maxRecDepth 1000000 in
theorem C1_range_amended_witness :
    ∃ L, rowsByRange hashZero stNegPos propFoo (-5) 3 none = .ok L ∧
      L.Perm ((stNegPos.rows.filter
        (matchesRangeQ propFoo (-5) 3 false)).map Prod.snd) :=
  C1_range_amended (by decide) (by decide) (by decide) (by decide)
    (fun _ => by decide)

/-- C9: for every integer range query, the rows returned by
`_rowsByMinmax` come out in ascending numeric value order: the negative
half is scanned backward (most negative first) and precedes the
forward-scanned non-negative half. -/
theorem C9_range_ordering {hash64 : Bytes → Nat} {st : DbState} {qp : Bytes}
    {lo hi : Int} (rc : Bool) (hwf : WF hash64 st) (hp : qp.length ≤ MAX_PROP_LEN)
    (hlo : MIN_INT_VAL ≤ lo) (hhi : hi ≤ MAX_INT_VAL) :
    ∃ L, rowsByMinmax hash64 st qp lo hi none rc = .ok L ∧
      L.Pairwise (fun r1 r2 => vintOf r1 ≤ vintOf r2) := by
  obtain ⟨L, heq, _, hpw⟩ := rowsByMinmax_spec rc hwf hp hlo hhi
  exact ⟨L, heq, hpw⟩

set_option maxRecDepth 1000000 in
theorem C9_range_ordering_witness :
    ∃ L, rowsByMinmax hashZero stNegDup propFoo (-5) 3 none true = .ok L ∧
      L.Pairwise (fun r1 r2 => vintOf r1 ≤ vintOf r2) :=
  C9_range_ordering true (by decide) (by decide) (by decide) (by decide)

end LmdbCore
